import Mathlib

/-!
# Verification of HoraeDB/CeresDB analytic-engine core components

This development gives a shallow embedding, in Lean 4, of several components of
the HoraeDB (formerly CeresDB) storage engine, and proves (or refutes) the
corresponding claims of the natural-language specification:

* `common_types/src/bitset.rs` — the `BitSet` used by the contiguous row
  encoding (claim C10);
* `analytic_engine/src/instance/serial_executor.rs` — the per-table flush
  scheduler state machine (claims C1, C2);
* `wal/src/kv_encoder.rs` — the WAL log-key encoding (claim C7);
* `analytic_engine/src/instance/alter.rs` — alter-schema validation (claim C4);
* `analytic_engine/src/sst/parquet/builder.rs` — record-batch partitioning
  into row groups (claim C5);
* `wal/src/table_kv_impl/namespace.rs` — expired-bucket purging (claim C6);
* `common_types/src/row/contiguous.rs` — the contiguous row encoding
  (claims C3, C8, C9).

Machine integers are modelled as `Nat`/`Int` with explicit truncation where the
source truncates; fallible operations return `Except`/`Option`, with a
dedicated error value standing for a Rust panic (slice index out of bounds,
`unwrap` of `None`).
-/

namespace HoraeDB

/-! ## BitSet (common_types/src/bitset.rs)

The bits are stored as bytes (each a `Nat` kept below 256) in least
significant bit order.  Rust's `self.buffer[i]` panics when out of bounds; the
model uses `List.set` / `List.getD`, which agree with the source on every
`BitSet` whose buffer covers `num_bits` bits (the `WF` predicate below, true
for every value built by `new` or `try_from_raw`). -/

structure BitSet where
  buffer : List Nat
  num_bits : Nat
deriving DecidableEq

namespace BitSet

def num_bytes (num_bits : Nat) : Nat := (num_bits + 7) >>> 3

def new (num_bits : Nat) : BitSet :=
  { buffer := List.replicate (num_bytes num_bits) 0, num_bits := num_bits }

def try_from_raw (buffer : List Nat) (num_bits : Nat) : Option BitSet :=
  if buffer.length < num_bytes num_bits then none
  else some { buffer := buffer, num_bits := num_bits }

def compute_byte_bit_index (index : Nat) : Nat × Nat := (index >>> 3, index &&& 7)

/-- `BitSet::set`: returns the updated bit set together with the `bool` the
Rust function returns. -/
def set (bs : BitSet) (index : Nat) : BitSet × Bool :=
  if index ≥ bs.num_bits then (bs, false)
  else
    let p := compute_byte_bit_index index
    ({ bs with buffer := bs.buffer.set p.1 ((bs.buffer.getD p.1 0) ||| (1 <<< p.2)) },
     true)

def is_set (bs : BitSet) (index : Nat) : Option Bool :=
  if index ≥ bs.num_bits then none
  else
    let p := compute_byte_bit_index index
    some (((bs.buffer.getD p.1 0) &&& (1 <<< p.2)) != 0)

/-- The buffer is long enough for all `num_bits` bits: holds for every bit set
produced by `new` or `try_from_raw`, and is what makes the Rust indexing
panic-free. -/
def WF (bs : BitSet) : Prop := num_bytes bs.num_bits ≤ bs.buffer.length

end BitSet

theorem bitset_new_wf (n : Nat) : (BitSet.new n).WF := by
  simp [BitSet.new, BitSet.WF]

lemma bitset_byte_index_lt {i n : Nat} (h : i < n) :
    i >>> 3 < BitSet.num_bytes n := by
  simp only [BitSet.num_bytes, Nat.shiftRight_eq_div_pow]
  omega

lemma bitset_and_seven (i : Nat) : i &&& 7 = i % 8 := by
  have h : i &&& 2 ^ 3 - 1 = i % 2 ^ 3 := Nat.and_pow_two_sub_one_eq_mod i 3
  norm_num at h
  exact h

lemma nat_lor_two_pow_and_ne_zero (x b : Nat) :
    (x ||| (1 <<< b)) &&& (1 <<< b) ≠ 0 := by
  have hb : (1 <<< b) = 2 ^ b := by
    simp [Nat.shiftLeft_eq]
  rw [hb]
  intro hzero
  have htest : Nat.testBit ((x ||| 2 ^ b) &&& 2 ^ b) b = true := by
    simp [Nat.testBit_and, Nat.testBit_lor, Nat.testBit_two_pow_self]
  rw [hzero] at htest
  simp [Nat.zero_testBit] at htest

/-- C10: `BitSet` indexing is total and in-bounds-correct: `set` on an
out-of-range index returns `false` and leaves the bit set unchanged, `set` on
an in-range index returns `true`, `is_set` returns `none` exactly on
out-of-range indices, and after a successful `set i`, `is_set i` returns
`some true`. -/
theorem bitset_set_is_set_correct (bs : BitSet) (i : Nat) (hwf : bs.WF) :
    (i ≥ bs.num_bits → bs.set i = (bs, false)) ∧
    (i < bs.num_bits → (bs.set i).2 = true) ∧
    (bs.is_set i = none ↔ i ≥ bs.num_bits) ∧
    (i < bs.num_bits → ((bs.set i).1).is_set i = some true) := by
  refine ⟨?_, ?_, ?_, ?_⟩
  · intro h
    simp [BitSet.set, h]
  · intro h
    simp [BitSet.set, Nat.not_le_of_lt h]
  · constructor
    · intro h
      by_contra hlt
      push_neg at hlt
      simp [BitSet.is_set, Nat.not_le_of_lt hlt] at h
    · intro h
      simp [BitSet.is_set, h]
  · intro h
    have hbyte : i >>> 3 < bs.buffer.length :=
      lt_of_lt_of_le (bitset_byte_index_lt h) hwf
    simp only [BitSet.set, BitSet.is_set, BitSet.compute_byte_bit_index,
      ge_iff_le, Nat.not_le_of_lt h, if_false]
    simp only [Nat.not_le_of_lt h, if_false, Option.some.injEq]
    have hget : (bs.buffer.set (i >>> 3)
        ((bs.buffer.getD (i >>> 3) 0) ||| (1 <<< (i &&& 7)))).getD (i >>> 3) 0
        = (bs.buffer.getD (i >>> 3) 0) ||| (1 <<< (i &&& 7)) := by
      rw [List.getD_eq_getElem?_getD, List.getElem?_set_self hbyte]
      simp
    rw [hget]
    simp [nat_lor_two_pow_and_ne_zero]

/-- Witness for C10 at a concrete input: the 50-bit bit set of the module's
own unit test, index 20. -/
theorem bitset_set_is_set_correct_witness :
    (BitSet.new 50).WF ∧
    ((BitSet.new 50).set 20).2 = true ∧
    (((BitSet.new 50).set 20).1).is_set 20 = some true := by
  refine ⟨bitset_new_wf 50, ?_, ?_⟩
  · exact (bitset_set_is_set_correct (BitSet.new 50) 20 (bitset_new_wf 50)).2.1
      (by decide)
  · exact (bitset_set_is_set_correct (BitSet.new 50) 20
      (bitset_new_wf 50)).2.2.2 (by decide)

/-! ## Table flush scheduler (analytic_engine/src/instance/serial_executor.rs)

`TableFlushScheduler::flush_sequentially` inspects `FlushState` under the
state mutex: on `Ready` it atomically moves to `Flushing` and spawns exactly
one flush job; on `Flushing` it waits on the notifier; on `Failed` it returns
a `BackgroundFlushFailed` error without spawning anything.  The spawned task
runs `on_flush_finished`, which moves the state back to `Ready` on success or
to `Failed(err_msg)` on error.  The model is a step relation on the scheduler
state extended with a ghost counter of in-flight flush jobs (spawned and not
yet past `on_flush_finished`). -/

inductive FlushState
  | ready
  | flushing
  | failed (err_msg : String)
deriving DecidableEq

structure SchedState where
  flush : FlushState
  inflight : Nat
deriving DecidableEq

inductive ScheduleOutcome
  | started
  | blocked
  | failedFast (msg : String)
deriving DecidableEq

/-- The lock-guarded check at the head of `flush_sequentially`: on `Ready` the
state is set to `Flushing` and a new job is spawned (`started`); on
`Flushing` the caller keeps waiting (`blocked`); on `Failed` the call returns
the `BackgroundFlushFailed { msg }` error (`failedFast msg`). -/
def flushSequentiallyCheck (s : SchedState) : ScheduleOutcome × SchedState :=
  match s.flush with
  | .ready => (.started, { flush := .flushing, inflight := s.inflight + 1 })
  | .flushing => (.blocked, s)
  | .failed m => (.failedFast m, s)

/-- `on_flush_finished`: the finishing job sets the state from its result and
is no longer in flight. -/
def onFlushFinished (s : SchedState) (res : Except String Unit) : SchedState :=
  match res with
  | .ok _ => { flush := .ready, inflight := s.inflight - 1 }
  | .error e => { flush := .failed e, inflight := s.inflight - 1 }

/-- One step of the scheduler: either some caller successfully schedules a
flush (only possible from `Ready`, under the state lock), or an in-flight
flush job completes with some result. `blocked` and `failedFast` outcomes do
not change the state and so need no transition. -/
inductive SchedStep : SchedState → SchedState → Prop
  | schedule (s : SchedState) (h : s.flush = .ready) :
      SchedStep s { flush := .flushing, inflight := s.inflight + 1 }
  | finish (s : SchedState) (res : Except String Unit) (h : 1 ≤ s.inflight) :
      SchedStep s (onFlushFinished s res)

/-- States reachable from the initial scheduler state
(`FlushState::default() = Ready`, no job in flight). -/
inductive SchedReachable : SchedState → Prop
  | init : SchedReachable { flush := .ready, inflight := 0 }
  | step {s s' : SchedState} (hr : SchedReachable s) (hs : SchedStep s s') :
      SchedReachable s'

/-- The inductive invariant: at most one job is in flight, and a job is in
flight exactly when the state is `Flushing`. -/
def SchedInv (s : SchedState) : Prop :=
  s.inflight ≤ 1 ∧ (s.flush = .flushing ↔ s.inflight = 1)

lemma schedInv_init : SchedInv { flush := .ready, inflight := 0 } := by
  constructor
  · exact Nat.zero_le 1
  · simp [SchedState.flush, SchedState.inflight]

lemma schedInv_step {s s' : SchedState} (hinv : SchedInv s) (hs : SchedStep s s') :
    SchedInv s' := by
  rcases hinv with ⟨hle, hiff⟩
  cases hs with
  | schedule h =>
    have hnot : s.inflight ≠ 1 := by
      intro h1
      have hcontra := hiff.mpr h1
      rw [h] at hcontra
      cases hcontra
    refine ⟨?_, ?_, ?_⟩
    · show s.inflight + 1 ≤ 1
      omega
    · intro _
      show s.inflight + 1 = 1
      omega
    · intro _
      rfl
  | finish res hge =>
    have hfl : s.flush = .flushing := hiff.mpr (by omega)
    cases res with
    | ok v =>
      refine ⟨?_, ?_, ?_⟩
      · show s.inflight - 1 ≤ 1
        omega
      · intro hcontra
        simp [onFlushFinished] at hcontra
      · intro hcontra
        change s.inflight - 1 = 1 at hcontra
        exact absurd hcontra (by omega)
    | error e =>
      refine ⟨?_, ?_, ?_⟩
      · show s.inflight - 1 ≤ 1
        omega
      · intro hcontra
        simp [onFlushFinished] at hcontra
      · intro hcontra
        change s.inflight - 1 = 1 at hcontra
        exact absurd hcontra (by omega)

lemma schedReachable_inv {s : SchedState} (h : SchedReachable s) : SchedInv s := by
  induction h with
  | init => exact schedInv_init
  | step hr hs ih => exact schedInv_step ih hs

/-- C1: at most one flush job per table is in flight in every reachable
state of the flush scheduler: a job is spawned only by the atomic
`Ready → Flushing` transition under the state lock, and the state leaves
`Flushing` only when that job completes in `on_flush_finished`, so no two
flush jobs for the same table ever overlap. -/
theorem at_most_one_flush_in_flight (s : SchedState) (h : SchedReachable s) :
    s.inflight ≤ 1 :=
  (schedReachable_inv h).1

/-- Witness for C1: the state reached by scheduling one flush from the
initial state is reachable and has at most one job in flight. -/
theorem at_most_one_flush_in_flight_witness :
    (SchedState.mk .flushing 1).inflight ≤ 1 :=
  at_most_one_flush_in_flight { flush := .flushing, inflight := 1 }
    (SchedReachable.step SchedReachable.init
      (SchedStep.schedule { flush := .ready, inflight := 0 } rfl))

/-- C2: a flush job that completes with an error moves the scheduler to
`Failed` carrying the error message and a successful one moves it back to
`Ready`; from a reachable `Failed(msg)` state, `flush_sequentially` returns
the `BackgroundFlushFailed` error with that same message without spawning a
new flush job, and no scheduler transition ever leaves the `Failed(msg)`
state, so the behaviour persists until the scheduler is re-created. -/
theorem flush_failure_fails_fast (s : SchedState) (msg : String)
    (h : SchedReachable s) :
    (∀ e, (onFlushFinished s (.error e)).flush = .failed e) ∧
    ((onFlushFinished s (.ok ())).flush = .ready) ∧
    (s.flush = .failed msg →
      flushSequentiallyCheck s = (.failedFast msg, s)) ∧
    (s.flush = .failed msg → ∀ s', SchedStep s s' →
      s'.flush = .failed msg ∧ s'.inflight = 0) := by
  refine ⟨fun e => rfl, rfl, ?_, ?_⟩
  · intro hf
    simp [flushSequentiallyCheck, hf]
  · intro hf s' hstep
    have hinv := schedReachable_inv h
    rcases hinv with ⟨hle, hiff⟩
    have hzero : s.inflight = 0 := by
      by_contra hnz
      have h1 : s.inflight = 1 := by omega
      have := hiff.mpr h1
      rw [hf] at this
      cases this
    cases hstep with
    | schedule hready =>
      rw [hf] at hready
      cases hready
    | finish res hge =>
      exact absurd hge (by omega)

/-- Witness for C2: the concrete reachable state obtained by scheduling a
flush and having it fail with message "disk full". -/
theorem flush_failure_fails_fast_witness :
    flushSequentiallyCheck { flush := .failed "disk full", inflight := 0 }
      = (.failedFast "disk full", { flush := .failed "disk full", inflight := 0 }) :=
  (flush_failure_fails_fast { flush := .failed "disk full", inflight := 0 }
    "disk full"
    (SchedReachable.step
      (SchedReachable.step SchedReachable.init
        (SchedStep.schedule { flush := .ready, inflight := 0 } rfl))
      (SchedStep.finish { flush := .flushing, inflight := 1 }
        (.error "disk full") (by decide)))).2.2.1 rfl

/-! ## WAL log-key encoding (wal/src/kv_encoder.rs)

A log key is `(region_id, sequence_num)`.  `LogKeyEncoder::encode` writes
`namespace(u8) | region_id(u64) | sequence_num(u64) | version(u8)` through
`MemBufMut`.  `write_u64` (from common_types::bytes, not under src/) is
modelled from the spec: keys are written big-endian so that byte order equals
sequence order. -/

/-- Big-endian byte encoding of the low `w` bytes of `v`. Modelled from the
spec: the common_types byte-buffer writers are big-endian. -/
def beBytes : Nat → Nat → List Nat
  | 0, _ => []
  | w + 1, v => beBytes w (v / 256) ++ [v % 256]

def fromBeBytes (l : List Nat) : Nat := l.foldl (fun acc b => acc * 256 + b) 0

@[simp] lemma beBytes_length (w v : Nat) : (beBytes w v).length = w := by
  induction w generalizing v with
  | zero => rfl
  | succ w ih => simp [beBytes, ih]

lemma fromBeBytes_append_singleton (l : List Nat) (b : Nat) :
    fromBeBytes (l ++ [b]) = fromBeBytes l * 256 + b := by
  simp [fromBeBytes, List.foldl_append]

lemma fromBeBytes_beBytes (w v : Nat) : fromBeBytes (beBytes w v) = v % 256 ^ w := by
  induction w generalizing v with
  | zero =>
    simp only [beBytes, fromBeBytes, List.foldl_nil, pow_zero]
    omega
  | succ w ih =>
    rw [beBytes, fromBeBytes_append_singleton, ih]
    have h1 : v / 256 % 256 ^ w = v % (256 * 256 ^ w) / 256 :=
      (Nat.mod_mul_right_div_self v 256 (256 ^ w)).symm
    have h2 : 256 * 256 ^ w = 256 ^ (w + 1) := by ring
    have h3 : v % 256 = v % 256 ^ (w + 1) % 256 :=
      (Nat.mod_mod_of_dvd v ⟨256 ^ w, by ring⟩).symm
    rw [h1, h2, h3]
    exact Nat.div_add_mod' _ 256

inductive LogKeyError
  | decodeLogKey
  | invalidNamespace (expect given : Nat)
  | invalidVersion (expect given : Nat)
deriving DecidableEq

/-- Reading one byte from a buffer (`MemBuf::read_u8`); failing with the
`DecodeLogKey` error when the buffer is exhausted. -/
def readU8 : List Nat → Except LogKeyError (Nat × List Nat)
  | [] => .error .decodeLogKey
  | b :: rest => .ok (b, rest)

/-- Reading one big-endian u64 (`MemBuf::read_u64`), modelled from the spec. -/
def readU64 (l : List Nat) : Except LogKeyError (Nat × List Nat) :=
  if 8 ≤ l.length then .ok (fromBeBytes (l.take 8), l.drop 8)
  else .error .decodeLogKey

inductive KvNamespace
  | meta
  | log
deriving DecidableEq

def KvNamespace.as_u8 : KvNamespace → Nat
  | .meta => 0
  | .log => 1

structure LogKeyEncoder where
  version : Nat
  ns : KvNamespace

/-- NEWEST_LOG_KEY_ENCODING_VERSION = LOG_KEY_ENCODING_V0 = 0. -/
def LogKeyEncoder.newest : LogKeyEncoder := { version := 0, ns := .log }

/-- Key format: namespace(u8) | region_id(u64) | sequence_num(u64) |
version header(u8). -/
def LogKeyEncoder.encode (e : LogKeyEncoder) (log_key : Nat × Nat) : List Nat :=
  [e.ns.as_u8] ++ beBytes 8 log_key.1 ++ beBytes 8 log_key.2 ++ [e.version]

def LogKeyEncoder.decode (e : LogKeyEncoder) (buf : List Nat) :
    Except LogKeyError (Nat × Nat) :=
  match readU8 buf with
  | .error er => .error er
  | .ok (nsb, buf1) =>
    if nsb = e.ns.as_u8 then
      match readU64 buf1 with
      | .error er => .error er
      | .ok (r, buf2) =>
        match readU64 buf2 with
        | .error er => .error er
        | .ok (s, buf3) =>
          match readU8 buf3 with
          | .error er => .error er
          | .ok (ver, _rest) =>
            if ver = e.version then .ok (r, s)
            else .error (.invalidVersion e.version ver)
    else .error (.invalidNamespace e.ns.as_u8 nsb)

/-- Lexicographic (memcmp-style) strict order on byte strings. -/
def bytesLt : List Nat → List Nat → Bool
  | _, [] => false
  | [], _ :: _ => true
  | x :: xs, y :: ys =>
    if x < y then true
    else if x = y then bytesLt xs ys
    else false

lemma bytesLt_append_left (p a b : List Nat) :
    bytesLt (p ++ a) (p ++ b) = bytesLt a b := by
  induction p with
  | nil => rfl
  | cons x xs ih => simp [bytesLt, ih]

lemma bytesLt_irrefl (l : List Nat) : bytesLt l l = false := by
  induction l with
  | nil => rfl
  | cons x xs ih => simp [bytesLt, ih]

lemma bytesLt_asymm {a b : List Nat} (h : bytesLt a b = true) :
    bytesLt b a = false := by
  induction a generalizing b with
  | nil =>
    cases b with
    | nil => simp [bytesLt] at h
    | cons y ys => rfl
  | cons x xs ih =>
    cases b with
    | nil => simp [bytesLt] at h
    | cons y ys =>
      by_cases hxy : x < y
      · have hyx : ¬ y < x := by omega
        have hne : y ≠ x := by omega
        simp [bytesLt, hyx, hne]
      · by_cases heq : x = y
        · subst heq
          simp only [bytesLt, lt_self_iff_false, if_false, if_pos rfl] at h ⊢
          exact ih h
        · simp [bytesLt, hxy, heq] at h

lemma bytesLt_beBytes_of_lt (w : Nat) :
    ∀ (a b : Nat) (xs ys : List Nat), a < b → b < 256 ^ w →
    bytesLt (beBytes w a ++ xs) (beBytes w b ++ ys) = true := by
  induction w with
  | zero =>
    intro a b xs ys hab hb
    simp only [pow_zero, Nat.lt_one_iff] at hb
    omega
  | succ w ih =>
    intro a b xs ys hab hb
    have hdle : a / 256 ≤ b / 256 := Nat.div_le_div_right (le_of_lt hab)
    have hbdiv : b / 256 < 256 ^ w := by
      have h256 : (0 : Nat) < 256 := by norm_num
      rw [Nat.div_lt_iff_lt_mul h256]
      calc b < 256 ^ (w + 1) := hb
        _ = 256 ^ w * 256 := by ring
    rcases lt_or_eq_of_le hdle with hdlt | hdeq
    · have e1 : beBytes (w + 1) a ++ xs
          = beBytes w (a / 256) ++ ([a % 256] ++ xs) := by
        simp [beBytes]
      have e2 : beBytes (w + 1) b ++ ys
          = beBytes w (b / 256) ++ ([b % 256] ++ ys) := by
        simp [beBytes]
      rw [e1, e2]
      exact ih (a / 256) (b / 256) _ _ hdlt hbdiv
    · have e1 : beBytes (w + 1) a ++ xs
          = beBytes w (b / 256) ++ ([a % 256] ++ xs) := by
        simp [beBytes, hdeq]
      have e2 : beBytes (w + 1) b ++ ys
          = beBytes w (b / 256) ++ ([b % 256] ++ ys) := by
        simp [beBytes]
      have hmod : a % 256 < b % 256 := by omega
      rw [e1, e2, bytesLt_append_left]
      simp [bytesLt, hmod]

/-- C7: encoding a WAL log key `(region_id, sequence)` with the newest
`LogKeyEncoder` yields exactly the 18-byte layout
`namespace(1) | region_id(8, BE) | sequence(8, BE) | version(1)`; decoding
the encoding returns the same key; and for two keys sharing a region id, the
lexicographic byte order of the encodings coincides with the numeric order of
the sequence numbers. -/
theorem log_key_encode_decode_order (r s1 s2 : Nat)
    (hr : r < 2 ^ 64) (h1 : s1 < 2 ^ 64) (h2 : s2 < 2 ^ 64) :
    LogKeyEncoder.newest.encode (r, s1)
      = [1] ++ beBytes 8 r ++ beBytes 8 s1 ++ [0] ∧
    (LogKeyEncoder.newest.encode (r, s1)).length = 18 ∧
    LogKeyEncoder.newest.decode (LogKeyEncoder.newest.encode (r, s1))
      = .ok (r, s1) ∧
    (bytesLt (LogKeyEncoder.newest.encode (r, s1))
        (LogKeyEncoder.newest.encode (r, s2)) = true ↔ s1 < s2) := by
  have hpow : (256 : Nat) ^ 8 = 2 ^ 64 := by norm_num
  refine ⟨rfl, by simp [LogKeyEncoder.encode], ?_, ?_⟩
  · show LogKeyEncoder.newest.decode
      ([1] ++ beBytes 8 r ++ beBytes 8 s1 ++ [0]) = .ok (r, s1)
    have hread1 : readU8 ([1] ++ beBytes 8 r ++ beBytes 8 s1 ++ [0])
        = .ok (1, beBytes 8 r ++ (beBytes 8 s1 ++ [0])) := by
      simp [readU8]
    have hlen1 : (beBytes 8 r ++ (beBytes 8 s1 ++ [0])).length = 17 := by simp
    have htake1 : (beBytes 8 r ++ (beBytes 8 s1 ++ [0])).take 8 = beBytes 8 r := by
      rw [show (8 : Nat) = (beBytes 8 r).length from (beBytes_length 8 r).symm]
      exact List.take_left _ _
    have hdrop1 : (beBytes 8 r ++ (beBytes 8 s1 ++ [0])).drop 8
        = beBytes 8 s1 ++ [0] := by
      rw [show (8 : Nat) = (beBytes 8 r).length from (beBytes_length 8 r).symm]
      exact List.drop_left _ _
    have htake2 : (beBytes 8 s1 ++ [0]).take 8 = beBytes 8 s1 := by
      rw [show (8 : Nat) = (beBytes 8 s1).length from (beBytes_length 8 s1).symm]
      exact List.take_left _ _
    have hdrop2 : (beBytes 8 s1 ++ [0]).drop 8 = [0] := by
      rw [show (8 : Nat) = (beBytes 8 s1).length from (beBytes_length 8 s1).symm]
      exact List.drop_left _ _
    have hu64a : readU64 (beBytes 8 r ++ (beBytes 8 s1 ++ [0]))
        = .ok (r, beBytes 8 s1 ++ [0]) := by
      rw [readU64, if_pos (by rw [hlen1]; omega), htake1, hdrop1,
        fromBeBytes_beBytes, hpow, Nat.mod_eq_of_lt hr]
    have hu64b : readU64 (beBytes 8 s1 ++ [0]) = .ok (s1, [0]) := by
      rw [readU64, if_pos (by simp), htake2, hdrop2,
        fromBeBytes_beBytes, hpow, Nat.mod_eq_of_lt h1]
    rw [LogKeyEncoder.decode, hread1]
    simp [LogKeyEncoder.newest, KvNamespace.as_u8, hu64a, hu64b, readU8]
  · constructor
    · intro hlt
      rcases Nat.lt_trichotomy s1 s2 with h | h | h
      · exact h
      · subst h
        rw [bytesLt_irrefl] at hlt
        cases hlt
      · have hflip : bytesLt (LogKeyEncoder.newest.encode (r, s2))
            (LogKeyEncoder.newest.encode (r, s1)) = true := by
          show bytesLt (([1] ++ beBytes 8 r) ++ (beBytes 8 s2 ++ [0]))
            (([1] ++ beBytes 8 r) ++ (beBytes 8 s1 ++ [0])) = true
          rw [bytesLt_append_left]
          exact bytesLt_beBytes_of_lt 8 s2 s1 [0] [0] h (by rw [hpow]; exact h1)
        have := bytesLt_asymm hflip
        rw [this] at hlt
        cases hlt
    · intro hlt
      show bytesLt (([1] ++ beBytes 8 r) ++ (beBytes 8 s1 ++ [0]))
        (([1] ++ beBytes 8 r) ++ (beBytes 8 s2 ++ [0])) = true
      rw [bytesLt_append_left]
      exact bytesLt_beBytes_of_lt 8 s1 s2 [0] [0] hlt (by rw [hpow]; exact h2)

/-- Witness for C7 at region 3, sequences 5 and 9. -/
theorem log_key_encode_decode_order_witness :
    LogKeyEncoder.newest.decode (LogKeyEncoder.newest.encode (3, 5))
      = .ok (3, 5) ∧
    (bytesLt (LogKeyEncoder.newest.encode (3, 5))
      (LogKeyEncoder.newest.encode (3, 9)) = true ↔ 5 < 9) :=
  ⟨(log_key_encode_decode_order 3 5 9 (by norm_num) (by norm_num)
      (by norm_num)).2.2.1,
   (log_key_encode_decode_order 3 5 9 (by norm_num) (by norm_num)
      (by norm_num)).2.2.2⟩

/-! ## Alter schema (analytic_engine/src/instance/alter.rs)

`Instance::process_alter_schema_command` first runs `validate_before_alter`
(three `ensure!` checks, in order: table not dropped, current schema version
strictly below the requested schema version, current schema version equal to
`pre_schema_version`), then flushes the table, writes the WAL, writes the
manifest, and finally updates the in-memory schema.  Only the data relevant to
validation is modelled (`schema_version`, `is_dropped`); the three awaited
side effects are oracles whose success is a `Bool`, and the list of performed
effects is returned alongside the result. -/

structure TableDataState where
  schema_version : Nat
  is_dropped : Bool
deriving DecidableEq

structure AlterSchemaRequest where
  schema_version : Nat
  pre_schema_version : Nat
deriving DecidableEq

inductive AlterError
  | alterDroppedTable
  | invalidSchemaVersion (current_version given_version : Nat)
  | invalidPreVersion (current_version pre_version : Nat)
  | flushTable
  | writeWal
  | writeManifest
deriving DecidableEq

inductive AlterEffect
  | flush
  | walWrite
  | manifestWrite
  | setSchema (version : Nat)
deriving DecidableEq

def validate_before_alter (t : TableDataState) (request : AlterSchemaRequest) :
    Except AlterError Unit :=
  if t.is_dropped then .error .alterDroppedTable
  else if t.schema_version < request.schema_version then
    if t.schema_version = request.pre_schema_version then .ok ()
    else .error (.invalidPreVersion t.schema_version request.pre_schema_version)
  else .error (.invalidSchemaVersion t.schema_version request.schema_version)

def process_alter_schema_command (t : TableDataState) (request : AlterSchemaRequest)
    (flush_ok wal_ok manifest_ok : Bool) :
    Except AlterError Unit × List AlterEffect × TableDataState :=
  match validate_before_alter t request with
  | .error e => (.error e, [], t)
  | .ok _ =>
    if flush_ok = false then (.error .flushTable, [.flush], t)
    else if wal_ok = false then (.error .writeWal, [.flush, .walWrite], t)
    else if manifest_ok = false then
      (.error .writeManifest, [.flush, .walWrite, .manifestWrite], t)
    else
      (.ok (), [.flush, .walWrite, .manifestWrite, .setSchema request.schema_version],
        { t with schema_version := request.schema_version })

def resultIsInvalidPreVersion : Except AlterError Unit → Bool
  | .error (.invalidPreVersion _ _) => true
  | _ => false

/-- Counterexample for C4: altering a (not dropped) table at schema version 2
with `pre_schema_version = 0` but requested schema version 1 fails — yet with
`InvalidSchemaVersion`, not `InvalidPreVersion`, because the
`current_version < request.schema.version()` check runs first. -/
theorem alter_wrong_pre_version_counterexample :
    (process_alter_schema_command { schema_version := 2, is_dropped := false }
        { schema_version := 1, pre_schema_version := 0 } true true true).1
      = .error (.invalidSchemaVersion 2 1) ∧
    resultIsInvalidPreVersion
      (process_alter_schema_command { schema_version := 2, is_dropped := false }
        { schema_version := 1, pre_schema_version := 0 } true true true).1
      = false := by
  constructor <;> rfl

/-- C4 (amended): an alter-schema request whose `pre_schema_version` differs
from the current schema version always fails during validation, leaving the
table state unchanged and performing no flush, WAL write, manifest write or
in-memory schema update; the error is `InvalidPreVersion` precisely when the
two prior checks pass (table not dropped and requested schema version above
the current one) — otherwise it is `AlterDroppedTable` or
`InvalidSchemaVersion`. -/
theorem alter_invalid_pre_version_rejected (t : TableDataState)
    (request : AlterSchemaRequest) (f w m : Bool)
    (hpre : request.pre_schema_version ≠ t.schema_version) :
    (∃ e, (process_alter_schema_command t request f w m).1 = .error e) ∧
    (process_alter_schema_command t request f w m).2.1 = [] ∧
    (process_alter_schema_command t request f w m).2.2 = t ∧
    (t.is_dropped = false → t.schema_version < request.schema_version →
      (process_alter_schema_command t request f w m).1
        = .error (.invalidPreVersion t.schema_version request.pre_schema_version)) := by
  have hne : ¬ t.schema_version = request.pre_schema_version := fun h =>
    hpre h.symm
  by_cases hd : t.is_dropped
  · refine ⟨⟨.alterDroppedTable, ?_⟩, ?_, ?_, ?_⟩
    · simp [process_alter_schema_command, validate_before_alter, hd]
    · simp [process_alter_schema_command, validate_before_alter, hd]
    · simp [process_alter_schema_command, validate_before_alter, hd]
    · intro hfalse
      rw [hd] at hfalse
      cases hfalse
  · by_cases hv : t.schema_version < request.schema_version
    · refine ⟨⟨.invalidPreVersion t.schema_version request.pre_schema_version, ?_⟩,
        ?_, ?_, ?_⟩
      · simp [process_alter_schema_command, validate_before_alter, hd, hv, hne]
      · simp [process_alter_schema_command, validate_before_alter, hd, hv, hne]
      · simp [process_alter_schema_command, validate_before_alter, hd, hv, hne]
      · intro _ _
        simp [process_alter_schema_command, validate_before_alter, hd, hv, hne]
    · refine ⟨⟨.invalidSchemaVersion t.schema_version request.schema_version, ?_⟩,
        ?_, ?_, ?_⟩
      · simp [process_alter_schema_command, validate_before_alter, hd, hv]
      · simp [process_alter_schema_command, validate_before_alter, hd, hv]
      · simp [process_alter_schema_command, validate_before_alter, hd, hv]
      · intro _ hlt
        exact absurd hlt hv

/-- Witness for C4 (amended): table at version 2, request with
`pre_schema_version = 0` and requested schema version 3. -/
theorem alter_invalid_pre_version_rejected_witness :
    (process_alter_schema_command { schema_version := 2, is_dropped := false }
        { schema_version := 3, pre_schema_version := 0 } true true true).1
      = .error (.invalidPreVersion 2 0) ∧
    (process_alter_schema_command { schema_version := 2, is_dropped := false }
        { schema_version := 3, pre_schema_version := 0 } true true true).2.2
      = { schema_version := 2, is_dropped := false } :=
  ⟨(alter_invalid_pre_version_rejected
      { schema_version := 2, is_dropped := false }
      { schema_version := 3, pre_schema_version := 0 } true true true
      (by decide)).2.2.2 rfl (by decide),
   (alter_invalid_pre_version_rejected
      { schema_version := 2, is_dropped := false }
      { schema_version := 3, pre_schema_version := 0 } true true true
      (by decide)).2.2.1⟩

/-! ## Record-batch partitioning (analytic_engine/src/sst/parquet/builder.rs)

`RecordBytesReader::partition_record_batch` fetches record batches from the
stream and is supposed to group them into row groups of
`num_rows_per_row_group` rows.  The loop state is the running row counter
`fetched_row_num`, the open group `pending_fetched_record_batch :
Option (Vec<...>)` and the closed groups `fetched_record_batch`.  The model
is parametric in the batch type; `none` models the Rust panic of
`self.pending_fetched_record_batch.take().unwrap()` on a `None` value. -/

def partition_record_batch {α : Type} (num_rows : α → Nat) (limit : Nat) :
    List α → Nat → Option (List α) → List (List α) → Option (List (List α))
  | [], _fetched_row_num, pending, fetched =>
    match pending with
    | some remaining => some (fetched ++ [remaining])
    | none => some fetched
  | record_batch :: stream, fetched_row_num, pending, fetched =>
    let fetched1 := fetched_row_num + num_rows record_batch
    if fetched1 ≥ limit then
      match pending with
      | none => none
      | some p =>
        partition_record_batch num_rows limit stream 0 none (fetched ++ [p])
    else
      partition_record_batch num_rows limit stream fetched1
        (some (pending.getD [] ++ [record_batch])) fetched

/-- The partitioning as invoked from `read_all` (fresh counters). -/
def partition_record_batch_run {α : Type} (num_rows : α → Nat) (limit : Nat)
    (stream : List α) : Option (List (List α)) :=
  partition_record_batch num_rows limit stream 0 none []

/-- C5 (code bug): on the inputs of the module's own unit test
(`test_parquet_build_and_read`: five 3-row batches), partitioning with
`num_rows_per_row_group = 3` panics (`take().unwrap()` on an empty pending
group), and with `num_rows_per_row_group = 4` it silently drops the second
and fourth batches (9 of the 15 rows survive, against the expected row groups
`[4, 4, 4, 3]`): the batch that makes the counter reach the limit is never
pushed into any group. -/
theorem partition_record_batch_loses_batches :
    partition_record_batch_run (fun n : Nat => n) 3 [3, 3, 3, 3, 3] = none ∧
    partition_record_batch_run (fun n : Nat => n) 4 [3, 3, 3, 3, 3]
      = some [[3], [3], [3]] := by
  constructor <;> rfl

/-! ## Expired-bucket purging (wal/src/table_kv_impl/namespace.rs)

`NamespaceInner::purge_expired_buckets` iterates over the expired buckets;
for each bucket it first calls `TableKv::drop_table` on every WAL shard table
of the bucket (returning early on failure) while batching the deletion of the
bucket's meta record, then performs the single meta-table write with the
batched deletions, and only afterwards removes the buckets from the in-memory
bucket set.  Outcomes of the fallible collaborators are oracle parameters,
and the performed operations are returned as an event trace. -/

structure WalBucket where
  gmt_start_ms : Nat
  wal_shard_names : List String
deriving DecidableEq

/-- Modelled from the spec: the meta-table key of a bucket record (its exact
string format lives outside src/); only its identity matters here. -/
def format_bucket_key (ns_name : String) (b : WalBucket) : String × Nat :=
  (ns_name, b.gmt_start_ms)

inductive PurgeEvent
  | dropTable (table_name : String)
  | metaWrite (keys : List (String × Nat))
  | removeBucket (gmt_start_ms : Nat)
deriving DecidableEq

def PurgeEvent.isDropTable : PurgeEvent → Bool
  | .dropTable _ => true
  | _ => false

def PurgeEvent.isRemoveBucket : PurgeEvent → Bool
  | .removeBucket _ => true
  | _ => false

/-- The inner loop over one bucket's `wal_shard_names`. -/
def dropTablesLoop (drop_ok : String → Bool) :
    List String → Except String Unit × List PurgeEvent
  | [] => (.ok (), [])
  | t :: ts =>
    if drop_ok t then
      let r := dropTablesLoop drop_ok ts
      (r.1, .dropTable t :: r.2)
    else (.error t, [.dropTable t])

/-- The outer loop over the expired buckets, collecting the batched meta-table
keys to delete. -/
def dropBucketsLoop (drop_ok : String → Bool) (ns_name : String) :
    List WalBucket → Except String (List (String × Nat)) × List PurgeEvent
  | [] => (.ok [], [])
  | b :: rest =>
    let rt := dropTablesLoop drop_ok b.wal_shard_names
    match rt.1 with
    | .error e => (.error e, rt.2)
    | .ok _ =>
      let rr := dropBucketsLoop drop_ok ns_name rest
      match rr.1 with
      | .error e => (.error e, rt.2 ++ rr.2)
      | .ok keys => (.ok (format_bucket_key ns_name b :: keys), rt.2 ++ rr.2)

def purge_expired_buckets (drop_ok : String → Bool) (write_ok : Bool)
    (ns_name : String) (expired_buckets : List WalBucket) :
    Except String Unit × List PurgeEvent :=
  if expired_buckets.isEmpty then (.ok (), [])
  else
    let rb := dropBucketsLoop drop_ok ns_name expired_buckets
    match rb.1 with
    | .error e => (.error e, rb.2)
    | .ok keys =>
      if write_ok then
        (.ok (), rb.2 ++ [.metaWrite keys]
          ++ expired_buckets.map (fun b => .removeBucket b.gmt_start_ms))
      else (.error "PurgeBucket", rb.2 ++ [.metaWrite keys])

/-- The ordering claimed by the spec sentence: every shard-table drop happens
only after the meta write (scanning from the left, no drop may precede the
meta write). -/
def allDropsAfterMeta : List PurgeEvent → Bool
  | [] => true
  | .dropTable _ :: _ => false
  | .metaWrite _ :: _ => true
  | .removeBucket _ :: rest => allDropsAfterMeta rest

/-- The ordering the code actually implements: once the meta write happened,
no further shard-table drop occurs. -/
def noDropAfterMeta : List PurgeEvent → Bool
  | [] => true
  | .metaWrite _ :: rest => rest.all (fun e => !e.isDropTable)
  | _ :: rest => noDropAfterMeta rest

/-- Counterexample for C6: purging a single expired bucket with one shard
table (every collaborator succeeding) drops the shard table first and writes
the bucket's meta-record deletion afterwards — the meta write is not
persisted before the drop. -/
theorem purge_meta_write_after_drops_counterexample :
    (purge_expired_buckets (fun _ => true) true "ns"
        [{ gmt_start_ms := 0, wal_shard_names := ["wal_shard_0"] }]).2
      = [.dropTable "wal_shard_0", .metaWrite [("ns", 0)], .removeBucket 0] ∧
    allDropsAfterMeta
      (purge_expired_buckets (fun _ => true) true "ns"
        [{ gmt_start_ms := 0, wal_shard_names := ["wal_shard_0"] }]).2
      = false := by
  constructor <;> rfl

lemma dropTablesLoop_all_drops (drop_ok : String → Bool) (ts : List String) :
    (dropTablesLoop drop_ok ts).2.all PurgeEvent.isDropTable = true := by
  induction ts with
  | nil => rfl
  | cons t ts ih =>
    by_cases h : drop_ok t
    · simp [dropTablesLoop, h, PurgeEvent.isDropTable, ih]
    · simp [dropTablesLoop, h, PurgeEvent.isDropTable]

lemma dropBucketsLoop_all_drops (drop_ok : String → Bool) (ns_name : String)
    (bs : List WalBucket) :
    (dropBucketsLoop drop_ok ns_name bs).2.all PurgeEvent.isDropTable = true := by
  induction bs with
  | nil => rfl
  | cons b rest ih =>
    have ht := dropTablesLoop_all_drops drop_ok b.wal_shard_names
    rw [dropBucketsLoop]
    rcases hcase : (dropTablesLoop drop_ok b.wal_shard_names).1 with e | u
    · simp only [hcase]
      exact ht
    · simp only [hcase]
      rcases hcase2 : (dropBucketsLoop drop_ok ns_name rest).1 with e2 | keys
      · simp only [hcase2, List.all_append]
        rw [ht, ih]
        rfl
      · simp only [hcase2, List.all_append]
        rw [ht, ih]
        rfl

lemma noDropAfterMeta_of_drops_front (l rest : List PurgeEvent)
    (h : l.all PurgeEvent.isDropTable = true) :
    noDropAfterMeta (l ++ rest) = noDropAfterMeta rest := by
  induction l with
  | nil => rfl
  | cons e l ih =>
    rw [List.all_cons, Bool.and_eq_true] at h
    cases e with
    | dropTable t => simp [noDropAfterMeta, ih h.2]
    | metaWrite keys => cases h.1
    | removeBucket g => cases h.1

lemma noDropAfterMeta_of_all_drops (l : List PurgeEvent)
    (h : l.all PurgeEvent.isDropTable = true) :
    noDropAfterMeta l = true := by
  have h2 := noDropAfterMeta_of_drops_front l [] h
  rw [List.append_nil] at h2
  rw [h2]
  rfl

/-- C6 (amended): in `purge_expired_buckets`, all shard-table drops of the
expired buckets happen before the meta-table write that deletes their bucket
records (never after it), and the in-memory bucket records are removed only
when the meta write succeeded. -/
theorem purge_drops_tables_before_meta_delete (drop_ok : String → Bool)
    (write_ok : Bool) (ns_name : String) (expired_buckets : List WalBucket) :
    noDropAfterMeta (purge_expired_buckets drop_ok write_ok ns_name
      expired_buckets).2 = true ∧
    (write_ok = false →
      (purge_expired_buckets drop_ok write_ok ns_name expired_buckets).2.all
        (fun e => !e.isRemoveBucket) = true) := by
  have hall := dropBucketsLoop_all_drops drop_ok ns_name expired_buckets
  have hdropsNoRemove :
      (dropBucketsLoop drop_ok ns_name expired_buckets).2.all
        (fun e => !e.isRemoveBucket) = true := by
    rw [List.all_eq_true] at hall ⊢
    intro x hx
    have hxd := hall x hx
    cases x with
    | dropTable t => rfl
    | metaWrite keys => cases hxd
    | removeBucket g => cases hxd
  by_cases hempty : expired_buckets.isEmpty
  · constructor
    · simp [purge_expired_buckets, hempty, noDropAfterMeta]
    · intro _
      simp [purge_expired_buckets, hempty]
  · rcases hcase : (dropBucketsLoop drop_ok ns_name expired_buckets).1 with e | keys
    · have htrace : (purge_expired_buckets drop_ok write_ok ns_name
          expired_buckets).2 = (dropBucketsLoop drop_ok ns_name expired_buckets).2 := by
        simp [purge_expired_buckets, hempty, hcase]
      rw [htrace]
      exact ⟨noDropAfterMeta_of_all_drops _ hall, fun _ => hdropsNoRemove⟩
    · by_cases hw : write_ok
      · have htrace : (purge_expired_buckets drop_ok write_ok ns_name
            expired_buckets).2
            = (dropBucketsLoop drop_ok ns_name expired_buckets).2
              ++ ([PurgeEvent.metaWrite keys]
                ++ expired_buckets.map
                  (fun b => PurgeEvent.removeBucket b.gmt_start_ms)) := by
          simp [purge_expired_buckets, hempty, hcase, hw]
        rw [htrace]
        constructor
        · rw [noDropAfterMeta_of_drops_front _ _ hall]
          show (expired_buckets.map
            (fun b => PurgeEvent.removeBucket b.gmt_start_ms)).all
              (fun e => !e.isDropTable) = true
          rw [List.all_eq_true]
          intro x hx
          rw [List.mem_map] at hx
          rcases hx with ⟨b, _, hb⟩
          rw [← hb]
          rfl
        · intro hfalse
          rw [hw] at hfalse
          cases hfalse
      · have hwf : write_ok = false := by
          cases write_ok
          · rfl
          · exact absurd rfl hw
        have htrace : (purge_expired_buckets drop_ok write_ok ns_name
            expired_buckets).2
            = (dropBucketsLoop drop_ok ns_name expired_buckets).2
              ++ [PurgeEvent.metaWrite keys] := by
          simp [purge_expired_buckets, hempty, hcase, hwf]
        rw [htrace]
        constructor
        · rw [noDropAfterMeta_of_drops_front _ _ hall]
          rfl
        · intro _
          rw [List.all_append, hdropsNoRemove]
          rfl

/-- Witness for C6 (amended): a concrete purge of two buckets where the
second shard-table drop fails. -/
theorem purge_drops_tables_before_meta_delete_witness :
    noDropAfterMeta (purge_expired_buckets (fun t => t == "t0") false "ns"
      [{ gmt_start_ms := 0, wal_shard_names := ["t0", "t1"] },
       { gmt_start_ms := 1, wal_shard_names := ["t2"] }]).2 = true :=
  (purge_drops_tables_before_meta_delete (fun t => t == "t0") false "ns"
    [{ gmt_start_ms := 0, wal_shard_names := ["t0", "t1"] },
     { gmt_start_ms := 1, wal_shard_names := ["t2"] }]).1

/-! ## Contiguous row encoding (common_types/src/row/contiguous.rs)

Layout: `num_bits(u32 LE) | nulls_bit_set (absent when num_bits = 0) |
fixed-size datum slots | var-len payload`.  Each slot is
`kind(1B) | payload-or-offset`; var-len datums store a u32 offset into the
whole buffer, where `length(u32) | bytes` lives.  Native endianness is
little-endian (x86-64), used consistently by writer and reader.

`Datum`, `DatumKind`, `DatumView` and the schema accessors live in
common_types files not under src/ and are modelled from the spec:
`data_type ∈ {Null, Timestamp, Double, Float, Varbinary, String, UInt*, Int*,
Boolean, Date, Time}`, a closed enum with a byte tag whose unknown values
fail to parse; floats are carried as raw bit patterns since only their bytes
are stored and reloaded.  `byte_offsets` are the prefix sums of the fixed
slot sizes and `string_buffer_offset` their total, per the fixed-slot layout
in the spec. -/

inductive DatumKind
  | null
  | timestamp
  | double
  | float
  | varbinary
  | string
  | uint64
  | uint32
  | uint16
  | uint8
  | int64
  | int32
  | int16
  | int8
  | boolean
  | date
  | time
deriving DecidableEq

/-- Modelled from the spec: the closed-enum byte tag of a datum kind
(`DatumKind::into_u8`, from common_types datum.rs which is not under src/). -/
def DatumKind.into_u8 : DatumKind → Nat
  | .null => 0
  | .timestamp => 1
  | .double => 2
  | .float => 3
  | .varbinary => 4
  | .string => 5
  | .uint64 => 6
  | .uint32 => 7
  | .uint16 => 8
  | .uint8 => 9
  | .int64 => 10
  | .int32 => 11
  | .int16 => 12
  | .int8 => 13
  | .boolean => 14
  | .date => 15
  | .time => 16

/-- Modelled from the spec: parsing a kind byte back
(`DatumKind::try_from(u8)`); every byte outside the closed enum fails. -/
def DatumKind.try_from (b : Nat) : Option DatumKind :=
  if b = 0 then some .null
  else if b = 1 then some .timestamp
  else if b = 2 then some .double
  else if b = 3 then some .float
  else if b = 4 then some .varbinary
  else if b = 5 then some .string
  else if b = 6 then some .uint64
  else if b = 7 then some .uint32
  else if b = 8 then some .uint16
  else if b = 9 then some .uint8
  else if b = 10 then some .int64
  else if b = 11 then some .int32
  else if b = 12 then some .int16
  else if b = 13 then some .int8
  else if b = 14 then some .boolean
  else if b = 15 then some .date
  else if b = 16 then some .time
  else none

/-- Modelled from the spec: `Datum` (datum.rs, not under src/).  Floats are
represented by their bit patterns; strings by their UTF-8 bytes. -/
inductive Datum
  | null
  | timestamp (v : Int)
  | double (bits : Nat)
  | float (bits : Nat)
  | varbinary (bytes : List Nat)
  | string (bytes : List Nat)
  | uint64 (v : Nat)
  | uint32 (v : Nat)
  | uint16 (v : Nat)
  | uint8 (v : Nat)
  | int64 (v : Int)
  | int32 (v : Int)
  | int16 (v : Int)
  | int8 (v : Int)
  | boolean (v : Bool)
  | date (v : Int)
  | time (v : Int)
deriving DecidableEq

/-- Modelled from the spec: `DatumView` (borrowing view of a datum). -/
inductive DatumView
  | null
  | timestamp (v : Int)
  | double (bits : Nat)
  | float (bits : Nat)
  | varbinary (bytes : List Nat)
  | string (bytes : List Nat)
  | uint64 (v : Nat)
  | uint32 (v : Nat)
  | uint16 (v : Nat)
  | uint8 (v : Nat)
  | int64 (v : Int)
  | int32 (v : Int)
  | int16 (v : Int)
  | int8 (v : Int)
  | boolean (v : Bool)
  | date (v : Int)
  | time (v : Int)
deriving DecidableEq

def Datum.as_view : Datum → DatumView
  | .null => .null
  | .timestamp v => .timestamp v
  | .double b => .double b
  | .float b => .float b
  | .varbinary bs => .varbinary bs
  | .string bs => .string bs
  | .uint64 v => .uint64 v
  | .uint32 v => .uint32 v
  | .uint16 v => .uint16 v
  | .uint8 v => .uint8 v
  | .int64 v => .int64 v
  | .int32 v => .int32 v
  | .int16 v => .int16 v
  | .int8 v => .int8 v
  | .boolean v => .boolean v
  | .date v => .date v
  | .time v => .time v

def Datum.kind : Datum → DatumKind
  | .null => .null
  | .timestamp _ => .timestamp
  | .double _ => .double
  | .float _ => .float
  | .varbinary _ => .varbinary
  | .string _ => .string
  | .uint64 _ => .uint64
  | .uint32 _ => .uint32
  | .uint16 _ => .uint16
  | .uint8 _ => .uint8
  | .int64 _ => .int64
  | .int32 _ => .int32
  | .int16 _ => .int16
  | .int8 _ => .int8
  | .boolean _ => .boolean
  | .date _ => .date
  | .time _ => .time

def Datum.is_null : Datum → Bool
  | .null => true
  | _ => false

def Datum.is_fixed_sized : Datum → Bool
  | .varbinary _ => false
  | .string _ => false
  | _ => true

/-- Modelled from the spec: `Datum::size`; only the variable-length sizes
(byte lengths of strings and varbinary) are observable in the encoder. -/
def Datum.size : Datum → Nat
  | .null => 0
  | .timestamp _ => 8
  | .double _ => 8
  | .float _ => 4
  | .varbinary bs => bs.length
  | .string bs => bs.length
  | .uint64 _ => 8
  | .uint32 _ => 4
  | .uint16 _ => 2
  | .uint8 _ => 1
  | .int64 _ => 8
  | .int32 _ => 4
  | .int16 _ => 2
  | .int8 _ => 1
  | .boolean _ => 1
  | .date _ => 4
  | .time _ => 8

/-- Value-range well-formedness that the Rust machine types guarantee
statically (u32 values below 2^32, i64 in the signed 64-bit range, bytes
below 256, ...). -/
def Datum.wf : Datum → Bool
  | .null => true
  | .timestamp v => decide (-(2 ^ 63) ≤ v ∧ v < 2 ^ 63)
  | .double b => decide (b < 2 ^ 64)
  | .float b => decide (b < 2 ^ 32)
  | .varbinary bs => bs.all (fun b => decide (b < 256))
  | .string bs => bs.all (fun b => decide (b < 256))
  | .uint64 v => decide (v < 2 ^ 64)
  | .uint32 v => decide (v < 2 ^ 32)
  | .uint16 v => decide (v < 2 ^ 16)
  | .uint8 v => decide (v < 2 ^ 8)
  | .int64 v => decide (-(2 ^ 63) ≤ v ∧ v < 2 ^ 63)
  | .int32 v => decide (-(2 ^ 31) ≤ v ∧ v < 2 ^ 31)
  | .int16 v => decide (-(2 ^ 15) ≤ v ∧ v < 2 ^ 15)
  | .int8 v => decide (-(2 ^ 7) ≤ v ∧ v < 2 ^ 7)
  | .boolean _ => true
  | .date v => decide (-(2 ^ 31) ≤ v ∧ v < 2 ^ 31)
  | .time v => decide (-(2 ^ 63) ≤ v ∧ v < 2 ^ 63)

/-- Little-endian byte encoding of the low `w` bytes of `v` (`to_ne_bytes`
on the x86-64 target). -/
def toLeBytes : Nat → Nat → List Nat
  | 0, _ => []
  | w + 1, v => v % 256 :: toLeBytes w (v / 256)

def fromLeBytes : List Nat → Nat
  | [] => 0
  | b :: rest => b + 256 * fromLeBytes rest

/-- Two's-complement encoding of a signed integer into `w` little-endian
bytes (`to_ne_bytes` on iN). -/
def intToLe (w : Nat) (v : Int) : List Nat := toLeBytes w (v % 2 ^ (8 * w)).toNat

/-- Two's-complement reading of `w` bytes (`iN::from_ne_bytes`). -/
def leToInt (w : Nat) (n : Nat) : Int :=
  if n < 2 ^ (8 * w - 1) then (n : Int) else (n : Int) - 2 ^ (8 * w)

/-- Max allowed string length of datum to store in a contiguous row (16 MB). -/
def MAX_STRING_LEN : Nat := 1024 * 1024 * 16

/-- Max allowed length of total bytes in a contiguous row (1 GB). -/
def MAX_ROW_LEN : Nat := 1024 * 1024 * 1024

/-- `byte_size_of_datum`: the fixed-slot footprint of a kind (datum size,
with the u32 offset standing in for var-len kinds, plus 1 header byte). -/
def byte_size_of_datum : DatumKind → Nat
  | .null => 1 + 1
  | .timestamp => 8 + 1
  | .double => 8 + 1
  | .float => 4 + 1
  | .varbinary => 4 + 1
  | .string => 4 + 1
  | .uint64 => 8 + 1
  | .uint32 => 4 + 1
  | .uint16 => 2 + 1
  | .uint8 => 1 + 1
  | .int64 => 8 + 1
  | .int32 => 4 + 1
  | .int16 => 2 + 1
  | .int8 => 1 + 1
  | .boolean => 1 + 1
  | .date => 4 + 1
  | .time => 8 + 1

structure ColumnSchema where
  data_type : DatumKind
deriving DecidableEq

structure Schema where
  columns : List ColumnSchema
deriving DecidableEq

def Schema.num_columns (s : Schema) : Nat := s.columns.length

def Schema.column (s : Schema) (i : Nat) : ColumnSchema :=
  s.columns.getD i { data_type := .null }

/-- Modelled from the spec: `Schema::byte_offsets` — offset of each column's
fixed slot inside the fixed-slot block, i.e. the prefix sums of
`byte_size_of_datum`. -/
def schemaOffsets : List ColumnSchema → Nat → List Nat
  | [], _ => []
  | c :: rest, acc => acc :: schemaOffsets rest (acc + byte_size_of_datum c.data_type)

def Schema.byte_offsets (s : Schema) : List Nat := schemaOffsets s.columns 0

/-- Modelled from the spec: `Schema::string_buffer_offset` — the total size
of the fixed-slot block. -/
def Schema.string_buffer_offset (s : Schema) : Nat :=
  (s.columns.map (fun c => byte_size_of_datum c.data_type)).sum

/-- `IndexInWriterSchema`: map from a column index in the table schema to the
index in the writer's row. -/
def IndexInWriterSchema : Type := Nat → Option Nat

/-- `IndexInWriterSchema::for_same_schema`. -/
def for_same_schema (num_columns : Nat) : IndexInWriterSchema :=
  fun i => if i < num_columns then some i else none

inductive WriteError
  | stringTooLong (len : Nat)
  | rowTooLong (len : Nat)
  | outOfBounds
deriving DecidableEq

/-- Overwrite `v.length` bytes of `buf` starting at `offset` (the effect of
`copy_from_slice` into `buf[offset..offset+len]`). -/
def setSlice (buf : List Nat) (offset : Nat) (v : List Nat) : List Nat :=
  buf.take offset ++ v ++ buf.drop (offset + v.length)

/-- `write_slice_to_offset` — `outOfBounds` models the Rust slice-index
panic. Returns the new buffer and advanced offset. -/
def write_slice_to_offset (inner : List Nat) (offset : Nat) (value_buf : List Nat) :
    Except WriteError (List Nat × Nat) :=
  if offset + value_buf.length ≤ inner.length then
    .ok (setSlice inner offset value_buf, offset + value_buf.length)
  else .error .outOfBounds

/-- `write_byte_to_offset`. -/
def write_byte_to_offset (inner : List Nat) (offset : Nat) (value : Nat) :
    Except WriteError (List Nat × Nat) :=
  if offset < inner.length then .ok (inner.set offset value, offset + 1)
  else .error .outOfBounds

/-- `ContiguousRowWriter::write_datum`: returns the updated buffer, the
updated datum offset and the updated next-string offset. -/
def write_datum (inner : List Nat) (datum : Datum)
    (offset next_string_offset : Nat) :
    Except WriteError (List Nat × Nat × Nat) :=
  match datum with
  | .null => .ok (inner, offset, next_string_offset)
  | .timestamp v => do
    let r1 ← write_byte_to_offset inner offset DatumKind.timestamp.into_u8
    let r2 ← write_slice_to_offset r1.1 r1.2 (intToLe 8 v)
    .ok (r2.1, r2.2, next_string_offset)
  | .double b => do
    let r1 ← write_byte_to_offset inner offset DatumKind.double.into_u8
    let r2 ← write_slice_to_offset r1.1 r1.2 (toLeBytes 8 b)
    .ok (r2.1, r2.2, next_string_offset)
  | .float b => do
    let r1 ← write_byte_to_offset inner offset DatumKind.float.into_u8
    let r2 ← write_slice_to_offset r1.1 r1.2 (toLeBytes 4 b)
    .ok (r2.1, r2.2, next_string_offset)
  | .varbinary v => do
    let r1 ← write_byte_to_offset inner offset DatumKind.varbinary.into_u8
    if next_string_offset ≤ MAX_ROW_LEN then
      let r2 ← write_slice_to_offset r1.1 r1.2 (toLeBytes 4 next_string_offset)
      if v.length ≤ MAX_STRING_LEN then
        let r3 ← write_slice_to_offset r2.1 next_string_offset (toLeBytes 4 v.length)
        let r4 ← write_slice_to_offset r3.1 r3.2 v
        .ok (r4.1, r2.2, r4.2)
      else .error (.stringTooLong v.length)
    else .error (.stringTooLong next_string_offset)
  | .string v => do
    let r1 ← write_byte_to_offset inner offset DatumKind.string.into_u8
    if next_string_offset ≤ MAX_ROW_LEN then
      let r2 ← write_slice_to_offset r1.1 r1.2 (toLeBytes 4 next_string_offset)
      if v.length ≤ MAX_STRING_LEN then
        let r3 ← write_slice_to_offset r2.1 next_string_offset (toLeBytes 4 v.length)
        let r4 ← write_slice_to_offset r3.1 r3.2 v
        .ok (r4.1, r2.2, r4.2)
      else .error (.stringTooLong v.length)
    else .error (.stringTooLong next_string_offset)
  | .uint64 v => do
    let r1 ← write_byte_to_offset inner offset DatumKind.uint64.into_u8
    let r2 ← write_slice_to_offset r1.1 r1.2 (toLeBytes 8 v)
    .ok (r2.1, r2.2, next_string_offset)
  | .uint32 v => do
    let r1 ← write_byte_to_offset inner offset DatumKind.uint32.into_u8
    let r2 ← write_slice_to_offset r1.1 r1.2 (toLeBytes 4 v)
    .ok (r2.1, r2.2, next_string_offset)
  | .uint16 v => do
    let r1 ← write_byte_to_offset inner offset DatumKind.uint16.into_u8
    let r2 ← write_slice_to_offset r1.1 r1.2 (toLeBytes 2 v)
    .ok (r2.1, r2.2, next_string_offset)
  | .uint8 v => do
    let r1 ← write_byte_to_offset inner offset DatumKind.uint8.into_u8
    let r2 ← write_slice_to_offset r1.1 r1.2 [v]
    .ok (r2.1, r2.2, next_string_offset)
  | .int64 v => do
    let r1 ← write_byte_to_offset inner offset DatumKind.int64.into_u8
    let r2 ← write_slice_to_offset r1.1 r1.2 (intToLe 8 v)
    .ok (r2.1, r2.2, next_string_offset)
  | .int32 v => do
    let r1 ← write_byte_to_offset inner offset DatumKind.int32.into_u8
    let r2 ← write_slice_to_offset r1.1 r1.2 (intToLe 4 v)
    .ok (r2.1, r2.2, next_string_offset)
  | .int16 v => do
    let r1 ← write_byte_to_offset inner offset DatumKind.int16.into_u8
    let r2 ← write_slice_to_offset r1.1 r1.2 (intToLe 2 v)
    .ok (r2.1, r2.2, next_string_offset)
  | .int8 v => do
    let r1 ← write_byte_to_offset inner offset DatumKind.int8.into_u8
    let r2 ← write_slice_to_offset r1.1 r1.2 (intToLe 1 v)
    .ok (r2.1, r2.2, next_string_offset)
  | .boolean v => do
    let r1 ← write_byte_to_offset inner offset DatumKind.boolean.into_u8
    let r2 ← write_slice_to_offset r1.1 r1.2 [if v then 1 else 0]
    .ok (r2.1, r2.2, next_string_offset)
  | .date v => do
    let r1 ← write_byte_to_offset inner offset DatumKind.date.into_u8
    let r2 ← write_slice_to_offset r1.1 r1.2 (intToLe 4 v)
    .ok (r2.1, r2.2, next_string_offset)
  | .time v => do
    let r1 ← write_byte_to_offset inner offset DatumKind.time.into_u8
    let r2 ← write_slice_to_offset r1.1 r1.2 (intToLe 8 v)
    .ok (r2.1, r2.2, next_string_offset)

/-- `row[writer_index]` — Rust indexing panics when out of bounds. -/
def rowAt (row : List Datum) (i : Nat) : Except WriteError Datum :=
  match row.get? i with
  | some d => .ok d
  | none => .error .outOfBounds

/-- The null-counting loop at the head of `write_row` (index `i`, `k` columns
remaining). -/
def countNullColsLoop (iw : IndexInWriterSchema) (row : List Datum) :
    Nat → Nat → Except WriteError Nat
  | _, 0 => .ok 0
  | i, k + 1 =>
    match iw i with
    | some writer_index => do
      let d ← rowAt row writer_index
      let rest ← countNullColsLoop iw row (i + 1) k
      .ok ((if d.is_null then 1 else 0) + rest)
    | none => do
      let rest ← countNullColsLoop iw row (i + 1) k
      .ok (1 + rest)

/-- The length-computing loop of `write_row_with_nulls`: returns
`(encoded_len contribution, num_bytes_of_variable_col)`. -/
def encodedLenLoop (iw : IndexInWriterSchema) (row : List Datum) :
    Nat → Nat → Except WriteError (Nat × Nat)
  | _, 0 => .ok (0, 0)
  | i, k + 1 =>
    match iw i with
    | some writer_index => do
      let d ← rowAt row writer_index
      let rest ← encodedLenLoop iw row (i + 1) k
      let add_fixed := if d.is_null then 0 else byte_size_of_datum d.kind
      let add_var := if d.is_fixed_sized then 0 else d.size + 4
      .ok (add_fixed + add_var + rest.1, add_var + rest.2)
    | none => encodedLenLoop iw row (i + 1) k

/-- The length-computing loop of `write_row_without_nulls`: the extra var-len
bytes beyond the fixed block. -/
def varLenLoop (iw : IndexInWriterSchema) (row : List Datum) :
    Nat → Nat → Except WriteError Nat
  | _, 0 => .ok 0
  | i, k + 1 =>
    match iw i with
    | some writer_index => do
      let d ← rowAt row writer_index
      let rest ← varLenLoop iw row (i + 1) k
      .ok ((if d.is_fixed_sized then 0 else 4 + d.size) + rest)
    | none => varLenLoop iw row (i + 1) k

/-- Modelled from the spec: `BitSet::all_set` (not in the src/ copy of
bitset.rs) — a bit set with every bit set. -/
def BitSet.all_set (num_bits : Nat) : BitSet :=
  { buffer := List.replicate (BitSet.num_bytes num_bits) 255, num_bits := num_bits }

/-- Modelled from the spec: `BitSet::unset` — clear the bit when in range. -/
def BitSet.unset (bs : BitSet) (index : Nat) : BitSet :=
  if index ≥ bs.num_bits then bs
  else
    let byte_index := index >>> 3
    let bit_index := index &&& 7
    let new_byte := (bs.buffer.getD byte_index 0) &&& (255 - (1 <<< bit_index))
    { bs with buffer := bs.buffer.set byte_index new_byte }

def BitSet.as_bytes (bs : BitSet) : List Nat := bs.buffer

/-- The writing loop of `write_row_with_nulls`: carries the buffer, the datum
offset, the next-string offset and the nulls bit set. -/
def writeWithNullsLoop (iw : IndexInWriterSchema) (row : List Datum) :
    Nat → Nat → List Nat → Nat → Nat → BitSet →
    Except WriteError (List Nat × Nat × Nat × BitSet)
  | _, 0, buf, doff, soff, bs => .ok (buf, doff, soff, bs)
  | i, k + 1, buf, doff, soff, bs =>
    match iw i with
    | some writer_index => do
      let d ← rowAt row writer_index
      let r ← write_datum buf d doff soff
      let bs1 := if d.is_null then bs.unset writer_index else bs
      writeWithNullsLoop iw row (i + 1) k r.1 r.2.1 r.2.2 bs1
    | none => writeWithNullsLoop iw row (i + 1) k buf doff soff bs

/-- `ContiguousRowWriter::write_row_with_nulls`. -/
def write_row_with_nulls (schema : Schema) (iw : IndexInWriterSchema)
    (row : List Datum) : Except WriteError (List Nat) := do
  let lens ← encodedLenLoop iw row 0 schema.num_columns
  let num_bits := schema.num_columns
  let nulls_bit_set := BitSet.all_set num_bits
  let encoded_len := lens.1 + (4 + nulls_bit_set.as_bytes.length)
  let inner : List Nat := List.replicate encoded_len 0
  let next_string_offset := encoded_len - lens.2
  let datum_offset := 4 + nulls_bit_set.as_bytes.length
  let r ← writeWithNullsLoop iw row 0 schema.num_columns inner datum_offset
    next_string_offset nulls_bit_set
  let h1 ← write_slice_to_offset r.1 0 (toLeBytes 4 num_bits)
  let h2 ← write_slice_to_offset h1.1 4 r.2.2.2.as_bytes
  .ok h2.1

/-- The writing loop of `write_row_without_nulls`; for a column absent from
the writer schema the datum offset advances by the schema slot size. -/
def writeWithoutNullsLoop (schema : Schema) (iw : IndexInWriterSchema)
    (row : List Datum) :
    Nat → Nat → List Nat → Nat → Nat →
    Except WriteError (List Nat × Nat × Nat)
  | _, 0, buf, doff, soff => .ok (buf, doff, soff)
  | i, k + 1, buf, doff, soff =>
    match iw i with
    | some writer_index => do
      let d ← rowAt row writer_index
      let r ← write_datum buf d doff soff
      writeWithoutNullsLoop schema iw row (i + 1) k r.1 r.2.1 r.2.2
    | none =>
      writeWithoutNullsLoop schema iw row (i + 1) k buf
        (doff + byte_size_of_datum (schema.column i).data_type) soff

/-- `ContiguousRowWriter::write_row_without_nulls`.  The buffer is
pre-filled with the Null kind byte. -/
def write_row_without_nulls (schema : Schema) (iw : IndexInWriterSchema)
    (row : List Datum) : Except WriteError (List Nat) := do
  let datum_buffer_len := schema.string_buffer_offset + 4
  let extra ← varLenLoop iw row 0 schema.num_columns
  let encoded_len := datum_buffer_len + extra
  let inner : List Nat := List.replicate encoded_len DatumKind.null.into_u8
  let r ← writeWithoutNullsLoop schema iw row 0 schema.num_columns inner 4
    datum_buffer_len
  .ok r.1

/-- `ContiguousRowWriter::write_row`. -/
def write_row (schema : Schema) (iw : IndexInWriterSchema) (row : List Datum) :
    Except WriteError (List Nat) := do
  let num_null_cols ← countNullColsLoop iw row 0 schema.num_columns
  if num_null_cols > 0 then write_row_with_nulls schema iw row
  else write_row_without_nulls schema iw row

/-! ### Reader (ContiguousRowReader) -/

inductive ReadError
  | numNullColsMissing
  | invalidBitSetBytes (expect_len given_len : Nat)
  | roBitSetUnwrap
deriving DecidableEq

/-- Modelled from the spec: read-only bit set over a borrowed byte slice
(`RoBitSet`, not in the src/ copy of bitset.rs). -/
structure RoBitSet where
  bytes : List Nat
  num_bits : Nat
deriving DecidableEq

def RoBitSet.try_new (bytes : List Nat) (num_bits : Nat) : Option RoBitSet :=
  if BitSet.num_bytes num_bits ≤ bytes.length then
    some { bytes := bytes, num_bits := num_bits }
  else none

def RoBitSet.is_set (r : RoBitSet) (index : Nat) : Option Bool :=
  if index ≥ r.num_bits then none
  else
    some (((r.bytes.getD (index >>> 3) 0) &&& (1 <<< (index &&& 7))) != 0)

structure ReaderNoNulls where
  byte_offsets : List Nat
  datum_offset : Nat
deriving DecidableEq

structure ReaderWithNulls where
  byte_offsets : List Int
  datum_offset : Nat
deriving DecidableEq

inductive ContiguousReader
  | noNulls (r : ReaderNoNulls)
  | withNulls (r : ReaderWithNulls)
deriving DecidableEq

/-- The per-column fixed offsets computed by
`ContiguousRowReaderWithNulls::try_new`: enumerate the schema byte offsets,
subtracting the accumulated slot sizes of preceding null columns; null and
out-of-range columns get offset `-1`. -/
def fixedByteOffsetsLoop (nulls_bit_set : RoBitSet) (schema : Schema) :
    Nat → List Nat → Nat → List Int
  | _, [], _ => []
  | index, expect_offset :: rest, acc_null_bytes =>
    match nulls_bit_set.is_set index with
    | some true =>
      ((expect_offset : Int) - (acc_null_bytes : Int))
        :: fixedByteOffsetsLoop nulls_bit_set schema (index + 1) rest acc_null_bytes
    | some false =>
      (-1) :: fixedByteOffsetsLoop nulls_bit_set schema (index + 1) rest
        (acc_null_bytes + byte_size_of_datum (schema.column index).data_type)
    | none =>
      (-1) :: fixedByteOffsetsLoop nulls_bit_set schema (index + 1) rest
        acc_null_bytes

/-- `ContiguousRowReader::try_new` (dispatching on `num_bits`). -/
def reader_try_new (buf : List Nat) (schema : Schema) :
    Except ReadError ContiguousReader :=
  if 4 ≤ buf.length then
    let num_bits := fromLeBytes (buf.take 4)
    if num_bits > 0 then
      let bit_set_size := BitSet.num_bytes num_bits
      let bit_set_buf := buf.drop 4
      if bit_set_size ≤ bit_set_buf.length then
        match RoBitSet.try_new (bit_set_buf.take bit_set_size) num_bits with
        | some nulls_bit_set =>
          .ok (.withNulls
            { byte_offsets := fixedByteOffsetsLoop nulls_bit_set schema 0
                schema.byte_offsets 0,
              datum_offset := 4 + bit_set_size })
        | none => .error .roBitSetUnwrap
      else .error (.invalidBitSetBytes bit_set_size bit_set_buf.length)
    else .ok (.noNulls { byte_offsets := schema.byte_offsets, datum_offset := 4 })
  else .error .numNullColsMissing

/-- Reading a fixed number of little-endian bytes from a slice prefix;
`none` models the Rust slice-index panic. -/
def readLeN (w : Nat) (l : List Nat) : Option Nat :=
  if w ≤ l.length then some (fromLeBytes (l.take w)) else none

/-- `must_read_bytes`: u32 offset into the whole buffer, at which
`length(u32) | bytes` lives. -/
def must_read_bytes (datum_buf string_buf : List Nat) : Option (List Nat) :=
  match readLeN 4 datum_buf with
  | none => none
  | some offset =>
    if offset ≤ string_buf.length then
      let tail := string_buf.drop offset
      match readLeN 4 tail with
      | none => none
      | some string_len =>
        let rest := tail.drop 4
        if string_len ≤ rest.length then some (rest.take string_len) else none
    else none

/-- `must_read_view`. -/
def must_read_view (datum_kind : DatumKind) (datum_buf string_buf : List Nat) :
    Option DatumView :=
  match datum_kind with
  | .null => some .null
  | .timestamp => (readLeN 8 datum_buf).map (fun n => .timestamp (leToInt 8 n))
  | .double => (readLeN 8 datum_buf).map (fun n => .double n)
  | .float => (readLeN 4 datum_buf).map (fun n => .float n)
  | .varbinary => (must_read_bytes datum_buf string_buf).map (fun bs => .varbinary bs)
  | .string => (must_read_bytes datum_buf string_buf).map (fun bs => .string bs)
  | .uint64 => (readLeN 8 datum_buf).map (fun n => .uint64 n)
  | .uint32 => (readLeN 4 datum_buf).map (fun n => .uint32 n)
  | .uint16 => (readLeN 2 datum_buf).map (fun n => .uint16 n)
  | .uint8 =>
    match datum_buf with
    | [] => none
    | b :: _ => some (.uint8 b)
  | .int64 => (readLeN 8 datum_buf).map (fun n => .int64 (leToInt 8 n))
  | .int32 => (readLeN 4 datum_buf).map (fun n => .int32 (leToInt 4 n))
  | .int16 => (readLeN 2 datum_buf).map (fun n => .int16 (leToInt 2 n))
  | .int8 =>
    match datum_buf with
    | [] => none
    | b :: _ => some (.int8 (leToInt 1 b))
  | .boolean =>
    match datum_buf with
    | [] => none
    | b :: _ => some (.boolean (b != 0))
  | .date => (readLeN 4 datum_buf).map (fun n => .date (leToInt 4 n))
  | .time => (readLeN 8 datum_buf).map (fun n => .time (leToInt 8 n))

/-- The free function `datum_view_at(datum_buf, string_buf)`: an unknown kind
byte yields `Null`; a missing kind byte is a panic (`none`). -/
def datum_view_at_raw (datum_buf string_buf : List Nat) : Option DatumView :=
  match datum_buf with
  | [] => none
  | b :: rest =>
    match DatumKind.try_from b with
    | none => some .null
    | some datum_kind => must_read_view datum_kind rest string_buf

/-- `ContiguousRow::datum_view_at` for both reader shapes; `none` models the
panics the trait documents for out-of-bound index or buffer. -/
def ContiguousReader.datum_view_at (r : ContiguousReader) (buf : List Nat)
    (index : Nat) : Option DatumView :=
  match r with
  | .noNulls rn =>
    match rn.byte_offsets.get? index with
    | none => none
    | some offset =>
      if rn.datum_offset + offset ≤ buf.length then
        datum_view_at_raw (buf.drop (rn.datum_offset + offset)) buf
      else none
  | .withNulls rw =>
    match rw.byte_offsets.get? index with
    | none => none
    | some offset =>
      if offset < 0 then some .null
      else if rw.datum_offset + offset.toNat ≤ buf.length then
        datum_view_at_raw (buf.drop (rw.datum_offset + offset.toNat)) buf
      else none

/-- End-to-end read of one column: build the reader with
`ContiguousRowReader::try_new`, then take the datum view. -/
def readViewAt (buf : List Nat) (schema : Schema) (index : Nat) :
    Option DatumView :=
  match reader_try_new buf schema with
  | .error _ => none
  | .ok r => r.datum_view_at buf index

/-- The kind byte `datum_view_at` would inspect for this column, when it
exists: the byte at the resolved slot position of the buffer. -/
def resolvedKindByte (r : ContiguousReader) (buf : List Nat) (index : Nat) :
    Option Nat :=
  match r with
  | .noNulls rn =>
    match rn.byte_offsets.get? index with
    | none => none
    | some offset => buf.get? (rn.datum_offset + offset)
  | .withNulls rw =>
    match rw.byte_offsets.get? index with
    | none => none
    | some offset =>
      if offset < 0 then none
      else buf.get? (rw.datum_offset + offset.toNat)

/-- C9: for every buffer accepted by `ContiguousRowReader::try_new` and every
column index whose datum slot is present in the buffer, a kind byte that does
not correspond to any valid `DatumKind` makes `datum_view_at` return
`DatumView::Null` — not an error and not a panic. -/
theorem unknown_kind_byte_reads_null (buf : List Nat) (schema : Schema)
    (r : ContiguousReader) (index : Nat) (b : Nat)
    (hok : reader_try_new buf schema = .ok r)
    (hbyte : resolvedKindByte r buf index = some b)
    (hbad : DatumKind.try_from b = none) :
    r.datum_view_at buf index = some .null := by
  cases r with
  | noNulls rn =>
    simp only [resolvedKindByte] at hbyte
    rcases hoff : rn.byte_offsets.get? index with _ | offset
    · rw [hoff] at hbyte
      cases hbyte
    · rw [hoff] at hbyte
      have hget : buf.get? (rn.datum_offset + offset) = some b := hbyte
      rw [List.get?_eq_getElem?] at hget
      have hlt : rn.datum_offset + offset < buf.length := by
        by_contra hge
        rw [List.getElem?_eq_none (by omega)] at hget
        cases hget
      simp only [ContiguousReader.datum_view_at, hoff]
      rw [if_pos (le_of_lt hlt)]
      have hdrop : buf.drop (rn.datum_offset + offset)
          = b :: buf.drop (rn.datum_offset + offset + 1) := by
        rw [List.drop_eq_getElem_cons hlt]
        rw [List.getElem?_eq_getElem hlt] at hget
        simp only [Option.some.injEq] at hget
        rw [hget]
      rw [hdrop]
      simp [datum_view_at_raw, hbad]
  | withNulls rw0 =>
    simp only [resolvedKindByte] at hbyte
    rcases hoff : rw0.byte_offsets.get? index with _ | offset
    · rw [hoff] at hbyte
      cases hbyte
    · rw [hoff] at hbyte
      by_cases hneg : offset < 0
      · have hbyte2 : (if offset < 0 then (none : Option Nat)
            else buf.get? (rw0.datum_offset + offset.toNat)) = some b := hbyte
        rw [if_pos hneg] at hbyte2
        cases hbyte2
      · have hget : buf.get? (rw0.datum_offset + offset.toNat) = some b := by
          have hbyte2 : (if offset < 0 then (none : Option Nat)
              else buf.get? (rw0.datum_offset + offset.toNat)) = some b := hbyte
          rw [if_neg hneg] at hbyte2
          exact hbyte2
        rw [List.get?_eq_getElem?] at hget
        have hlt : rw0.datum_offset + offset.toNat < buf.length := by
          by_contra hge
          rw [List.getElem?_eq_none (by omega)] at hget
          cases hget
        simp only [ContiguousReader.datum_view_at, hoff]
        rw [if_neg hneg, if_pos (le_of_lt hlt)]
        have hdrop : buf.drop (rw0.datum_offset + offset.toNat)
            = b :: buf.drop (rw0.datum_offset + offset.toNat + 1) := by
          rw [List.drop_eq_getElem_cons hlt]
          rw [List.getElem?_eq_getElem hlt] at hget
          simp only [Option.some.injEq] at hget
          rw [hget]
        rw [hdrop]
        simp [datum_view_at_raw, hbad]

/-- Witness for C9: a 5-byte buffer with `num_bits = 0` and kind byte 200 at
the single column's slot of a one-column schema. -/
theorem unknown_kind_byte_reads_null_witness :
    reader_try_new [0, 0, 0, 0, 200] { columns := [{ data_type := .uint8 }] }
      = .ok (.noNulls { byte_offsets := [0], datum_offset := 4 }) ∧
    ContiguousReader.datum_view_at
      (.noNulls { byte_offsets := [0], datum_offset := 4 })
      [0, 0, 0, 0, 200] 0 = some .null := by
  refine ⟨rfl, ?_⟩
  exact unknown_kind_byte_reads_null [0, 0, 0, 0, 200]
    { columns := [{ data_type := .uint8 }] }
    (.noNulls { byte_offsets := [0], datum_offset := 4 }) 0 200
    rfl rfl rfl

/-! ### Buffer-write toolkit: characterizing `setSlice` compositions -/

lemma length_setSlice (buf v : List Nat) (p : Nat) (h : p + v.length ≤ buf.length) :
    (setSlice buf p v).length = buf.length := by
  simp only [setSlice, List.length_append, List.length_take, List.length_drop]
  omega

lemma getElem?_setSlice (buf v : List Nat) (p j : Nat)
    (h : p + v.length ≤ buf.length) :
    (setSlice buf p v)[j]? =
      if j < p then buf[j]?
      else if j < p + v.length then v[j - p]?
      else buf[j]? := by
  have hp : p ≤ buf.length := by omega
  have hlt : (buf.take p).length = p := List.length_take_of_le hp
  simp only [setSlice, List.append_assoc]
  rcases Nat.lt_or_ge j p with h1 | h1
  · rw [List.getElem?_append_left (by rw [hlt]; exact h1),
      List.getElem?_take_of_lt h1, if_pos h1]
  · rw [List.getElem?_append_right (by rw [hlt]; exact h1), hlt]
    rcases Nat.lt_or_ge j (p + v.length) with h2 | h2
    · rw [if_neg (by omega), if_pos h2]
      rw [List.getElem?_append_left (by omega)]
    · rw [if_neg (by omega), if_neg (by omega)]
      rw [List.getElem?_append_right (by omega), List.getElem?_drop]
      congr 1
      omega

lemma setSlice_nil (buf : List Nat) (p : Nat) : setSlice buf p [] = buf := by
  simp [setSlice]

lemma set_eq_setSlice (buf : List Nat) (p : Nat) (x : Nat) (hp : p < buf.length) :
    buf.set p x = setSlice buf p [x] := by
  apply List.ext_getElem?
  intro n
  rw [getElem?_setSlice buf [x] p n (by simp; omega), List.getElem?_set]
  rcases Nat.lt_trichotomy n p with h1 | h1 | h1
  · rw [if_neg (by omega), if_pos h1]
  · subst h1
    rw [if_pos rfl, if_pos hp, if_neg (by omega), if_pos (by simp)]
    simp
  · rw [if_neg (by omega), if_neg (by omega)]
    simp only [List.length_cons, List.length_nil]
    rw [if_neg (by omega)]

lemma setSlice_adjacent (buf a b : List Nat) (p : Nat)
    (h : p + a.length + b.length ≤ buf.length) :
    setSlice (setSlice buf p a) (p + a.length) b = setSlice buf p (a ++ b) := by
  have hlen : (setSlice buf p a).length = buf.length :=
    length_setSlice _ _ _ (by omega)
  apply List.ext_getElem?
  intro n
  rw [getElem?_setSlice (setSlice buf p a) b (p + a.length) n (by rw [hlen]; omega),
    getElem?_setSlice buf (a ++ b) p n (by simp only [List.length_append]; omega),
    getElem?_setSlice buf a p n (by omega)]
  rcases Nat.lt_or_ge n p with h1 | h1
  · rw [if_pos (by omega), if_pos h1, if_pos h1]
  · rcases Nat.lt_or_ge n (p + a.length) with h2 | h2
    · rw [if_pos h2, if_neg (by omega), if_pos h2, if_neg (by omega)]
      rw [if_pos (by simp only [List.length_append]; omega)]
      rw [List.getElem?_append_left (by omega)]
    · rcases Nat.lt_or_ge n (p + a.length + b.length) with h3 | h3
      · rw [if_neg (by omega), if_pos (by omega), if_neg (by omega)]
        rw [if_pos (by simp only [List.length_append]; omega)]
        rw [List.getElem?_append_right (by omega)]
        congr 1
        omega
      · rw [if_neg (by omega), if_neg (by omega), if_neg (by omega),
          if_neg (by omega), if_neg (by omega)]
        rw [if_neg (by simp only [List.length_append]; omega)]

lemma setSlice_comm (buf a b : List Nat) (p q : Nat)
    (hpq : p + a.length ≤ q) (hq : q + b.length ≤ buf.length) :
    setSlice (setSlice buf p a) q b = setSlice (setSlice buf q b) p a := by
  have hlen1 : (setSlice buf p a).length = buf.length :=
    length_setSlice _ _ _ (by omega)
  have hlen2 : (setSlice buf q b).length = buf.length :=
    length_setSlice _ _ _ (by omega)
  apply List.ext_getElem?
  intro n
  rw [getElem?_setSlice (setSlice buf p a) b q n (by rw [hlen1]; omega),
    getElem?_setSlice (setSlice buf q b) a p n (by rw [hlen2]; omega),
    getElem?_setSlice buf a p n (by omega),
    getElem?_setSlice buf b q n (by omega)]
  split_ifs <;> first | rfl | omega

lemma setSlice_zero_full (buf v : List Nat) (h : v.length = buf.length) :
    setSlice buf 0 v = v := by
  simp only [setSlice, List.take_zero, Nat.zero_add, List.nil_append, h,
    List.drop_length, List.append_nil]

/-! ### Declarative form of one datum's encoding -/

/-- The bytes `write_datum` places in the fixed-slot region: the kind byte
followed by the payload, or by the u32 offset of the var-len payload. -/
def fixedEnc (d : Datum) (soff : Nat) : List Nat :=
  match d with
  | .null => []
  | .timestamp v => DatumKind.timestamp.into_u8 :: intToLe 8 v
  | .double b => DatumKind.double.into_u8 :: toLeBytes 8 b
  | .float b => DatumKind.float.into_u8 :: toLeBytes 4 b
  | .varbinary _ => DatumKind.varbinary.into_u8 :: toLeBytes 4 soff
  | .string _ => DatumKind.string.into_u8 :: toLeBytes 4 soff
  | .uint64 v => DatumKind.uint64.into_u8 :: toLeBytes 8 v
  | .uint32 v => DatumKind.uint32.into_u8 :: toLeBytes 4 v
  | .uint16 v => DatumKind.uint16.into_u8 :: toLeBytes 2 v
  | .uint8 v => DatumKind.uint8.into_u8 :: [v]
  | .int64 v => DatumKind.int64.into_u8 :: intToLe 8 v
  | .int32 v => DatumKind.int32.into_u8 :: intToLe 4 v
  | .int16 v => DatumKind.int16.into_u8 :: intToLe 2 v
  | .int8 v => DatumKind.int8.into_u8 :: intToLe 1 v
  | .boolean v => DatumKind.boolean.into_u8 :: [if v then 1 else 0]
  | .date v => DatumKind.date.into_u8 :: intToLe 4 v
  | .time v => DatumKind.time.into_u8 :: intToLe 8 v

/-- The bytes `write_datum` places in the var-len region:
`length(u32 LE) | bytes` for var-len datums, nothing otherwise. -/
def varEnc (d : Datum) : List Nat :=
  match d with
  | .varbinary v => toLeBytes 4 v.length ++ v
  | .string v => toLeBytes 4 v.length ++ v
  | _ => []

@[simp] lemma toLeBytes_length (w v : Nat) : (toLeBytes w v).length = w := by
  induction w generalizing v with
  | zero => rfl
  | succ w ih => simp [toLeBytes, ih]

@[simp] lemma intToLe_length (w : Nat) (v : Int) : (intToLe w v).length = w := by
  simp [intToLe]

lemma fixedEnc_length (d : Datum) (soff : Nat) :
    (fixedEnc d soff).length = if d.is_null then 0 else byte_size_of_datum d.kind := by
  cases d <;> simp [fixedEnc, Datum.is_null, Datum.kind, byte_size_of_datum]

lemma varEnc_length (d : Datum) :
    (varEnc d).length = if d.is_fixed_sized then 0 else 4 + d.size := by
  cases d <;> simp [varEnc, Datum.is_fixed_sized, Datum.size, Nat.add_comm]

lemma write_byte_to_offset_eq (buf : List Nat) (p x : Nat) (h : p < buf.length) :
    write_byte_to_offset buf p x = .ok (setSlice buf p [x], p + 1) := by
  rw [write_byte_to_offset, if_pos h, set_eq_setSlice buf p x h]

lemma write_slice_to_offset_eq (buf : List Nat) (p : Nat) (v : List Nat)
    (h : p + v.length ≤ buf.length) :
    write_slice_to_offset buf p v = .ok (setSlice buf p v, p + v.length) := by
  rw [write_slice_to_offset, if_pos h]

lemma write_fixed_datum_eq (buf : List Nat) (doff soff : Nat) (k : Nat)
    (payload : List Nat) (h : doff + (k :: payload).length ≤ buf.length) :
    (do
      let r1 ← write_byte_to_offset buf doff k
      let r2 ← write_slice_to_offset r1.1 r1.2 payload
      (.ok (r2.1, r2.2, soff) : Except WriteError (List Nat × Nat × Nat)))
      = .ok (setSlice buf doff (k :: payload),
          doff + (k :: payload).length, soff) := by
  simp only [List.length_cons] at h
  have h1 : doff < buf.length := by omega
  have hlen1 : (setSlice buf doff [k]).length = buf.length :=
    length_setSlice buf [k] doff (by simp; omega)
  simp only [write_byte_to_offset_eq buf doff k h1, bind, Except.bind]
  rw [write_slice_to_offset_eq (setSlice buf doff [k]) (doff + 1) payload
    (by rw [hlen1]; omega)]
  have hadj : setSlice (setSlice buf doff [k]) (doff + 1) payload
      = setSlice buf doff (k :: payload) := by
    have h0 := setSlice_adjacent buf [k] payload doff (by simp; omega)
    simpa using h0
  rw [hadj]
  have harith : doff + 1 + payload.length = doff + (payload.length + 1) := by omega
  simp only [List.length_cons, harith]

/-- `write_datum` in declarative form: writing one datum overwrites the slot
`[doff, doff + |fixedEnc|)` and the var-len region
`[soff, soff + |varEnc|)`, advancing both offsets, provided the writes are in
bounds and the var-len limit checks pass. -/
lemma write_datum_eq (buf : List Nat) (d : Datum) (doff soff : Nat)
    (hd : doff + (fixedEnc d soff).length ≤ buf.length)
    (hs : soff + (varEnc d).length ≤ buf.length)
    (hck : d.is_fixed_sized = true ∨ (soff ≤ MAX_ROW_LEN ∧ d.size ≤ MAX_STRING_LEN)) :
    write_datum buf d doff soff
      = .ok (setSlice (setSlice buf doff (fixedEnc d soff)) soff (varEnc d),
          doff + (fixedEnc d soff).length, soff + (varEnc d).length) := by
  cases d with
  | null => simp [write_datum, fixedEnc, varEnc, setSlice_nil]
  | timestamp v =>
    simp only [fixedEnc, varEnc, setSlice_nil, List.length_nil, Nat.add_zero]
    simp only [fixedEnc] at hd
    exact write_fixed_datum_eq buf doff soff _ _ hd
  | double b =>
    simp only [fixedEnc, varEnc, setSlice_nil, List.length_nil, Nat.add_zero]
    simp only [fixedEnc] at hd
    exact write_fixed_datum_eq buf doff soff _ _ hd
  | float b =>
    simp only [fixedEnc, varEnc, setSlice_nil, List.length_nil, Nat.add_zero]
    simp only [fixedEnc] at hd
    exact write_fixed_datum_eq buf doff soff _ _ hd
  | uint64 v =>
    simp only [fixedEnc, varEnc, setSlice_nil, List.length_nil, Nat.add_zero]
    simp only [fixedEnc] at hd
    exact write_fixed_datum_eq buf doff soff _ _ hd
  | uint32 v =>
    simp only [fixedEnc, varEnc, setSlice_nil, List.length_nil, Nat.add_zero]
    simp only [fixedEnc] at hd
    exact write_fixed_datum_eq buf doff soff _ _ hd
  | uint16 v =>
    simp only [fixedEnc, varEnc, setSlice_nil, List.length_nil, Nat.add_zero]
    simp only [fixedEnc] at hd
    exact write_fixed_datum_eq buf doff soff _ _ hd
  | uint8 v =>
    simp only [fixedEnc, varEnc, setSlice_nil, List.length_nil, Nat.add_zero]
    simp only [fixedEnc] at hd
    exact write_fixed_datum_eq buf doff soff _ _ hd
  | int64 v =>
    simp only [fixedEnc, varEnc, setSlice_nil, List.length_nil, Nat.add_zero]
    simp only [fixedEnc] at hd
    exact write_fixed_datum_eq buf doff soff _ _ hd
  | int32 v =>
    simp only [fixedEnc, varEnc, setSlice_nil, List.length_nil, Nat.add_zero]
    simp only [fixedEnc] at hd
    exact write_fixed_datum_eq buf doff soff _ _ hd
  | int16 v =>
    simp only [fixedEnc, varEnc, setSlice_nil, List.length_nil, Nat.add_zero]
    simp only [fixedEnc] at hd
    exact write_fixed_datum_eq buf doff soff _ _ hd
  | int8 v =>
    simp only [fixedEnc, varEnc, setSlice_nil, List.length_nil, Nat.add_zero]
    simp only [fixedEnc] at hd
    exact write_fixed_datum_eq buf doff soff _ _ hd
  | boolean v =>
    simp only [fixedEnc, varEnc, setSlice_nil, List.length_nil, Nat.add_zero]
    simp only [fixedEnc] at hd
    exact write_fixed_datum_eq buf doff soff _ _ hd
  | date v =>
    simp only [fixedEnc, varEnc, setSlice_nil, List.length_nil, Nat.add_zero]
    simp only [fixedEnc] at hd
    exact write_fixed_datum_eq buf doff soff _ _ hd
  | time v =>
    simp only [fixedEnc, varEnc, setSlice_nil, List.length_nil, Nat.add_zero]
    simp only [fixedEnc] at hd
    exact write_fixed_datum_eq buf doff soff _ _ hd
  | varbinary v =>
    rcases hck with hfix | ⟨hck1, hck2⟩
    · cases hfix
    · simp only [fixedEnc, List.length_cons, toLeBytes_length] at hd
      simp only [varEnc, List.length_append, toLeBytes_length] at hs
      have h1 : doff < buf.length := by omega
      have e1 := write_byte_to_offset_eq buf doff DatumKind.varbinary.into_u8 h1
      have hlenA : (setSlice buf doff [DatumKind.varbinary.into_u8]).length
          = buf.length := length_setSlice _ _ _ (by simp; omega)
      have e2 := write_slice_to_offset_eq
        (setSlice buf doff [DatumKind.varbinary.into_u8]) (doff + 1)
        (toLeBytes 4 soff) (by rw [hlenA]; simp; omega)
      have hlenB : (setSlice (setSlice buf doff [DatumKind.varbinary.into_u8])
          (doff + 1) (toLeBytes 4 soff)).length = buf.length := by
        rw [length_setSlice _ _ _ (by rw [hlenA]; simp; omega), hlenA]
      have e3 := write_slice_to_offset_eq
        (setSlice (setSlice buf doff [DatumKind.varbinary.into_u8]) (doff + 1)
          (toLeBytes 4 soff)) soff (toLeBytes 4 v.length)
        (by rw [hlenB]; simp; omega)
      have hlenC : (setSlice (setSlice (setSlice buf doff
          [DatumKind.varbinary.into_u8]) (doff + 1) (toLeBytes 4 soff)) soff
          (toLeBytes 4 v.length)).length = buf.length := by
        rw [length_setSlice _ _ _ (by rw [hlenB]; simp; omega), hlenB]
      have e4 := write_slice_to_offset_eq
        (setSlice (setSlice (setSlice buf doff [DatumKind.varbinary.into_u8])
          (doff + 1) (toLeBytes 4 soff)) soff (toLeBytes 4 v.length))
        (soff + 4) v (by rw [hlenC]; omega)
      simp only [toLeBytes_length] at e2 e3 e4
      simp only [write_datum, e1, bind, Except.bind, if_pos hck1, e2,
        if_pos hck2, e3, e4]
      have hadj1 : setSlice (setSlice buf doff [DatumKind.varbinary.into_u8])
          (doff + 1) (toLeBytes 4 soff)
          = setSlice buf doff (DatumKind.varbinary.into_u8 :: toLeBytes 4 soff) := by
        have h0 := setSlice_adjacent buf [DatumKind.varbinary.into_u8]
          (toLeBytes 4 soff) doff (by simp; omega)
        simpa using h0
      have hadj2 : setSlice (setSlice (setSlice buf doff
            (DatumKind.varbinary.into_u8 :: toLeBytes 4 soff)) soff
            (toLeBytes 4 v.length)) (soff + 4) v
          = setSlice (setSlice buf doff
              (DatumKind.varbinary.into_u8 :: toLeBytes 4 soff)) soff
              (toLeBytes 4 v.length ++ v) := by
        have hlenD : (setSlice buf doff
            (DatumKind.varbinary.into_u8 :: toLeBytes 4 soff)).length
            = buf.length := length_setSlice _ _ _ (by simp; omega)
        have h0 := setSlice_adjacent
          (setSlice buf doff (DatumKind.varbinary.into_u8 :: toLeBytes 4 soff))
          (toLeBytes 4 v.length) v soff (by rw [hlenD]; simp; omega)
        simpa using h0
      rw [hadj1, hadj2]
      simp only [fixedEnc, varEnc, List.length_cons, toLeBytes_length,
        List.length_append]
      have ha1 : doff + 1 + 4 = doff + (4 + 1) := by omega
      have ha2 : soff + 4 + v.length = soff + (4 + v.length) := by omega
      rw [ha1, ha2]
      simp only [Datum.size] at hck2
      rw [if_pos hck2]
  | string v =>
    rcases hck with hfix | ⟨hck1, hck2⟩
    · cases hfix
    · simp only [fixedEnc, List.length_cons, toLeBytes_length] at hd
      simp only [varEnc, List.length_append, toLeBytes_length] at hs
      have h1 : doff < buf.length := by omega
      have e1 := write_byte_to_offset_eq buf doff DatumKind.string.into_u8 h1
      have hlenA : (setSlice buf doff [DatumKind.string.into_u8]).length
          = buf.length := length_setSlice _ _ _ (by simp; omega)
      have e2 := write_slice_to_offset_eq
        (setSlice buf doff [DatumKind.string.into_u8]) (doff + 1)
        (toLeBytes 4 soff) (by rw [hlenA]; simp; omega)
      have hlenB : (setSlice (setSlice buf doff [DatumKind.string.into_u8])
          (doff + 1) (toLeBytes 4 soff)).length = buf.length := by
        rw [length_setSlice _ _ _ (by rw [hlenA]; simp; omega), hlenA]
      have e3 := write_slice_to_offset_eq
        (setSlice (setSlice buf doff [DatumKind.string.into_u8]) (doff + 1)
          (toLeBytes 4 soff)) soff (toLeBytes 4 v.length)
        (by rw [hlenB]; simp; omega)
      have hlenC : (setSlice (setSlice (setSlice buf doff
          [DatumKind.string.into_u8]) (doff + 1) (toLeBytes 4 soff)) soff
          (toLeBytes 4 v.length)).length = buf.length := by
        rw [length_setSlice _ _ _ (by rw [hlenB]; simp; omega), hlenB]
      have e4 := write_slice_to_offset_eq
        (setSlice (setSlice (setSlice buf doff [DatumKind.string.into_u8])
          (doff + 1) (toLeBytes 4 soff)) soff (toLeBytes 4 v.length))
        (soff + 4) v (by rw [hlenC]; omega)
      simp only [toLeBytes_length] at e2 e3 e4
      simp only [write_datum, e1, bind, Except.bind, if_pos hck1, e2,
        if_pos hck2, e3, e4]
      have hadj1 : setSlice (setSlice buf doff [DatumKind.string.into_u8])
          (doff + 1) (toLeBytes 4 soff)
          = setSlice buf doff (DatumKind.string.into_u8 :: toLeBytes 4 soff) := by
        have h0 := setSlice_adjacent buf [DatumKind.string.into_u8]
          (toLeBytes 4 soff) doff (by simp; omega)
        simpa using h0
      have hadj2 : setSlice (setSlice (setSlice buf doff
            (DatumKind.string.into_u8 :: toLeBytes 4 soff)) soff
            (toLeBytes 4 v.length)) (soff + 4) v
          = setSlice (setSlice buf doff
              (DatumKind.string.into_u8 :: toLeBytes 4 soff)) soff
              (toLeBytes 4 v.length ++ v) := by
        have hlenD : (setSlice buf doff
            (DatumKind.string.into_u8 :: toLeBytes 4 soff)).length
            = buf.length := length_setSlice _ _ _ (by simp; omega)
        have h0 := setSlice_adjacent
          (setSlice buf doff (DatumKind.string.into_u8 :: toLeBytes 4 soff))
          (toLeBytes 4 v.length) v soff (by rw [hlenD]; simp; omega)
        simpa using h0
      rw [hadj1, hadj2]
      simp only [fixedEnc, varEnc, List.length_cons, toLeBytes_length,
        List.length_append]
      have ha1 : doff + 1 + 4 = doff + (4 + 1) := by omega
      have ha2 : soff + 4 + v.length = soff + (4 + v.length) := by omega
      rw [ha1, ha2]
      simp only [Datum.size] at hck2
      rw [if_pos hck2]

/-! ### Aggregate (whole-row) form of the encoding -/

/-- Total fixed-slot bytes of a datum list (null datums occupy nothing). -/
def fixedLen : List Datum → Nat
  | [] => 0
  | d :: rest => (if d.is_null then 0 else byte_size_of_datum d.kind) + fixedLen rest

/-- Total var-len bytes of a datum list. -/
def varLen : List Datum → Nat
  | [] => 0
  | d :: rest => (if d.is_fixed_sized then 0 else d.size + 4) + varLen rest

/-- The concatenated fixed slots, threading the running var-len offset. -/
def fixedCat : List Datum → Nat → List Nat
  | [], _ => []
  | d :: rest, soff => fixedEnc d soff ++ fixedCat rest (soff + (varEnc d).length)

/-- The concatenated var-len payloads. -/
def varCat : List Datum → List Nat
  | [] => []
  | d :: rest => varEnc d ++ varCat rest

/-- The limit checks `write_datum` performs, threaded over a datum list:
each var-len datum needs its starting offset within `MAX_ROW_LEN` and its
length within `MAX_STRING_LEN`. -/
def checksOk : List Datum → Nat → Bool
  | [], _ => true
  | d :: rest, soff =>
    (d.is_fixed_sized
        || (decide (soff ≤ MAX_ROW_LEN) && decide (d.size ≤ MAX_STRING_LEN)))
      && checksOk rest (soff + (varEnc d).length)

/-- Number of null datums. -/
def numNulls : List Datum → Nat
  | [] => 0
  | d :: rest => (if d.is_null then 1 else 0) + numNulls rest

/-- The bit set after the with-nulls loop unset the bits of null columns
`i, i+1, ..., i+k-1`. -/
def unsetNulls (bs : BitSet) (row : List Datum) : Nat → Nat → BitSet
  | _, 0 => bs
  | i, k + 1 =>
    unsetNulls (if (row.getD i Datum.null).is_null then bs.unset i else bs)
      row (i + 1) k

@[simp] lemma fixedCat_length (ds : List Datum) (soff : Nat) :
    (fixedCat ds soff).length = fixedLen ds := by
  induction ds generalizing soff with
  | nil => rfl
  | cons d rest ih =>
    simp [fixedCat, fixedLen, fixedEnc_length, ih]

@[simp] lemma varCat_length (ds : List Datum) :
    (varCat ds).length = varLen ds := by
  induction ds with
  | nil => rfl
  | cons d rest ih =>
    simp only [varCat, varLen, List.length_append, varEnc_length, ih]
    by_cases h : d.is_fixed_sized
    · simp [h]
    · simp only [h, Bool.false_eq_true, if_false]
      omega

lemma fixedCat_append (xs ys : List Datum) (soff : Nat) :
    fixedCat (xs ++ ys) soff
      = fixedCat xs soff ++ fixedCat ys (soff + varLen xs) := by
  induction xs generalizing soff with
  | nil => simp [fixedCat, varLen]
  | cons d rest ih =>
    rw [List.cons_append, fixedCat, fixedCat, ih, List.append_assoc]
    have hoff : soff + (varEnc d).length + varLen rest
        = soff + varLen (d :: rest) := by
      rw [varLen, varEnc_length]
      by_cases hf : d.is_fixed_sized
      · simp [hf]
      · simp only [hf, Bool.false_eq_true, if_false]
        omega
    rw [hoff]

lemma varCat_append (xs ys : List Datum) :
    varCat (xs ++ ys) = varCat xs ++ varCat ys := by
  induction xs with
  | nil => simp [varCat]
  | cons d rest ih => simp [varCat, ih]

lemma varLen_append (xs ys : List Datum) :
    varLen (xs ++ ys) = varLen xs + varLen ys := by
  induction xs with
  | nil => simp [varLen]
  | cons d rest ih => simp [varLen, ih]; omega

lemma fixedLen_append (xs ys : List Datum) :
    fixedLen (xs ++ ys) = fixedLen xs + fixedLen ys := by
  induction xs with
  | nil => simp [fixedLen]
  | cons d rest ih => simp [fixedLen, ih]; omega

lemma for_same_schema_lt {n i : Nat} (h : i < n) : for_same_schema n i = some i := by
  simp [for_same_schema, h]

lemma rowAt_lt {row : List Datum} {i : Nat} (h : i < row.length) :
    rowAt row i = .ok (row.getD i Datum.null) := by
  rw [rowAt]
  rw [List.get?_eq_getElem?, List.getElem?_eq_getElem h]
  rw [List.getD_eq_getElem?_getD, List.getElem?_eq_getElem h]
  rfl

lemma drop_take_cons {row : List Datum} {i k : Nat} (h : i < row.length) :
    (row.drop i).take (k + 1)
      = row.getD i Datum.null :: (row.drop (i + 1)).take k := by
  rw [List.drop_eq_getElem_cons h]
  rw [List.getD_eq_getElem?_getD, List.getElem?_eq_getElem h]
  rfl

/-- The with-nulls writing loop in declarative form (identity writer
mapping): processing columns `i, ..., i+k-1` writes the concatenated fixed
slots at `doff` and the concatenated var-len payloads at `soff`, and unsets
the bits of the null columns. -/
lemma writeWithNullsLoop_eq (row : List Datum) (n : Nat) (hn : row.length = n) :
    ∀ (k i : Nat) (buf : List Nat) (doff soff : Nat) (bs : BitSet),
    i + k ≤ n →
    doff + fixedLen ((row.drop i).take k) ≤ soff →
    soff + varLen ((row.drop i).take k) ≤ buf.length →
    checksOk ((row.drop i).take k) soff = true →
    writeWithNullsLoop (for_same_schema n) row i k buf doff soff bs
      = .ok (setSlice (setSlice buf doff (fixedCat ((row.drop i).take k) soff))
            soff (varCat ((row.drop i).take k)),
          doff + fixedLen ((row.drop i).take k),
          soff + varLen ((row.drop i).take k),
          unsetNulls bs row i k) := by
  intro k
  induction k with
  | zero =>
    intro i buf doff soff bs hik hd hs hck
    simp [writeWithNullsLoop, fixedCat, varCat, fixedLen, varLen, setSlice_nil,
      unsetNulls]
  | succ k ih =>
    intro i buf doff soff bs hik hd hs hck
    have hi : i < n := by omega
    have hi' : i < row.length := by omega
    have hsplit := @drop_take_cons row i k hi'
    rw [hsplit] at hd hs hck
    rw [hsplit]
    -- abbreviations
    have hf0 : (fixedEnc (row.getD i Datum.null) soff).length
        = if (row.getD i Datum.null).is_null then 0
          else byte_size_of_datum (row.getD i Datum.null).kind :=
      fixedEnc_length _ _
    have hv0 : (varEnc (row.getD i Datum.null)).length
        = if (row.getD i Datum.null).is_fixed_sized then 0
          else (row.getD i Datum.null).size + 4 := by
      rw [varEnc_length]
      by_cases hfx : (row.getD i Datum.null).is_fixed_sized
      · rw [if_pos hfx, if_pos hfx]
      · rw [if_neg hfx, if_neg hfx]
        omega
    rw [fixedLen] at hd
    rw [varLen] at hs
    rw [checksOk, Bool.and_eq_true] at hck
    -- the limit checks for the head datum
    have hck1 : (row.getD i Datum.null).is_fixed_sized = true
        ∨ (soff ≤ MAX_ROW_LEN ∧ (row.getD i Datum.null).size ≤ MAX_STRING_LEN) := by
      rcases Bool.or_eq_true _ _ |>.mp hck.1 with h | h
      · exact Or.inl h
      · rw [Bool.and_eq_true, decide_eq_true_iff, decide_eq_true_iff] at h
        exact Or.inr h
    -- in-bounds for the head datum's writes
    have hd1 : doff + (fixedEnc (row.getD i Datum.null) soff).length ≤ buf.length := by
      rw [hf0]
      omega
    have hs1 : soff + (varEnc (row.getD i Datum.null)).length ≤ buf.length := by
      rw [hv0]
      omega
    -- unfold one loop iteration
    rw [writeWithNullsLoop]
    rw [for_same_schema_lt hi]
    simp only [rowAt_lt hi', bind, Except.bind]
    rw [write_datum_eq buf (row.getD i Datum.null) doff soff hd1 hs1 hck1]
    show writeWithNullsLoop (for_same_schema n) row (i + 1) k
      (setSlice (setSlice buf doff (fixedEnc (row.getD i Datum.null) soff)) soff
        (varEnc (row.getD i Datum.null)))
      (doff + (fixedEnc (row.getD i Datum.null) soff).length)
      (soff + (varEnc (row.getD i Datum.null)).length)
      (if (row.getD i Datum.null).is_null then bs.unset i else bs) = _
    -- lengths of the partial buffers
    have hxlen : (setSlice buf doff (fixedEnc (row.getD i Datum.null) soff)).length
        = buf.length := by
      apply length_setSlice
      exact hd1
    have hbuf1len : (setSlice (setSlice buf doff
        (fixedEnc (row.getD i Datum.null) soff)) soff
        (varEnc (row.getD i Datum.null))).length = buf.length := by
      rw [length_setSlice _ _ _ (by rw [hxlen]; exact hs1), hxlen]
    -- apply the induction hypothesis to the updated state
    rw [ih (i + 1)
      (setSlice (setSlice buf doff (fixedEnc (row.getD i Datum.null) soff)) soff
        (varEnc (row.getD i Datum.null)))
      (doff + (fixedEnc (row.getD i Datum.null) soff).length)
      (soff + (varEnc (row.getD i Datum.null)).length)
      (if (row.getD i Datum.null).is_null then bs.unset i else bs)
      (by omega)
      (by rw [hf0, hv0]; omega)
      (by rw [hbuf1len, hv0]; omega)
      hck.2]
    -- fold back the concatenated form
    rw [fixedCat, varCat, fixedLen, varLen, unsetNulls]
    have hcomm := setSlice_comm
      (setSlice buf doff (fixedEnc (row.getD i Datum.null) soff))
      (fixedCat ((row.drop (i + 1)).take k)
        (soff + (varEnc (row.getD i Datum.null)).length))
      (varEnc (row.getD i Datum.null))
      (doff + (fixedEnc (row.getD i Datum.null) soff).length) soff
      (by rw [fixedCat_length, hf0]; omega)
      (by rw [hxlen]; exact hs1)
    rw [← hcomm]
    have hadjf := setSlice_adjacent buf (fixedEnc (row.getD i Datum.null) soff)
      (fixedCat ((row.drop (i + 1)).take k)
        (soff + (varEnc (row.getD i Datum.null)).length))
      doff
      (by rw [fixedCat_length, hf0]; omega)
    rw [hadjf]
    have hylen : (setSlice buf doff (fixedEnc (row.getD i Datum.null) soff
        ++ fixedCat ((row.drop (i + 1)).take k)
          (soff + (varEnc (row.getD i Datum.null)).length))).length
        = buf.length := by
      apply length_setSlice
      simp only [List.length_append, fixedCat_length]
      rw [hf0]
      omega
    have hadjv := setSlice_adjacent
      (setSlice buf doff (fixedEnc (row.getD i Datum.null) soff
        ++ fixedCat ((row.drop (i + 1)).take k)
          (soff + (varEnc (row.getD i Datum.null)).length)))
      (varEnc (row.getD i Datum.null)) (varCat ((row.drop (i + 1)).take k))
      soff
      (by rw [hylen, varCat_length, hv0]; omega)
    rw [hadjv]
    have harith1 : doff + (fixedEnc (row.getD i Datum.null) soff).length
        + fixedLen ((row.drop (i + 1)).take k)
        = doff + ((if (row.getD i Datum.null).is_null then 0
            else byte_size_of_datum (row.getD i Datum.null).kind)
          + fixedLen ((row.drop (i + 1)).take k)) := by
      rw [hf0]
      omega
    have harith2 : soff + (varEnc (row.getD i Datum.null)).length
        + varLen ((row.drop (i + 1)).take k)
        = soff + ((if (row.getD i Datum.null).is_fixed_sized then 0
            else (row.getD i Datum.null).size + 4)
          + varLen ((row.drop (i + 1)).take k)) := by
      rw [hv0]
      omega
    rw [harith1, harith2]

/-- The without-nulls writing loop in declarative form (identity writer
mapping): identical layout effect, no bit set. -/
lemma writeWithoutNullsLoop_eq (schema : Schema) (row : List Datum) (n : Nat)
    (hn : row.length = n) :
    ∀ (k i : Nat) (buf : List Nat) (doff soff : Nat),
    i + k ≤ n →
    doff + fixedLen ((row.drop i).take k) ≤ soff →
    soff + varLen ((row.drop i).take k) ≤ buf.length →
    checksOk ((row.drop i).take k) soff = true →
    writeWithoutNullsLoop schema (for_same_schema n) row i k buf doff soff
      = .ok (setSlice (setSlice buf doff (fixedCat ((row.drop i).take k) soff))
            soff (varCat ((row.drop i).take k)),
          doff + fixedLen ((row.drop i).take k),
          soff + varLen ((row.drop i).take k)) := by
  intro k
  induction k with
  | zero =>
    intro i buf doff soff hik hd hs hck
    simp [writeWithoutNullsLoop, fixedCat, varCat, fixedLen, varLen, setSlice_nil]
  | succ k ih =>
    intro i buf doff soff hik hd hs hck
    have hi : i < n := by omega
    have hi' : i < row.length := by omega
    have hsplit := @drop_take_cons row i k hi'
    rw [hsplit] at hd hs hck
    rw [hsplit]
    have hf0 : (fixedEnc (row.getD i Datum.null) soff).length
        = if (row.getD i Datum.null).is_null then 0
          else byte_size_of_datum (row.getD i Datum.null).kind :=
      fixedEnc_length _ _
    have hv0 : (varEnc (row.getD i Datum.null)).length
        = if (row.getD i Datum.null).is_fixed_sized then 0
          else (row.getD i Datum.null).size + 4 := by
      rw [varEnc_length]
      by_cases hfx : (row.getD i Datum.null).is_fixed_sized
      · rw [if_pos hfx, if_pos hfx]
      · rw [if_neg hfx, if_neg hfx]
        omega
    rw [fixedLen] at hd
    rw [varLen] at hs
    rw [checksOk, Bool.and_eq_true] at hck
    have hck1 : (row.getD i Datum.null).is_fixed_sized = true
        ∨ (soff ≤ MAX_ROW_LEN ∧ (row.getD i Datum.null).size ≤ MAX_STRING_LEN) := by
      rcases Bool.or_eq_true _ _ |>.mp hck.1 with h | h
      · exact Or.inl h
      · rw [Bool.and_eq_true, decide_eq_true_iff, decide_eq_true_iff] at h
        exact Or.inr h
    have hd1 : doff + (fixedEnc (row.getD i Datum.null) soff).length ≤ buf.length := by
      rw [hf0]
      omega
    have hs1 : soff + (varEnc (row.getD i Datum.null)).length ≤ buf.length := by
      rw [hv0]
      omega
    rw [writeWithoutNullsLoop]
    rw [for_same_schema_lt hi]
    simp only [rowAt_lt hi', bind, Except.bind]
    rw [write_datum_eq buf (row.getD i Datum.null) doff soff hd1 hs1 hck1]
    show writeWithoutNullsLoop schema (for_same_schema n) row (i + 1) k
      (setSlice (setSlice buf doff (fixedEnc (row.getD i Datum.null) soff)) soff
        (varEnc (row.getD i Datum.null)))
      (doff + (fixedEnc (row.getD i Datum.null) soff).length)
      (soff + (varEnc (row.getD i Datum.null)).length) = _
    have hxlen : (setSlice buf doff (fixedEnc (row.getD i Datum.null) soff)).length
        = buf.length := by
      apply length_setSlice
      exact hd1
    have hbuf1len : (setSlice (setSlice buf doff
        (fixedEnc (row.getD i Datum.null) soff)) soff
        (varEnc (row.getD i Datum.null))).length = buf.length := by
      rw [length_setSlice _ _ _ (by rw [hxlen]; exact hs1), hxlen]
    rw [ih (i + 1)
      (setSlice (setSlice buf doff (fixedEnc (row.getD i Datum.null) soff)) soff
        (varEnc (row.getD i Datum.null)))
      (doff + (fixedEnc (row.getD i Datum.null) soff).length)
      (soff + (varEnc (row.getD i Datum.null)).length)
      (by omega)
      (by rw [hf0, hv0]; omega)
      (by rw [hbuf1len, hv0]; omega)
      hck.2]
    rw [fixedCat, varCat, fixedLen, varLen]
    have hcomm := setSlice_comm
      (setSlice buf doff (fixedEnc (row.getD i Datum.null) soff))
      (fixedCat ((row.drop (i + 1)).take k)
        (soff + (varEnc (row.getD i Datum.null)).length))
      (varEnc (row.getD i Datum.null))
      (doff + (fixedEnc (row.getD i Datum.null) soff).length) soff
      (by rw [fixedCat_length, hf0]; omega)
      (by rw [hxlen]; exact hs1)
    rw [← hcomm]
    have hadjf := setSlice_adjacent buf (fixedEnc (row.getD i Datum.null) soff)
      (fixedCat ((row.drop (i + 1)).take k)
        (soff + (varEnc (row.getD i Datum.null)).length))
      doff
      (by rw [fixedCat_length, hf0]; omega)
    rw [hadjf]
    have hylen : (setSlice buf doff (fixedEnc (row.getD i Datum.null) soff
        ++ fixedCat ((row.drop (i + 1)).take k)
          (soff + (varEnc (row.getD i Datum.null)).length))).length
        = buf.length := by
      apply length_setSlice
      simp only [List.length_append, fixedCat_length]
      rw [hf0]
      omega
    have hadjv := setSlice_adjacent
      (setSlice buf doff (fixedEnc (row.getD i Datum.null) soff
        ++ fixedCat ((row.drop (i + 1)).take k)
          (soff + (varEnc (row.getD i Datum.null)).length)))
      (varEnc (row.getD i Datum.null)) (varCat ((row.drop (i + 1)).take k))
      soff
      (by rw [hylen, varCat_length, hv0]; omega)
    rw [hadjv]
    have harith1 : doff + (fixedEnc (row.getD i Datum.null) soff).length
        + fixedLen ((row.drop (i + 1)).take k)
        = doff + ((if (row.getD i Datum.null).is_null then 0
            else byte_size_of_datum (row.getD i Datum.null).kind)
          + fixedLen ((row.drop (i + 1)).take k)) := by
      rw [hf0]
      omega
    have harith2 : soff + (varEnc (row.getD i Datum.null)).length
        + varLen ((row.drop (i + 1)).take k)
        = soff + ((if (row.getD i Datum.null).is_fixed_sized then 0
            else (row.getD i Datum.null).size + 4)
          + varLen ((row.drop (i + 1)).take k)) := by
      rw [hv0]
      omega
    rw [harith1, harith2]

/-- The null-counting loop counts exactly the null datums of the processed
segment (identity mapping). -/
lemma countNullColsLoop_eq (row : List Datum) (n : Nat) (hn : row.length = n) :
    ∀ (k i : Nat), i + k ≤ n →
    countNullColsLoop (for_same_schema n) row i k
      = .ok (numNulls ((row.drop i).take k)) := by
  intro k
  induction k with
  | zero =>
    intro i hik
    simp [countNullColsLoop, numNulls]
  | succ k ih =>
    intro i hik
    have hi : i < n := by omega
    have hi' : i < row.length := by omega
    rw [@drop_take_cons row i k hi', countNullColsLoop, for_same_schema_lt hi]
    simp only [rowAt_lt hi', bind, Except.bind, ih (i + 1) (by omega), numNulls]

/-- The with-nulls length loop computes the fixed and var-len totals
(identity mapping). -/
lemma encodedLenLoop_eq (row : List Datum) (n : Nat) (hn : row.length = n) :
    ∀ (k i : Nat), i + k ≤ n →
    encodedLenLoop (for_same_schema n) row i k
      = .ok (fixedLen ((row.drop i).take k) + varLen ((row.drop i).take k),
          varLen ((row.drop i).take k)) := by
  intro k
  induction k with
  | zero =>
    intro i hik
    simp [encodedLenLoop, fixedLen, varLen]
  | succ k ih =>
    intro i hik
    have hi : i < n := by omega
    have hi' : i < row.length := by omega
    rw [@drop_take_cons row i k hi', encodedLenLoop, for_same_schema_lt hi]
    simp only [rowAt_lt hi', bind, Except.bind, ih (i + 1) (by omega)]
    simp only [fixedLen, varLen]
    refine congrArg Except.ok ?_
    refine congrArg₂ Prod.mk ?_ ?_
    · omega
    · omega

/-- The without-nulls length loop computes the var-len total (identity
mapping). -/
lemma varLenLoop_eq (row : List Datum) (n : Nat) (hn : row.length = n) :
    ∀ (k i : Nat), i + k ≤ n →
    varLenLoop (for_same_schema n) row i k
      = .ok (varLen ((row.drop i).take k)) := by
  intro k
  induction k with
  | zero =>
    intro i hik
    simp [varLenLoop, varLen]
  | succ k ih =>
    intro i hik
    have hi : i < n := by omega
    have hi' : i < row.length := by omega
    rw [@drop_take_cons row i k hi', varLenLoop, for_same_schema_lt hi]
    simp only [rowAt_lt hi', bind, Except.bind, ih (i + 1) (by omega)]
    rw [varLen]
    refine congrArg Except.ok ?_
    by_cases hfx : (row.getD i Datum.null).is_fixed_sized
    · rw [if_pos hfx, if_pos hfx]
    · rw [if_neg hfx, if_neg hfx]
      omega

@[simp] lemma all_set_as_bytes_length (n : Nat) :
    (BitSet.all_set n).as_bytes.length = BitSet.num_bytes n := by
  simp [BitSet.all_set, BitSet.as_bytes]

lemma unset_buffer_length (bs : BitSet) (i : Nat) :
    (bs.unset i).buffer.length = bs.buffer.length := by
  rw [BitSet.unset]
  split
  · rfl
  · simp

lemma unsetNulls_buffer_length (row : List Datum) :
    ∀ (k i : Nat) (bs : BitSet),
    (unsetNulls bs row i k).buffer.length = bs.buffer.length := by
  intro k
  induction k with
  | zero =>
    intro i bs
    rfl
  | succ k ih =>
    intro i bs
    rw [unsetNulls, ih]
    split
    · exact unset_buffer_length bs i
    · rfl

lemma unset_num_bits (bs : BitSet) (i : Nat) :
    (bs.unset i).num_bits = bs.num_bits := by
  rw [BitSet.unset]
  split
  · rfl
  · rfl

lemma unsetNulls_num_bits (row : List Datum) :
    ∀ (k i : Nat) (bs : BitSet),
    (unsetNulls bs row i k).num_bits = bs.num_bits := by
  intro k
  induction k with
  | zero =>
    intro i bs
    rfl
  | succ k ih =>
    intro i bs
    rw [unsetNulls, ih]
    split
    · exact unset_num_bits bs i
    · rfl

/-- Normalizing the four writes of `write_row_with_nulls` (fixed slots,
var-len payloads, `num_bits` header, bit-set bytes) into one concatenation. -/
lemma four_writes_concat (hdr bsB F V : List Nat) (L : Nat)
    (hhdr : hdr.length = 4)
    (hL : L = 4 + bsB.length + F.length + V.length) :
    setSlice (setSlice (setSlice (setSlice (List.replicate L (0 : Nat))
        (4 + bsB.length) F) (4 + bsB.length + F.length) V) 0 hdr) 4 bsB
      = hdr ++ bsB ++ F ++ V := by
  have hRlen : (List.replicate L (0 : Nat)).length = L := List.length_replicate _ _
  have hadjFV := setSlice_adjacent (List.replicate L (0 : Nat)) F V
    (4 + bsB.length) (by rw [hRlen]; omega)
  rw [hadjFV]
  have hXlen : (setSlice (List.replicate L (0 : Nat)) (4 + bsB.length)
      (F ++ V)).length = L := by
    rw [length_setSlice]
    · exact hRlen
    · rw [hRlen]
      simp only [List.length_append]
      omega
  have hadjHB := setSlice_adjacent
    (setSlice (List.replicate L (0 : Nat)) (4 + bsB.length) (F ++ V))
    hdr bsB 0 (by rw [hXlen]; rw [hhdr]; omega)
  rw [hhdr] at hadjHB
  norm_num at hadjHB
  rw [hadjHB]
  have hcm := setSlice_comm (List.replicate L (0 : Nat)) (hdr ++ bsB) (F ++ V)
    0 (4 + bsB.length)
    (by simp only [Nat.zero_add, List.length_append, hhdr]; omega)
    (by rw [hRlen]; simp only [List.length_append]; omega)
  rw [← hcm]
  have hadj3 := setSlice_adjacent (List.replicate L (0 : Nat)) (hdr ++ bsB)
    (F ++ V) 0
    (by rw [hRlen]; simp only [List.length_append, hhdr]; omega)
  rw [List.length_append, hhdr] at hadj3
  norm_num at hadj3
  rw [hadj3]
  rw [setSlice_zero_full _ _ (by
    rw [hRlen]
    simp only [List.length_append, hhdr]
    omega)]
  simp [List.append_assoc]

/-- `write_row_with_nulls` in declarative form (identity mapping): the
buffer is exactly `num_bits(u32 LE) | nulls bit set | fixed slots | var-len
payloads`. -/
lemma write_row_with_nulls_eq (schema : Schema) (row : List Datum)
    (hm : row.length = schema.num_columns)
    (hck : checksOk row
      (4 + BitSet.num_bytes schema.num_columns + fixedLen row) = true) :
    write_row_with_nulls schema (for_same_schema schema.num_columns) row
      = .ok (toLeBytes 4 schema.num_columns
          ++ (unsetNulls (BitSet.all_set schema.num_columns) row 0
              schema.num_columns).as_bytes
          ++ fixedCat row (4 + BitSet.num_bytes schema.num_columns + fixedLen row)
          ++ varCat row) := by
  have hall : (row.drop 0).take schema.num_columns = row := by
    rw [List.drop_zero, ← hm, List.take_length]
  have hlenloop := encodedLenLoop_eq row schema.num_columns hm
    schema.num_columns 0 (by omega)
  rw [hall] at hlenloop
  have hb : (BitSet.all_set schema.num_columns).as_bytes.length
      = BitSet.num_bytes schema.num_columns := all_set_as_bytes_length _
  rw [write_row_with_nulls]
  simp only [hlenloop, bind, Except.bind, hb]
  have hsub : fixedLen row + varLen row
      + (4 + BitSet.num_bytes schema.num_columns) - varLen row
      = 4 + BitSet.num_bytes schema.num_columns + fixedLen row := by
    omega
  rw [hsub]
  set Bn := BitSet.num_bytes schema.num_columns with hBn
  set L := fixedLen row + varLen row + (4 + Bn) with hLdef
  set soff := 4 + Bn + fixedLen row with hsoffdef
  have hloop := writeWithNullsLoop_eq row schema.num_columns hm
    schema.num_columns 0 (List.replicate L (0 : Nat)) (4 + Bn) soff
    (BitSet.all_set schema.num_columns)
    (by omega)
    (by rw [hall])
    (by rw [hall, List.length_replicate]; omega)
    (by rw [hall]; exact hck)
  rw [hall] at hloop
  rw [hloop]
  simp only [bind, Except.bind]
  have hlen2 : (setSlice (setSlice (List.replicate L (0 : Nat)) (4 + Bn)
      (fixedCat row soff)) soff (varCat row)).length = L := by
    rw [length_setSlice, length_setSlice, List.length_replicate]
    · rw [List.length_replicate, fixedCat_length]
      omega
    · rw [length_setSlice, List.length_replicate, varCat_length]
      · omega
      · rw [List.length_replicate, fixedCat_length]
        omega
  rw [write_slice_to_offset_eq (setSlice (setSlice (List.replicate L (0 : Nat))
      (4 + Bn) (fixedCat row soff)) soff (varCat row)) 0
    (toLeBytes 4 schema.num_columns)
    (by rw [hlen2]; simp only [Nat.zero_add, toLeBytes_length]; omega)]
  simp only [bind, Except.bind]
  have hbsb : (unsetNulls (BitSet.all_set schema.num_columns) row 0
      schema.num_columns).as_bytes.length = Bn := by
    show (unsetNulls (BitSet.all_set schema.num_columns) row 0
      schema.num_columns).buffer.length = Bn
    rw [unsetNulls_buffer_length]
    show (BitSet.all_set schema.num_columns).as_bytes.length = Bn
    rw [hb]
  have hlen3 : (setSlice (setSlice (setSlice (List.replicate L (0 : Nat))
      (4 + Bn) (fixedCat row soff)) soff (varCat row)) 0
      (toLeBytes 4 schema.num_columns)).length = L := by
    rw [length_setSlice]
    · exact hlen2
    · rw [hlen2]
      simp only [Nat.zero_add, toLeBytes_length]
      omega
  rw [write_slice_to_offset_eq (setSlice (setSlice (setSlice
      (List.replicate L (0 : Nat)) (4 + Bn) (fixedCat row soff)) soff
      (varCat row)) 0 (toLeBytes 4 schema.num_columns)) 4
    (unsetNulls (BitSet.all_set schema.num_columns) row 0
      schema.num_columns).as_bytes
    (by rw [hlen3, hbsb]; omega)]
  simp only [bind, Except.bind]
  refine congrArg Except.ok ?_
  have hfour := four_writes_concat (toLeBytes 4 schema.num_columns)
    (unsetNulls (BitSet.all_set schema.num_columns) row 0
      schema.num_columns).as_bytes
    (fixedCat row soff) (varCat row) L
    (toLeBytes_length 4 schema.num_columns)
    (by rw [hbsb, fixedCat_length, varCat_length]; omega)
  rw [hbsb] at hfour
  rw [fixedCat_length] at hfour
  have hpos : 4 + Bn + fixedLen row = soff := hsoffdef.symm
  rw [hpos] at hfour
  rw [hfour]

lemma setSlice_replicate_head (w : List Nat) (L : Nat) (h : L = 4 + w.length) :
    setSlice (List.replicate L (0 : Nat)) 4 w = List.replicate 4 (0 : Nat) ++ w := by
  subst h
  simp only [setSlice]
  rw [List.take_replicate, List.drop_replicate]
  have h1 : min 4 (4 + w.length) = 4 := by omega
  have h2 : 4 + w.length - (4 + w.length) = 0 := by omega
  rw [h1, h2]
  simp

lemma toLeBytes_four_zero : toLeBytes 4 0 = List.replicate 4 (0 : Nat) := rfl

/-- `write_row_without_nulls` in declarative form (identity mapping): the
buffer is `0(u32 LE) | fixed slots | var-len payloads`; the header stays at
the fill value since the loop starts writing at offset 4. -/
lemma write_row_without_nulls_eq (schema : Schema) (row : List Datum)
    (hm : row.length = schema.num_columns)
    (hfl : fixedLen row = schema.string_buffer_offset)
    (hck : checksOk row (schema.string_buffer_offset + 4) = true) :
    write_row_without_nulls schema (for_same_schema schema.num_columns) row
      = .ok (toLeBytes 4 0
          ++ fixedCat row (schema.string_buffer_offset + 4) ++ varCat row) := by
  have hall : (row.drop 0).take schema.num_columns = row := by
    rw [List.drop_zero, ← hm, List.take_length]
  have hvarloop := varLenLoop_eq row schema.num_columns hm schema.num_columns 0
    (by omega)
  rw [hall] at hvarloop
  rw [write_row_without_nulls]
  simp only [hvarloop, bind, Except.bind]
  have hzero : DatumKind.null.into_u8 = 0 := rfl
  rw [hzero]
  have hloop := writeWithoutNullsLoop_eq schema row schema.num_columns hm
    schema.num_columns 0
    (List.replicate (schema.string_buffer_offset + 4 + varLen row) (0 : Nat))
    4 (schema.string_buffer_offset + 4)
    (by omega)
    (by rw [hall]; omega)
    (by rw [hall, List.length_replicate])
    (by rw [hall]; exact hck)
  rw [hall] at hloop
  rw [hloop]
  simp only [bind, Except.bind]
  refine congrArg Except.ok ?_
  have hadj := setSlice_adjacent
    (List.replicate (schema.string_buffer_offset + 4 + varLen row) (0 : Nat))
    (fixedCat row (schema.string_buffer_offset + 4)) (varCat row) 4
    (by rw [List.length_replicate, fixedCat_length, varCat_length]; omega)
  rw [fixedCat_length, hfl] at hadj
  have hpos : 4 + schema.string_buffer_offset = schema.string_buffer_offset + 4 := by
    omega
  rw [hpos] at hadj
  rw [hadj]
  rw [setSlice_replicate_head _ _ (by
    simp only [List.length_append, fixedCat_length, varCat_length, hfl]
    omega)]
  rw [toLeBytes_four_zero]
  simp [List.append_assoc]

/-- `write_row` dispatches on the number of null columns (identity
mapping). -/
lemma write_row_dispatch (schema : Schema) (row : List Datum)
    (hm : row.length = schema.num_columns) :
    write_row schema (for_same_schema schema.num_columns) row
      = if numNulls row > 0 then
          write_row_with_nulls schema (for_same_schema schema.num_columns) row
        else write_row_without_nulls schema
          (for_same_schema schema.num_columns) row := by
  have hall : (row.drop 0).take schema.num_columns = row := by
    rw [List.drop_zero, ← hm, List.take_length]
  have hcnt := countNullColsLoop_eq row schema.num_columns hm
    schema.num_columns 0 (by omega)
  rw [hall] at hcnt
  rw [write_row]
  simp only [hcnt, bind, Except.bind]

/-! ### Reading back: little-endian round trips and per-kind payloads -/

lemma fromLeBytes_toLeBytes (w v : Nat) :
    fromLeBytes (toLeBytes w v) = v % 2 ^ (8 * w) := by
  induction w generalizing v with
  | zero =>
    simp only [toLeBytes, fromLeBytes, Nat.mul_zero, pow_zero]
    omega
  | succ w ih =>
    rw [toLeBytes, fromLeBytes, ih]
    have h1 : v / 256 % 2 ^ (8 * w) = v % (256 * 2 ^ (8 * w)) / 256 :=
      (Nat.mod_mul_right_div_self v 256 (2 ^ (8 * w))).symm
    have h2 : 256 * 2 ^ (8 * w) = 2 ^ (8 * (w + 1)) := by
      rw [show 8 * (w + 1) = 8 * w + 8 from by omega, pow_add]
      ring
    have h3 : v % 256 = v % 2 ^ (8 * (w + 1)) % 256 :=
      (Nat.mod_mod_of_dvd v ⟨2 ^ (8 * w), by rw [← h2]⟩).symm
    rw [h1, h2, h3]
    exact Nat.mod_add_div _ 256

lemma fromLeBytes_toLeBytes_small (w v : Nat) (h : v < 2 ^ (8 * w)) :
    fromLeBytes (toLeBytes w v) = v := by
  rw [fromLeBytes_toLeBytes, Nat.mod_eq_of_lt h]

/-- Round trip for two's-complement integers in the signed range. -/
lemma leToInt_intToLe (w : Nat) (v : Int) (hw : 0 < w)
    (h1 : -(2 ^ (8 * w - 1)) ≤ v) (h2 : v < 2 ^ (8 * w - 1)) :
    leToInt w (fromLeBytes (intToLe w v)) = v := by
  have hpow : (2 : Int) ^ (8 * w) = 2 ^ (8 * w - 1) * 2 := by
    rw [← pow_succ]
    congr 1
    omega
  have hmodpos : 0 ≤ v % 2 ^ (8 * w) :=
    Int.emod_nonneg v (by positivity)
  have hmodlt : v % 2 ^ (8 * w) < 2 ^ (8 * w) :=
    Int.emod_lt_of_pos v (by positivity)
  have htn : ((v % 2 ^ (8 * w)).toNat : Int) = v % 2 ^ (8 * w) :=
    Int.toNat_of_nonneg hmodpos
  have htnlt : (v % 2 ^ (8 * w)).toNat < 2 ^ (8 * w) := by
    have hcast : ((2 : Int) ^ (8 * w)) = ((2 ^ (8 * w) : Nat) : Int) := by
      push_cast
      rfl
    omega
  rw [intToLe, fromLeBytes_toLeBytes_small _ _ htnlt, leToInt]
  rcases le_or_lt 0 v with hv | hv
  · have hself : v % 2 ^ (8 * w) = v := by
      apply Int.emod_eq_of_lt hv
      omega
    rw [hself] at htn ⊢
    rw [if_pos ?_]
    · exact htn
    · have : ((2 ^ (8 * w - 1) : Nat) : Int) = (2 : Int) ^ (8 * w - 1) := by
        push_cast
        rfl
      omega
  · have hself : v % 2 ^ (8 * w) = v + 2 ^ (8 * w) := by
      have := Int.emod_emod_of_dvd v (dvd_refl ((2 : Int) ^ (8 * w)))
      have heq : v % 2 ^ (8 * w) = (v + 2 ^ (8 * w)) % 2 ^ (8 * w) := by
        rw [Int.add_emod_self]
      rw [heq]
      apply Int.emod_eq_of_lt
      · omega
      · omega
    rw [if_neg ?_]
    · have hcast : ((2 ^ (8 * w) : Nat) : Int) = (2 : Int) ^ (8 * w) := by
        push_cast
        rfl
      omega
    · push_neg
      have hcast : ((2 ^ (8 * w - 1) : Nat) : Int) = (2 : Int) ^ (8 * w - 1) := by
        push_cast
        rfl
      omega

/-- The payload bytes of one fixed slot (everything after the kind byte). -/
def fixedPayload (d : Datum) (soff : Nat) : List Nat :=
  match d with
  | .null => []
  | .timestamp v => intToLe 8 v
  | .double b => toLeBytes 8 b
  | .float b => toLeBytes 4 b
  | .varbinary _ => toLeBytes 4 soff
  | .string _ => toLeBytes 4 soff
  | .uint64 v => toLeBytes 8 v
  | .uint32 v => toLeBytes 4 v
  | .uint16 v => toLeBytes 2 v
  | .uint8 v => [v]
  | .int64 v => intToLe 8 v
  | .int32 v => intToLe 4 v
  | .int16 v => intToLe 2 v
  | .int8 v => intToLe 1 v
  | .boolean v => [if v then 1 else 0]
  | .date v => intToLe 4 v
  | .time v => intToLe 8 v

lemma fixedEnc_eq_cons (d : Datum) (soff : Nat) (h : d.is_null = false) :
    fixedEnc d soff = d.kind.into_u8 :: fixedPayload d soff := by
  cases d <;> first | rfl | cases h

lemma try_from_into_u8 (k : DatumKind) :
    DatumKind.try_from k.into_u8 = some k := by
  cases k <;> rfl

lemma readLeN_append (w : Nat) (p rest : List Nat) (hp : p.length = w) :
    readLeN w (p ++ rest) = some (fromLeBytes p) := by
  rw [readLeN, if_pos (by simp only [List.length_append, hp]; omega)]
  rw [List.take_left' hp]

/-- Reading back one fixed-size datum from its slot payload. -/
lemma must_read_view_fixed (d : Datum) (soff : Nat) (rest buf : List Nat)
    (hwf : d.wf = true) (hfixed : d.is_fixed_sized = true)
    (hnn : d.is_null = false) :
    must_read_view d.kind (fixedPayload d soff ++ rest) buf = some d.as_view := by
  cases d with
  | null => cases hnn
  | varbinary v => cases hfixed
  | string v => cases hfixed
  | timestamp v =>
    simp only [Datum.wf, decide_eq_true_iff] at hwf
    simp only [Datum.kind, must_read_view, fixedPayload, Datum.as_view]
    rw [readLeN_append 8 _ rest (intToLe_length 8 v)]
    rw [Option.map_some']
    rw [leToInt_intToLe 8 v (by omega) (by norm_num; omega) (by norm_num; omega)]
  | double b =>
    simp only [Datum.wf, decide_eq_true_iff] at hwf
    simp only [Datum.kind, must_read_view, fixedPayload, Datum.as_view]
    rw [readLeN_append 8 _ rest (toLeBytes_length 8 b)]
    rw [Option.map_some']
    rw [fromLeBytes_toLeBytes_small 8 b (by norm_num; omega)]
  | float b =>
    simp only [Datum.wf, decide_eq_true_iff] at hwf
    simp only [Datum.kind, must_read_view, fixedPayload, Datum.as_view]
    rw [readLeN_append 4 _ rest (toLeBytes_length 4 b)]
    rw [Option.map_some']
    rw [fromLeBytes_toLeBytes_small 4 b (by norm_num; omega)]
  | uint64 v =>
    simp only [Datum.wf, decide_eq_true_iff] at hwf
    simp only [Datum.kind, must_read_view, fixedPayload, Datum.as_view]
    rw [readLeN_append 8 _ rest (toLeBytes_length 8 v)]
    rw [Option.map_some']
    rw [fromLeBytes_toLeBytes_small 8 v (by norm_num; omega)]
  | uint32 v =>
    simp only [Datum.wf, decide_eq_true_iff] at hwf
    simp only [Datum.kind, must_read_view, fixedPayload, Datum.as_view]
    rw [readLeN_append 4 _ rest (toLeBytes_length 4 v)]
    rw [Option.map_some']
    rw [fromLeBytes_toLeBytes_small 4 v (by norm_num; omega)]
  | uint16 v =>
    simp only [Datum.wf, decide_eq_true_iff] at hwf
    simp only [Datum.kind, must_read_view, fixedPayload, Datum.as_view]
    rw [readLeN_append 2 _ rest (toLeBytes_length 2 v)]
    rw [Option.map_some']
    rw [fromLeBytes_toLeBytes_small 2 v (by norm_num; omega)]
  | uint8 v =>
    simp only [Datum.kind, must_read_view, fixedPayload, Datum.as_view]
    rfl
  | int64 v =>
    simp only [Datum.wf, decide_eq_true_iff] at hwf
    simp only [Datum.kind, must_read_view, fixedPayload, Datum.as_view]
    rw [readLeN_append 8 _ rest (intToLe_length 8 v)]
    rw [Option.map_some']
    rw [leToInt_intToLe 8 v (by omega) (by norm_num; omega) (by norm_num; omega)]
  | int32 v =>
    simp only [Datum.wf, decide_eq_true_iff] at hwf
    simp only [Datum.kind, must_read_view, fixedPayload, Datum.as_view]
    rw [readLeN_append 4 _ rest (intToLe_length 4 v)]
    rw [Option.map_some']
    rw [leToInt_intToLe 4 v (by omega) (by norm_num; omega) (by norm_num; omega)]
  | int16 v =>
    simp only [Datum.wf, decide_eq_true_iff] at hwf
    simp only [Datum.kind, must_read_view, fixedPayload, Datum.as_view]
    rw [readLeN_append 2 _ rest (intToLe_length 2 v)]
    rw [Option.map_some']
    rw [leToInt_intToLe 2 v (by omega) (by norm_num; omega) (by norm_num; omega)]
  | int8 v =>
    simp only [Datum.wf, decide_eq_true_iff] at hwf
    have hpl : fixedPayload (.int8 v) soff = [fromLeBytes (intToLe 1 v)] := by
      simp only [fixedPayload, intToLe, toLeBytes, fromLeBytes]
      norm_num
    rw [hpl]
    simp only [Datum.kind, must_read_view, List.cons_append, Datum.as_view]
    rw [leToInt_intToLe 1 v (by omega) (by norm_num; omega) (by norm_num; omega)]
  | boolean v =>
    cases v with
    | true =>
      simp only [Datum.kind, must_read_view, fixedPayload, Datum.as_view]
      rfl
    | false =>
      simp only [Datum.kind, must_read_view, fixedPayload, Datum.as_view]
      rfl
  | date v =>
    simp only [Datum.wf, decide_eq_true_iff] at hwf
    simp only [Datum.kind, must_read_view, fixedPayload, Datum.as_view]
    rw [readLeN_append 4 _ rest (intToLe_length 4 v)]
    rw [Option.map_some']
    rw [leToInt_intToLe 4 v (by omega) (by norm_num; omega) (by norm_num; omega)]
  | time v =>
    simp only [Datum.wf, decide_eq_true_iff] at hwf
    simp only [Datum.kind, must_read_view, fixedPayload, Datum.as_view]
    rw [readLeN_append 8 _ rest (intToLe_length 8 v)]
    rw [Option.map_some']
    rw [leToInt_intToLe 8 v (by omega) (by norm_num; omega) (by norm_num; omega)]

/-! ### Reading the null bit set back -/

lemma nat_and_assoc (a b c : Nat) : a &&& b &&& c = a &&& (b &&& c) := by
  apply Nat.eq_of_testBit_eq
  intro j
  simp [Nat.testBit_and, Bool.and_assoc]

lemma byte_and_bit_ne_zero : ∀ b, b < 8 → (255 : Nat) &&& (1 <<< b) ≠ 0 := by
  decide

lemma byte_clear_own_bit : ∀ b, b < 8 → ((255 : Nat) - (1 <<< b)) &&& (1 <<< b) = 0 := by
  decide

lemma byte_clear_other_bit :
    ∀ b, b < 8 → ∀ c, c < 8 → b ≠ c →
      ((255 : Nat) - (1 <<< b)) &&& (1 <<< c) = 1 <<< c := by
  decide

lemma is_set_all_set (n j : Nat) (hj : j < n) :
    (BitSet.all_set n).is_set j = some true := by
  simp only [BitSet.is_set, BitSet.all_set, BitSet.compute_byte_bit_index,
    ge_iff_le, Nat.not_le_of_lt hj, if_false]
  have hbyte : j >>> 3 < BitSet.num_bytes n := bitset_byte_index_lt hj
  have hget : (List.replicate (BitSet.num_bytes n) (255 : Nat)).getD (j >>> 3) 0
      = 255 := by
    rw [List.getD_eq_getElem?_getD, List.getElem?_replicate]
    simp [hbyte]
  rw [hget]
  have hb := byte_and_bit_ne_zero (j &&& 7)
    (by rw [bitset_and_seven]; exact Nat.mod_lt _ (by norm_num))
  simp [bne_iff_ne, hb]

lemma unset_is_set_self (bs : BitSet) (i : Nat) (hi : i < bs.num_bits) :
    (bs.unset i).is_set i = some false := by
  rw [BitSet.unset, if_neg (Nat.not_le_of_lt hi)]
  simp only [BitSet.is_set, BitSet.compute_byte_bit_index, ge_iff_le,
    Nat.not_le_of_lt hi, if_false]
  have hb7 : i &&& 7 < 8 := by
    rw [bitset_and_seven]; exact Nat.mod_lt _ (by norm_num)
  by_cases hlt : i >>> 3 < bs.buffer.length
  · have hget : ((bs.buffer.set (i >>> 3)
        ((bs.buffer.getD (i >>> 3) 0) &&& (255 - (1 <<< (i &&& 7)))))).getD
        (i >>> 3) 0
        = (bs.buffer.getD (i >>> 3) 0) &&& (255 - (1 <<< (i &&& 7))) := by
      rw [List.getD_eq_getElem?_getD, List.getElem?_set_self (by simpa using hlt)]
      simp
    rw [hget, nat_and_assoc, byte_clear_own_bit _ hb7]
    simp
  · have hset : bs.buffer.set (i >>> 3)
        ((bs.buffer.getD (i >>> 3) 0) &&& (255 - (1 <<< (i &&& 7)))) = bs.buffer :=
      List.set_eq_of_length_le (by omega)
    rw [hset]
    have hget : bs.buffer.getD (i >>> 3) 0 = 0 := by
      rw [List.getD_eq_getElem?_getD, List.getElem?_eq_none (by omega)]
      rfl
    rw [hget]
    simp

lemma unset_is_set_ne (bs : BitSet) (i j : Nat) (hne : j ≠ i) :
    (bs.unset i).is_set j = bs.is_set j := by
  rw [BitSet.unset]
  by_cases hrange : i ≥ bs.num_bits
  · rw [if_pos hrange]
  · rw [if_neg hrange]
    simp only [BitSet.is_set, BitSet.compute_byte_bit_index]
    by_cases hj : j ≥ bs.num_bits
    · rw [if_pos hj, if_pos hj]
    · rw [if_neg hj, if_neg hj]
      by_cases hbyte : j >>> 3 = i >>> 3
      · have hi8 : i &&& 7 = i % 8 := bitset_and_seven i
        have hj8 : j &&& 7 = j % 8 := bitset_and_seven j
        have hi3 : i >>> 3 = i / 8 := by
          rw [Nat.shiftRight_eq_div_pow]
        have hj3 : j >>> 3 = j / 8 := by
          rw [Nat.shiftRight_eq_div_pow]
        have hbits : i &&& 7 ≠ j &&& 7 := by
          rw [hi8, hj8]
          intro hmod
          rw [hi3, hj3] at hbyte
          omega
        by_cases hlt : i >>> 3 < bs.buffer.length
        · have hget : ((bs.buffer.set (i >>> 3)
              ((bs.buffer.getD (i >>> 3) 0) &&& (255 - (1 <<< (i &&& 7)))))).getD
              (j >>> 3) 0
              = (bs.buffer.getD (i >>> 3) 0) &&& (255 - (1 <<< (i &&& 7))) := by
            rw [hbyte, List.getD_eq_getElem?_getD,
              List.getElem?_set_self (by simpa using hlt)]
            simp
          rw [hget, hbyte, nat_and_assoc,
            byte_clear_other_bit (i &&& 7)
              (by rw [bitset_and_seven]; exact Nat.mod_lt _ (by norm_num))
              (j &&& 7)
              (by rw [bitset_and_seven]; exact Nat.mod_lt _ (by norm_num))
              hbits]
        · rw [List.set_eq_of_length_le (by omega)]
      · have hget : ((bs.buffer.set (i >>> 3)
            ((bs.buffer.getD (i >>> 3) 0) &&& (255 - (1 <<< (i &&& 7)))))).getD
            (j >>> 3) 0 = bs.buffer.getD (j >>> 3) 0 := by
          rw [List.getD_eq_getElem?_getD,
            List.getElem?_set_ne (by omega), List.getD_eq_getElem?_getD]
        rw [hget]

lemma unsetNulls_is_set_lt (row : List Datum) (k : Nat) :
    ∀ i j bs, j < i →
      (unsetNulls bs row i k).is_set j = bs.is_set j := by
  induction k with
  | zero => intro i j bs _; rfl
  | succ k ih =>
    intro i j bs hj
    rw [unsetNulls, ih (i + 1) j _ (by omega)]
    by_cases hnull : (row.getD i Datum.null).is_null
    · rw [if_pos hnull, unset_is_set_ne bs i j (by omega)]
    · rw [if_neg hnull]

lemma unsetNulls_is_set (row : List Datum) (k : Nat) :
    ∀ i j bs, i ≤ j → j < i + k → j < bs.num_bits →
      (unsetNulls bs row i k).is_set j
        = if (row.getD j Datum.null).is_null then some false
          else bs.is_set j := by
  induction k with
  | zero => intro i j bs hij hjk _; omega
  | succ k ih =>
    intro i j bs hij hjk hjb
    rcases Nat.eq_or_lt_of_le hij with heq | hlt
    · subst heq
      rw [unsetNulls, unsetNulls_is_set_lt row k (i + 1) i _ (by omega)]
      by_cases hnull : (row.getD i Datum.null).is_null
      · rw [if_pos hnull, if_pos hnull, unset_is_set_self bs i hjb]
      · rw [if_neg hnull, if_neg hnull]
    · rw [unsetNulls]
      have hnb : j < (if (row.getD i Datum.null).is_null
          then bs.unset i else bs).num_bits := by
        by_cases hnull : (row.getD i Datum.null).is_null
        · rw [if_pos hnull, unset_num_bits]; exact hjb
        · rw [if_neg hnull]; exact hjb
      rw [ih (i + 1) j _ (by omega) (by omega) hnb]
      by_cases hnull2 : (row.getD j Datum.null).is_null
      · rw [if_pos hnull2, if_pos hnull2]
      · rw [if_neg hnull2, if_neg hnull2]
        by_cases hnull : (row.getD i Datum.null).is_null
        · rw [if_pos hnull, unset_is_set_ne bs i j (by omega)]
        · rw [if_neg hnull]

lemma roBitSet_transfer (bs : BitSet) (j : Nat) :
    RoBitSet.is_set { bytes := bs.buffer, num_bits := bs.num_bits } j
      = bs.is_set j := by
  simp [RoBitSet.is_set, BitSet.is_set, BitSet.compute_byte_bit_index]

/-- The null bit set the writer stores reads back as: bit `j` is clear exactly
when the `j`-th datum is null. -/
lemma ro_is_set_unsetNulls (row : List Datum) (n j : Nat) (hj : j < n) :
    RoBitSet.is_set
      { bytes := (unsetNulls (BitSet.all_set n) row 0 n).as_bytes,
        num_bits := n } j
      = some (!(row.getD j Datum.null).is_null) := by
  have hnum : (unsetNulls (BitSet.all_set n) row 0 n).num_bits = n := by
    rw [unsetNulls_num_bits]
    rfl
  have htr : RoBitSet.is_set
      { bytes := (unsetNulls (BitSet.all_set n) row 0 n).as_bytes,
        num_bits := n } j
      = (unsetNulls (BitSet.all_set n) row 0 n).is_set j := by
    rw [← roBitSet_transfer (unsetNulls (BitSet.all_set n) row 0 n) j, hnum]
    rfl
  rw [htr, unsetNulls_is_set row n 0 j (BitSet.all_set n) (by omega) (by omega)
    (by show j < n; exact hj)]
  by_cases hnull : (row.getD j Datum.null).is_null
  · rw [if_pos hnull, hnull]
    rfl
  · rw [if_neg hnull, is_set_all_set n j hj]
    have hf : (row.getD j Datum.null).is_null = false := by
      revert hnull
      cases (row.getD j Datum.null).is_null <;> simp
    rw [hf]
    rfl

/-! ### Schema offset bookkeeping -/

lemma bool_eq_false {b : Bool} (h : ¬ b = true) : b = false := by
  cases b
  · rfl
  · exact absurd rfl h

/-- Fixed-slot offset of column `i` in the schema (`byte_offsets[i]`): the sum
of the slot sizes of the preceding columns. -/
def sboPrefix (schema : Schema) (i : Nat) : Nat :=
  ((schema.columns.take i).map (fun c => byte_size_of_datum c.data_type)).sum

/-- Fixed-slot bytes of the null columns among the first `i` (the reader's
`acc_null_bytes` after `i` steps). -/
def nullBytesPrefix (row : List Datum) (schema : Schema) : Nat → Nat
  | 0 => 0
  | i + 1 => nullBytesPrefix row schema i
      + (if (row.getD i Datum.null).is_null
         then byte_size_of_datum (schema.column i).data_type else 0)

lemma fixedLen_take_succ (row : List Datum) (i : Nat) (hi : i < row.length) :
    fixedLen (row.take (i + 1))
      = fixedLen (row.take i)
        + (if (row.getD i Datum.null).is_null then 0
           else byte_size_of_datum (row.getD i Datum.null).kind) := by
  rw [List.take_succ, fixedLen_append]
  congr 1
  rw [List.getElem?_eq_getElem hi]
  rw [List.getD_eq_getElem?_getD, List.getElem?_eq_getElem hi]
  simp [fixedLen]

lemma sboPrefix_succ (schema : Schema) (i : Nat) (hi : i < schema.num_columns) :
    sboPrefix schema (i + 1)
      = sboPrefix schema i + byte_size_of_datum (schema.column i).data_type := by
  rw [sboPrefix, sboPrefix, List.take_succ, List.map_append, List.sum_append]
  congr 1
  rw [List.getElem?_eq_getElem (show i < schema.columns.length from hi)]
  rw [Schema.column, List.getD_eq_getElem?_getD,
    List.getElem?_eq_getElem (show i < schema.columns.length from hi)]
  simp

lemma sboPrefix_full (schema : Schema) :
    sboPrefix schema schema.num_columns = schema.string_buffer_offset := by
  rw [sboPrefix, Schema.string_buffer_offset, Schema.num_columns,
    List.take_length]

/-- Reader/writer offset agreement: the accumulated null bytes plus the
writer's fixed length of the first `i` datums is the schema offset of column
`i`. -/
lemma nullBytes_fixedLen_agree (row : List Datum) (schema : Schema)
    (hm : row.length = schema.num_columns)
    (hms : ∀ j, j < row.length → (row.getD j Datum.null).is_null = false →
      (row.getD j Datum.null).kind = (schema.column j).data_type) :
    ∀ i, i ≤ row.length →
      nullBytesPrefix row schema i + fixedLen (row.take i)
        = sboPrefix schema i := by
  intro i
  induction i with
  | zero => intro _; simp [nullBytesPrefix, sboPrefix, fixedLen]
  | succ i ih =>
    intro hi1
    have hi : i < row.length := by omega
    rw [nullBytesPrefix, fixedLen_take_succ row i hi,
      sboPrefix_succ schema i (by omega), ← ih (by omega)]
    by_cases hnull : (row.getD i Datum.null).is_null
    · rw [if_pos hnull, if_pos hnull]
      omega
    · rw [if_neg hnull, if_neg hnull, hms i hi (bool_eq_false hnull)]
      omega

lemma fixedLen_take_le (row : List Datum) (i : Nat) :
    fixedLen (row.take i) ≤ fixedLen row := by
  conv_rhs => rw [← List.take_append_drop i row]
  rw [fixedLen_append]
  omega

lemma varLen_take_le (row : List Datum) (i : Nat) :
    varLen (row.take i) ≤ varLen row := by
  conv_rhs => rw [← List.take_append_drop i row]
  rw [varLen_append]
  omega

lemma numNulls_eq_zero (row : List Datum) (h : numNulls row = 0) :
    ∀ j, j < row.length → (row.getD j Datum.null).is_null = false := by
  induction row with
  | nil => intro j hj; simp at hj
  | cons d rest ih =>
    intro j hj
    rw [numNulls] at h
    have hrest : numNulls rest = 0 := by omega
    cases j with
    | zero =>
      rw [List.getD_cons_zero]
      by_cases hd : d.is_null
      · rw [if_pos hd] at h
        omega
      · exact bool_eq_false hd
    | succ j =>
      rw [List.getD_cons_succ]
      exact ih hrest j (by simpa using hj)

lemma numNulls_pos_len (row : List Datum) (h : 0 < numNulls row) :
    0 < row.length := by
  cases row with
  | nil => simp [numNulls] at h
  | cons d rest => simp

lemma schemaOffsets_get (cols : List ColumnSchema) :
    ∀ (i acc : Nat), i < cols.length →
      (schemaOffsets cols acc).get? i
        = some (acc + ((cols.take i).map
            (fun c => byte_size_of_datum c.data_type)).sum) := by
  induction cols with
  | nil => intro i acc hi; simp at hi
  | cons c rest ih =>
    intro i acc hi
    cases i with
    | zero => simp [schemaOffsets]
    | succ i =>
      rw [schemaOffsets, List.get?_cons_succ,
        ih i (acc + byte_size_of_datum c.data_type) (by simpa using hi),
        List.take_succ_cons, List.map_cons, List.sum_cons]
      congr 1
      omega

lemma byte_offsets_get (schema : Schema) (i : Nat)
    (hi : i < schema.num_columns) :
    schema.byte_offsets.get? i = some (sboPrefix schema i) := by
  rw [Schema.byte_offsets, schemaOffsets_get schema.columns i 0 hi, sboPrefix]
  simp

/-- Per-column entry the with-nulls reader computes: `-1` for a null column,
otherwise the column's offset into the fixed-slot block of the written row. -/
def fboEntry (row : List Datum) (j : Nat) : Int :=
  if (row.getD j Datum.null).is_null then -1
  else (fixedLen (row.take j) : Int)

lemma fixedByteOffsetsLoop_eq (roB : RoBitSet) (row : List Datum)
    (schema : Schema)
    (hm : row.length = schema.num_columns)
    (hms : ∀ j, j < row.length → (row.getD j Datum.null).is_null = false →
      (row.getD j Datum.null).kind = (schema.column j).data_type)
    (hro : ∀ j, j < schema.num_columns →
      roB.is_set j = some (!(row.getD j Datum.null).is_null)) :
    ∀ (cols : List ColumnSchema) (i accN : Nat),
      schema.columns.drop i = cols →
      accN + fixedLen (row.take i) = sboPrefix schema i →
      fixedByteOffsetsLoop roB schema i
          (schemaOffsets cols (sboPrefix schema i)) accN
        = (List.range cols.length).map (fun t => fboEntry row (i + t)) := by
  intro cols
  induction cols with
  | nil => intro i accN _ _; rfl
  | cons c rest ih =>
    intro i accN hdrop hinv
    have hi : i < schema.columns.length := by
      have hlen : (schema.columns.drop i).length = rest.length + 1 := by
        rw [hdrop]
        rfl
      rw [List.length_drop] at hlen
      omega
    have hirow : i < row.length := by
      rw [hm]
      exact hi
    have hcol : schema.column i = c := by
      have h0 : schema.columns[i]? = some c := by
        have h1 : (schema.columns.drop i)[0]? = some c := by
          rw [hdrop]
          simp
        rw [List.getElem?_drop] at h1
        simpa using h1
      rw [Schema.column, List.getD_eq_getElem?_getD, h0]
      rfl
    have hdrop1 : schema.columns.drop (i + 1) = rest := by
      have h1 : schema.columns.drop (i + 1) = (schema.columns.drop i).drop 1 := by
        rw [List.drop_drop, Nat.add_comm]
      rw [h1, hdrop]
      rfl
    have hro_i := hro i hi
    have hrange : rest.length + 1 = (c :: rest).length := rfl
    rw [schemaOffsets]
    by_cases hnull : (row.getD i Datum.null).is_null
    · rw [hnull] at hro_i
      simp only [Bool.not_true] at hro_i
      simp only [fixedByteOffsetsLoop, hro_i]
      have hinv1 : accN + byte_size_of_datum (schema.column i).data_type
          + fixedLen (row.take (i + 1)) = sboPrefix schema (i + 1) := by
        rw [fixedLen_take_succ row i hirow, if_pos hnull,
          sboPrefix_succ schema i hi]
        omega
      have hacc : sboPrefix schema i + byte_size_of_datum c.data_type
          = sboPrefix schema (i + 1) := by
        rw [sboPrefix_succ schema i hi, hcol]
      rw [hacc, ih (i + 1) _ hdrop1 hinv1]
      rw [List.length_cons, List.range_succ_eq_map, List.map_cons,
        List.map_map]
      have hf : ((fun t => fboEntry row (i + t)) ∘ Nat.succ)
          = (fun t => fboEntry row (i + 1 + t)) := by
        funext t
        show fboEntry row (i + (t + 1)) = fboEntry row (i + 1 + t)
        congr 1
        omega
      rw [hf]
      simp only [Nat.add_zero]
      congr 1
      rw [fboEntry, if_pos (by simpa using hnull)]
    · have hnf : (row.getD i Datum.null).is_null = false := bool_eq_false hnull
      rw [hnf] at hro_i
      simp only [Bool.not_false] at hro_i
      simp only [fixedByteOffsetsLoop, hro_i]
      have hinv1 : accN + fixedLen (row.take (i + 1))
          = sboPrefix schema (i + 1) := by
        rw [fixedLen_take_succ row i hirow, if_neg hnull,
          sboPrefix_succ schema i hi, hms i hirow hnf, hcol]
        omega
      have hacc : sboPrefix schema i + byte_size_of_datum c.data_type
          = sboPrefix schema (i + 1) := by
        rw [sboPrefix_succ schema i hi, hcol]
      rw [hacc, ih (i + 1) _ hdrop1 hinv1]
      rw [List.length_cons, List.range_succ_eq_map, List.map_cons,
        List.map_map]
      have hf : ((fun t => fboEntry row (i + t)) ∘ Nat.succ)
          = (fun t => fboEntry row (i + 1 + t)) := by
        funext t
        show fboEntry row (i + (t + 1)) = fboEntry row (i + 1 + t)
        congr 1
        omega
      rw [hf]
      simp only [Nat.add_zero]
      congr 1
      rw [fboEntry, if_neg hnull]
      have : (sboPrefix schema i : Int) - (accN : Int)
          = (fixedLen (row.take i) : Int) := by
        omega
      rw [this]

/-- The with-nulls reader's byte-offset table, entry by entry. -/
lemma fixedByteOffsetsLoop_get (roB : RoBitSet) (row : List Datum)
    (schema : Schema)
    (hm : row.length = schema.num_columns)
    (hms : ∀ j, j < row.length → (row.getD j Datum.null).is_null = false →
      (row.getD j Datum.null).kind = (schema.column j).data_type)
    (hro : ∀ j, j < schema.num_columns →
      roB.is_set j = some (!(row.getD j Datum.null).is_null))
    (i : Nat) (hi : i < schema.num_columns) :
    (fixedByteOffsetsLoop roB schema 0 schema.byte_offsets 0).get? i
      = some (fboEntry row i) := by
  have hzero : sboPrefix schema 0 = 0 := by
    simp [sboPrefix]
  have hfull := fixedByteOffsetsLoop_eq roB row schema hm hms hro
    schema.columns 0 0 (by rw [List.drop_zero]) (by simp [fixedLen, hzero])
  rw [hzero] at hfull
  rw [Schema.byte_offsets, hfull]
  rw [List.get?_eq_getElem?, List.getElem?_map,
    List.getElem?_range (show i < schema.columns.length from hi)]
  rw [Option.map_some']
  simp only [Nat.zero_add]

/-! ### Reading one datum slot back -/

lemma checksOk_cons (d : Datum) (rest : List Datum) (soff : Nat) :
    checksOk (d :: rest) soff = true ↔
      ((d.is_fixed_sized = true
          ∨ (soff ≤ MAX_ROW_LEN ∧ d.size ≤ MAX_STRING_LEN))
        ∧ checksOk rest (soff + (varEnc d).length) = true) := by
  rw [checksOk]
  simp [Bool.and_eq_true, Bool.or_eq_true, decide_eq_true_iff]

lemma varEnc_length_add_varLen (d : Datum) (rest : List Datum) :
    (varEnc d).length + varLen rest = varLen (d :: rest) := by
  rw [varEnc_length, varLen]
  by_cases h : d.is_fixed_sized
  · simp [h]
  · simp only [h, Bool.false_eq_true, if_false]
    omega

lemma checksOk_extract (xs : List Datum) :
    ∀ (d : Datum) (ys : List Datum) (s0 : Nat),
      checksOk (xs ++ d :: ys) s0 = true →
      d.is_fixed_sized = true
        ∨ (s0 + varLen xs ≤ MAX_ROW_LEN ∧ d.size ≤ MAX_STRING_LEN) := by
  induction xs with
  | nil =>
    intro d ys s0 h
    rw [List.nil_append, checksOk_cons] at h
    rcases h.1 with h1 | h1
    · exact Or.inl h1
    · refine Or.inr ⟨?_, h1.2⟩
      rw [varLen]
      omega
  | cons x xs ih =>
    intro d ys s0 h
    rw [List.cons_append, checksOk_cons] at h
    have h2 := ih d ys (s0 + (varEnc x).length) h.2
    rcases h2 with h2 | h2
    · exact Or.inl h2
    · refine Or.inr ⟨?_, h2.2⟩
      have hv := varEnc_length_add_varLen x xs
      omega

lemma checksOk_of_bounds (row : List Datum) :
    ∀ s0 : Nat, s0 + varLen row ≤ MAX_ROW_LEN →
      (∀ d ∈ row, d.is_fixed_sized = false → d.size ≤ MAX_STRING_LEN) →
      checksOk row s0 = true := by
  induction row with
  | nil => intro s0 _ _; rfl
  | cons d rest ih =>
    intro s0 hL hstr
    rw [checksOk_cons]
    have hv := varEnc_length_add_varLen d rest
    constructor
    · by_cases hf : d.is_fixed_sized
      · exact Or.inl hf
      · refine Or.inr ⟨by omega, hstr d (by simp) (bool_eq_false hf)⟩
    · exact ih (s0 + (varEnc d).length) (by omega)
        (fun x hx hfx => hstr x (by simp [hx]) hfx)

lemma must_read_bytes_eq (soff : Nat) (rest pre v tailV : List Nat)
    (hpre : pre.length = soff) (hsoff : soff < 2 ^ 32)
    (hlen : v.length < 2 ^ 32) :
    must_read_bytes (toLeBytes 4 soff ++ rest)
      (pre ++ ((toLeBytes 4 v.length ++ v) ++ tailV)) = some v := by
  have h1 : readLeN 4 (toLeBytes 4 soff ++ rest) = some soff := by
    rw [readLeN_append 4 _ rest (toLeBytes_length 4 soff)]
    rw [fromLeBytes_toLeBytes_small 4 soff (by norm_num; omega)]
  have hoff : soff ≤ (pre ++ ((toLeBytes 4 v.length ++ v) ++ tailV)).length := by
    simp only [List.length_append]
    omega
  have hbuf : (pre ++ ((toLeBytes 4 v.length ++ v) ++ tailV)).drop soff
      = toLeBytes 4 v.length ++ (v ++ tailV) := by
    rw [← hpre, List.drop_left]
    simp [List.append_assoc]
  have h2 : readLeN 4 (toLeBytes 4 v.length ++ (v ++ tailV))
      = some v.length := by
    rw [readLeN_append 4 _ _ (toLeBytes_length 4 v.length)]
    rw [fromLeBytes_toLeBytes_small 4 v.length (by norm_num; omega)]
  have hdrop : (toLeBytes 4 v.length ++ (v ++ tailV)).drop 4 = v ++ tailV :=
    List.drop_left' (toLeBytes_length 4 v.length)
  simp only [must_read_bytes, h1, if_pos hoff, hbuf, h2, hdrop,
    if_pos (show v.length ≤ (v ++ tailV).length by
      simp only [List.length_append]; omega)]
  rw [List.take_left' rfl]

lemma must_read_view_varlen (d : Datum) (soff : Nat) (rest pre tailV : List Nat)
    (hvar : d.is_fixed_sized = false)
    (hpre : pre.length = soff) (hsoff : soff ≤ MAX_ROW_LEN)
    (hsz : d.size ≤ MAX_STRING_LEN) :
    must_read_view d.kind (fixedPayload d soff ++ rest)
      (pre ++ (varEnc d ++ tailV)) = some d.as_view := by
  have hrow : MAX_ROW_LEN < 2 ^ 32 := by norm_num [MAX_ROW_LEN]
  have hstr : MAX_STRING_LEN < 2 ^ 32 := by norm_num [MAX_STRING_LEN]
  cases d <;> try (exact Bool.noConfusion hvar)
  case varbinary v =>
    simp only [Datum.size] at hsz
    simp only [Datum.kind, must_read_view, fixedPayload, varEnc, Datum.as_view]
    rw [must_read_bytes_eq soff rest pre v tailV hpre (by omega) (by omega)]
    rfl
  case string v =>
    simp only [Datum.size] at hsz
    simp only [Datum.kind, must_read_view, fixedPayload, varEnc, Datum.as_view]
    rw [must_read_bytes_eq soff rest pre v tailV hpre (by omega) (by omega)]
    rfl

/-- The core slot-read lemma: in a buffer laid out as
`prefix | fixed slots | var-len payloads` (with the var-len region starting
right after the fixed slots), reading the datum slot of a non-null column `i`
yields exactly the datum's view. -/
lemma datum_view_at_raw_slot (row : List Datum) (i : Nat) (pre : List Nat)
    (hi : i < row.length)
    (hnn : (row.getD i Datum.null).is_null = false)
    (hwf : (row.getD i Datum.null).wf = true)
    (hck : checksOk row (pre.length + fixedLen row) = true) :
    datum_view_at_raw
      ((pre ++ (fixedCat row (pre.length + fixedLen row) ++ varCat row)).drop
        (pre.length + fixedLen (row.take i)))
      (pre ++ (fixedCat row (pre.length + fixedLen row) ++ varCat row))
      = some (row.getD i Datum.null).as_view := by
  set s0 := pre.length + fixedLen row with hs0
  set d := row.getD i Datum.null with hd
  have hrow : row = row.take i ++ d :: (row.drop (i + 1)) := by
    conv_lhs => rw [← List.take_append_drop i row]
    congr 1
    rw [List.drop_eq_getElem_cons hi]
    congr 1
    rw [hd, List.getD_eq_getElem?_getD, List.getElem?_eq_getElem hi]
    rfl
  set xs := row.take i with hxs
  set ys := row.drop (i + 1) with hys
  have hfx : fixedLen xs = (fixedCat xs s0).length := (fixedCat_length xs s0).symm
  set si := s0 + varLen xs with hsi
  have hF : fixedCat row s0
      = fixedCat xs s0
        ++ (fixedEnc d si ++ fixedCat ys (si + (varEnc d).length)) := by
    conv_lhs => rw [hrow]
    rw [fixedCat_append, fixedCat]
  have hV : varCat row = varCat xs ++ (varEnc d ++ varCat ys) := by
    conv_lhs => rw [hrow]
    rw [varCat_append, varCat]
  have hdrop : (pre ++ (fixedCat row s0 ++ varCat row)).drop
      (pre.length + fixedLen xs)
      = fixedEnc d si
        ++ (fixedCat ys (si + (varEnc d).length) ++ varCat row) := by
    have hsplit : pre ++ (fixedCat row s0 ++ varCat row)
        = (pre ++ fixedCat xs s0)
          ++ (fixedEnc d si
            ++ (fixedCat ys (si + (varEnc d).length) ++ varCat row)) := by
      rw [hF]
      simp [List.append_assoc]
    rw [hsplit, List.drop_left' (by
      rw [List.length_append, fixedCat_length])]
  rw [hdrop]
  rw [fixedEnc_eq_cons d si hnn, List.cons_append]
  rw [datum_view_at_raw, try_from_into_u8]
  by_cases hfix : d.is_fixed_sized
  · exact must_read_view_fixed d si _ _ hwf hfix hnn
  · have hfixf : d.is_fixed_sized = false := bool_eq_false hfix
    have hckd : d.is_fixed_sized = true
        ∨ (s0 + varLen xs ≤ MAX_ROW_LEN ∧ d.size ≤ MAX_STRING_LEN) := by
      apply checksOk_extract xs d ys s0
      rw [← hrow]
      exact hck
    rcases hckd with hc | hc
    · rw [hfixf] at hc
      cases hc
    · have hbuf : pre ++ (fixedCat row s0 ++ varCat row)
          = ((pre ++ fixedCat row s0) ++ varCat xs) ++ (varEnc d ++ varCat ys) := by
        rw [hV]
        simp [List.append_assoc]
      have hlenpre : ((pre ++ fixedCat row s0) ++ varCat xs).length = si := by
        rw [List.length_append, List.length_append, fixedCat_length,
          varCat_length]
      rw [hbuf]
      exact must_read_view_varlen d si _ _ _ hfixf hlenpre
        (by rw [hsi]; exact hc.1) hc.2

lemma is_null_eq (d : Datum) (h : d.is_null = true) : d = .null := by
  cases d <;> first | rfl | exact Bool.noConfusion h

lemma nullBytesPrefix_zero (row : List Datum) (schema : Schema) :
    ∀ i, (∀ j, j < i → (row.getD j Datum.null).is_null = false) →
      nullBytesPrefix row schema i = 0 := by
  intro i
  induction i with
  | zero => intro _; rfl
  | succ i ih =>
    intro h
    rw [nullBytesPrefix, ih (fun j hj => h j (by omega)), h i (by omega)]
    simp

/-- Reading back any column of a row written on the no-nulls path. -/
lemma readViewAt_no_nulls (schema : Schema) (row : List Datum)
    (hm : row.length = schema.num_columns)
    (hwf : ∀ j, j < row.length → (row.getD j Datum.null).wf = true)
    (hnonull : ∀ j, j < row.length → (row.getD j Datum.null).is_null = false)
    (hms : ∀ j, j < row.length → (row.getD j Datum.null).is_null = false →
      (row.getD j Datum.null).kind = (schema.column j).data_type)
    (hck : checksOk row (schema.string_buffer_offset + 4) = true)
    (i : Nat) (hi : i < row.length) :
    readViewAt (toLeBytes 4 0
        ++ fixedCat row (schema.string_buffer_offset + 4) ++ varCat row)
      schema i = some (row.getD i Datum.null).as_view := by
  have hfl : fixedLen row = schema.string_buffer_offset := by
    have hpre := nullBytes_fixedLen_agree row schema hm hms row.length le_rfl
    rw [nullBytesPrefix_zero row schema row.length (fun j hj => hnonull j hj),
      List.take_length, hm, sboPrefix_full] at hpre
    omega
  set buf := toLeBytes 4 0
    ++ fixedCat row (schema.string_buffer_offset + 4) ++ varCat row with hbuf
  have hlenbuf : buf.length = 4 + fixedLen row + varLen row := by
    rw [hbuf]
    simp only [List.length_append, toLeBytes_length, fixedCat_length,
      varCat_length]
  have htake : buf.take 4 = toLeBytes 4 0 := by
    rw [hbuf, List.append_assoc, List.take_left' (toLeBytes_length 4 0)]
  have htry : reader_try_new buf schema
      = .ok (.noNulls
          { byte_offsets := schema.byte_offsets, datum_offset := 4 }) := by
    rw [reader_try_new, if_pos (by rw [hlenbuf]; omega)]
    rw [htake]
    have hz : fromLeBytes (toLeBytes 4 0) = 0 := rfl
    rw [hz]
    simp
  have hsbo : sboPrefix schema i = fixedLen (row.take i) := by
    have hpre := nullBytes_fixedLen_agree row schema hm hms i (le_of_lt hi)
    rw [nullBytesPrefix_zero row schema i (fun j hj => hnonull j (by omega))]
        at hpre
    omega
  simp only [readViewAt, htry, ContiguousReader.datum_view_at,
    byte_offsets_get schema i (hm ▸ hi)]
  rw [if_pos (by
    rw [hlenbuf, hsbo]
    have := fixedLen_take_le row i
    omega)]
  rw [hbuf, List.append_assoc, hsbo]
  have hoff2 : (toLeBytes 4 0).length + fixedLen row
      = schema.string_buffer_offset + 4 := by
    simp only [toLeBytes_length]
    omega
  have hslot := datum_view_at_raw_slot row i (toLeBytes 4 0) hi
    (hnonull i hi) (hwf i hi)
    (by rw [hoff2]; exact hck)
  rw [hoff2] at hslot
  simp only [toLeBytes_length] at hslot
  exact hslot

/-- Reading back any column of a row written on the with-nulls path. -/
lemma readViewAt_with_nulls (schema : Schema) (row : List Datum)
    (hm : row.length = schema.num_columns)
    (hwf : ∀ j, j < row.length → (row.getD j Datum.null).wf = true)
    (hms : ∀ j, j < row.length → (row.getD j Datum.null).is_null = false →
      (row.getD j Datum.null).kind = (schema.column j).data_type)
    (hn32 : schema.num_columns < 2 ^ 32)
    (hpos : 0 < schema.num_columns)
    (hck : checksOk row
      (4 + BitSet.num_bytes schema.num_columns + fixedLen row) = true)
    (i : Nat) (hi : i < row.length) :
    readViewAt (toLeBytes 4 schema.num_columns
        ++ (unsetNulls (BitSet.all_set schema.num_columns) row 0
            schema.num_columns).as_bytes
        ++ fixedCat row
            (4 + BitSet.num_bytes schema.num_columns + fixedLen row)
        ++ varCat row)
      schema i = some (row.getD i Datum.null).as_view := by
  set n := schema.num_columns with hn
  set Bn := BitSet.num_bytes n with hBn
  set B := (unsetNulls (BitSet.all_set n) row 0 n).as_bytes with hB
  set F := fixedCat row (4 + Bn + fixedLen row) with hF
  set V := varCat row with hV
  set buf := toLeBytes 4 n ++ B ++ F ++ V with hbuf
  have hBlen : B.length = Bn := by
    rw [hB]
    show (unsetNulls (BitSet.all_set n) row 0 n).buffer.length = Bn
    rw [unsetNulls_buffer_length]
    show (List.replicate (BitSet.num_bytes n) (255 : Nat)).length = Bn
    rw [List.length_replicate, hBn]
  have hFlen : F.length = fixedLen row := by
    rw [hF, fixedCat_length]
  have hVlen : V.length = varLen row := by
    rw [hV, varCat_length]
  have hlenbuf : buf.length = 4 + Bn + fixedLen row + varLen row := by
    rw [hbuf]
    simp only [List.length_append, toLeBytes_length, hBlen, hFlen, hVlen]
  have htake : buf.take 4 = toLeBytes 4 n := by
    rw [hbuf, List.append_assoc, List.append_assoc,
      List.take_left' (toLeBytes_length 4 n)]
  have hdrop4 : buf.drop 4 = B ++ (F ++ V) := by
    rw [hbuf, List.append_assoc, List.append_assoc,
      List.drop_left' (toLeBytes_length 4 n)]
  have hfromle : fromLeBytes (toLeBytes 4 n) = n :=
    fromLeBytes_toLeBytes_small 4 n (by norm_num; omega)
  have htakeB : (buf.drop 4).take (BitSet.num_bytes n) = B := by
    rw [hdrop4, ← hBn, List.take_left' hBlen]
  have hroNew : RoBitSet.try_new ((buf.drop 4).take (BitSet.num_bytes n)) n
      = some { bytes := B, num_bits := n } := by
    rw [htakeB, RoBitSet.try_new, if_pos (by rw [hBlen, hBn])]
  have htry : reader_try_new buf schema
      = .ok (.withNulls
          { byte_offsets := fixedByteOffsetsLoop
              { bytes := B, num_bits := n } schema 0 schema.byte_offsets 0,
            datum_offset := 4 + BitSet.num_bytes n }) := by
    simp only [reader_try_new, htake, hfromle]
    rw [if_pos (by rw [hlenbuf]; omega)]
    rw [if_pos (show n > 0 from hpos)]
    rw [if_pos (by
      rw [List.length_drop, hlenbuf, ← hBn]
      omega)]
    simp only [hroNew]
  have hroB : ∀ j, j < schema.num_columns →
      RoBitSet.is_set { bytes := B, num_bits := n } j
        = some (!(row.getD j Datum.null).is_null) := by
    intro j hj
    rw [hB]
    exact ro_is_set_unsetNulls row n j hj
  have hget := fixedByteOffsetsLoop_get { bytes := B, num_bits := n } row
    schema hm hms hroB i (show i < schema.num_columns by omega)
  simp only [readViewAt, htry, ContiguousReader.datum_view_at, hget]
  have hprelen : (toLeBytes 4 n ++ B).length = 4 + Bn := by
    rw [List.length_append, toLeBytes_length, hBlen]
  by_cases hnull : (row.getD i Datum.null).is_null
  · rw [fboEntry, if_pos hnull]
    rw [if_pos (by norm_num)]
    rw [is_null_eq _ hnull]
    rfl
  · rw [fboEntry, if_neg hnull]
    rw [if_neg (show ¬ ((fixedLen (row.take i) : Int) < 0) by omega)]
    have htoNat : ((fixedLen (row.take i) : Int)).toNat
        = fixedLen (row.take i) := Int.toNat_natCast _
    rw [htoNat]
    rw [if_pos (by
      rw [hlenbuf, ← hBn]
      have := fixedLen_take_le row i
      omega)]
    have hoff2 : (toLeBytes 4 n ++ B).length + fixedLen row
        = 4 + Bn + fixedLen row := by
      rw [hprelen]
    have hbufeq : buf = (toLeBytes 4 n ++ B) ++ (F ++ V) := by
      rw [hbuf, List.append_assoc]
    have hslot := datum_view_at_raw_slot row i (toLeBytes 4 n ++ B) hi
      (bool_eq_false hnull) (hwf i hi)
      (by rw [hoff2]; exact hck)
    rw [hprelen, ← hF, ← hV, ← hbufeq] at hslot
    rw [← hBn]
    exact hslot

/-! ### A successful write implies the length checks passed -/

lemma write_slice_ok_snd {inner : List Nat} {p : Nat} {v : List Nat}
    {r : List Nat × Nat} (h : write_slice_to_offset inner p v = .ok r) :
    r.2 = p + v.length := by
  rw [write_slice_to_offset] at h
  split at h
  · injection h with h
    rw [← h]
  · exact Except.noConfusion h

lemma fixed_block_ok_inv (buf : List Nat) (doff soff : Nat) (K : Nat)
    (payload : List Nat) (r : List Nat × Nat × Nat)
    (h : (do
        let r1 ← write_byte_to_offset buf doff K
        let r2 ← write_slice_to_offset r1.1 r1.2 payload
        (.ok (r2.1, r2.2, soff) :
          Except WriteError (List Nat × Nat × Nat))) = .ok r) :
    r.2.2 = soff := by
  simp only [bind, Except.bind] at h
  cases hb : write_byte_to_offset buf doff K with
  | error e => simp [hb] at h
  | ok r1 =>
    simp only [hb] at h
    cases hs : write_slice_to_offset r1.1 r1.2 payload with
    | error e => simp [hs] at h
    | ok r2 =>
      simp only [hs] at h
      injection h with h
      rw [← h]

lemma varlen_block_ok_inv (buf : List Nat) (doff soff : Nat) (K : Nat)
    (v : List Nat) (r : List Nat × Nat × Nat)
    (h : (do
        let r1 ← write_byte_to_offset buf doff K
        if soff ≤ MAX_ROW_LEN then
          let r2 ← write_slice_to_offset r1.1 r1.2 (toLeBytes 4 soff)
          if v.length ≤ MAX_STRING_LEN then
            let r3 ← write_slice_to_offset r2.1 soff (toLeBytes 4 v.length)
            let r4 ← write_slice_to_offset r3.1 r3.2 v
            (.ok (r4.1, r2.2, r4.2) :
              Except WriteError (List Nat × Nat × Nat))
          else .error (.stringTooLong v.length)
        else .error (.stringTooLong soff)) = .ok r) :
    r.2.2 = soff + (4 + v.length)
      ∧ soff ≤ MAX_ROW_LEN ∧ v.length ≤ MAX_STRING_LEN := by
  simp only [bind, Except.bind] at h
  cases hb : write_byte_to_offset buf doff K with
  | error e => simp [hb] at h
  | ok r1 =>
    simp only [hb] at h
    by_cases h1 : soff ≤ MAX_ROW_LEN
    · rw [if_pos h1] at h
      cases hs2 : write_slice_to_offset r1.1 r1.2 (toLeBytes 4 soff) with
      | error e => simp [hs2] at h
      | ok r2 =>
        simp only [hs2] at h
        by_cases h2 : v.length ≤ MAX_STRING_LEN
        · rw [if_pos h2] at h
          cases hs3 : write_slice_to_offset r2.1 soff (toLeBytes 4 v.length) with
          | error e => simp [hs3] at h
          | ok r3 =>
            simp only [hs3] at h
            cases hs4 : write_slice_to_offset r3.1 r3.2 v with
            | error e => simp [hs4] at h
            | ok r4 =>
              simp only [hs4] at h
              injection h with h
              refine ⟨?_, h1, h2⟩
              rw [← h]
              show r4.2 = soff + (4 + v.length)
              rw [write_slice_ok_snd hs4, write_slice_ok_snd hs3,
                toLeBytes_length]
              omega
        · rw [if_neg h2] at h
          exact Except.noConfusion h
    · rw [if_neg h1] at h
      exact Except.noConfusion h

/-- What a successful `write_datum` guarantees: the var-len offset advanced by
the var-len footprint, and for var-len datums both `ensure` checks held. -/
lemma write_datum_ok_inv (buf : List Nat) (d : Datum) (doff soff : Nat)
    (r : List Nat × Nat × Nat)
    (h : write_datum buf d doff soff = .ok r) :
    r.2.2 = soff + (varEnc d).length
      ∧ (d.is_fixed_sized = true
          ∨ (soff ≤ MAX_ROW_LEN ∧ d.size ≤ MAX_STRING_LEN)) := by
  cases d
  case null =>
    rw [write_datum] at h
    injection h with h
    rw [← h]
    exact ⟨rfl, Or.inl rfl⟩
  case varbinary v =>
    rw [write_datum] at h
    have hv := varlen_block_ok_inv buf doff soff DatumKind.varbinary.into_u8
      v r h
    refine ⟨?_, Or.inr ⟨hv.2.1, hv.2.2⟩⟩
    rw [hv.1, varEnc_length]
    rfl
  case string v =>
    rw [write_datum] at h
    have hv := varlen_block_ok_inv buf doff soff DatumKind.string.into_u8
      v r h
    refine ⟨?_, Or.inr ⟨hv.2.1, hv.2.2⟩⟩
    rw [hv.1, varEnc_length]
    rfl
  all_goals
    rw [write_datum] at h
    refine ⟨?_, Or.inl rfl⟩
    have h2 := fixed_block_ok_inv _ _ _ _ _ r h
    rw [h2]
    rfl

lemma writeWithNullsLoop_ok_checks (row : List Datum) (n : Nat)
    (hn : row.length = n) :
    ∀ (k i : Nat) (buf : List Nat) (doff soff : Nat) (bs : BitSet)
      (r : List Nat × Nat × Nat × BitSet),
      i + k ≤ n →
      writeWithNullsLoop (for_same_schema n) row i k buf doff soff bs
        = .ok r →
      checksOk ((row.drop i).take k) soff = true := by
  intro k
  induction k with
  | zero => intro i buf doff soff bs r _ _; rfl
  | succ k ih =>
    intro i buf doff soff bs r hik h
    have hi : i < row.length := by omega
    simp only [writeWithNullsLoop, for_same_schema_lt (show i < n by omega),
      rowAt_lt hi, bind, Except.bind] at h
    cases hwd : write_datum buf (row.getD i Datum.null) doff soff with
    | error e =>
      rw [hwd] at h
      exact Except.noConfusion h
    | ok r1 =>
      simp only [hwd] at h
      have hinv := write_datum_ok_inv buf _ doff soff r1 hwd
      have hrest := ih (i + 1) r1.1 r1.2.1 r1.2.2 _ r (by omega) h
      rw [drop_take_cons hi, checksOk_cons]
      refine ⟨hinv.2, ?_⟩
      rw [← hinv.1]
      exact hrest

lemma writeWithoutNullsLoop_ok_checks (schema : Schema) (row : List Datum)
    (n : Nat) (hn : row.length = n) :
    ∀ (k i : Nat) (buf : List Nat) (doff soff : Nat)
      (r : List Nat × Nat × Nat),
      i + k ≤ n →
      writeWithoutNullsLoop schema (for_same_schema n) row i k buf doff soff
        = .ok r →
      checksOk ((row.drop i).take k) soff = true := by
  intro k
  induction k with
  | zero => intro i buf doff soff r _ _; rfl
  | succ k ih =>
    intro i buf doff soff r hik h
    have hi : i < row.length := by omega
    simp only [writeWithoutNullsLoop, for_same_schema_lt (show i < n by omega),
      rowAt_lt hi, bind, Except.bind] at h
    cases hwd : write_datum buf (row.getD i Datum.null) doff soff with
    | error e =>
      rw [hwd] at h
      exact Except.noConfusion h
    | ok r1 =>
      simp only [hwd] at h
      have hinv := write_datum_ok_inv buf _ doff soff r1 hwd
      have hrest := ih (i + 1) r1.1 r1.2.1 r1.2.2 r (by omega) h
      rw [drop_take_cons hi, checksOk_cons]
      refine ⟨hinv.2, ?_⟩
      rw [← hinv.1]
      exact hrest

lemma write_row_with_nulls_ok_checks (schema : Schema) (row : List Datum)
    (hm : row.length = schema.num_columns) (b : List Nat)
    (h : write_row_with_nulls schema (for_same_schema schema.num_columns) row
      = .ok b) :
    checksOk row
      (4 + BitSet.num_bytes schema.num_columns + fixedLen row) = true := by
  have hall : (row.drop 0).take schema.num_columns = row := by
    rw [List.drop_zero, ← hm, List.take_length]
  have hlenloop := encodedLenLoop_eq row schema.num_columns hm
    schema.num_columns 0 (by omega)
  rw [hall] at hlenloop
  have hb : (BitSet.all_set schema.num_columns).as_bytes.length
      = BitSet.num_bytes schema.num_columns := all_set_as_bytes_length _
  rw [write_row_with_nulls] at h
  simp only [hlenloop, bind, Except.bind, hb] at h
  have hsub : fixedLen row + varLen row
      + (4 + BitSet.num_bytes schema.num_columns) - varLen row
      = 4 + BitSet.num_bytes schema.num_columns + fixedLen row := by
    omega
  rw [hsub] at h
  cases hloop : writeWithNullsLoop (for_same_schema schema.num_columns) row 0
      schema.num_columns
      (List.replicate (fixedLen row + varLen row
        + (4 + BitSet.num_bytes schema.num_columns)) 0)
      (4 + BitSet.num_bytes schema.num_columns)
      (4 + BitSet.num_bytes schema.num_columns + fixedLen row)
      (BitSet.all_set schema.num_columns) with
  | error e => simp [hloop] at h
  | ok r =>
    have hc := writeWithNullsLoop_ok_checks row schema.num_columns hm
      schema.num_columns 0 _ _ _ _ r (by omega) hloop
    rw [hall] at hc
    exact hc

lemma write_row_without_nulls_ok_checks (schema : Schema) (row : List Datum)
    (hm : row.length = schema.num_columns) (b : List Nat)
    (h : write_row_without_nulls schema
        (for_same_schema schema.num_columns) row = .ok b) :
    checksOk row (schema.string_buffer_offset + 4) = true := by
  have hall : (row.drop 0).take schema.num_columns = row := by
    rw [List.drop_zero, ← hm, List.take_length]
  have hvarloop := varLenLoop_eq row schema.num_columns hm schema.num_columns 0
    (by omega)
  rw [hall] at hvarloop
  rw [write_row_without_nulls] at h
  simp only [hvarloop, bind, Except.bind] at h
  cases hloop : writeWithoutNullsLoop schema
      (for_same_schema schema.num_columns) row 0 schema.num_columns
      (List.replicate (schema.string_buffer_offset + 4 + varLen row)
        DatumKind.null.into_u8)
      4 (schema.string_buffer_offset + 4) with
  | error e => simp [hloop] at h
  | ok r =>
    have hc := writeWithoutNullsLoop_ok_checks schema row schema.num_columns hm
      schema.num_columns 0 _ _ _ r (by omega) hloop
    rw [hall] at hc
    exact hc

/-- C3: for every row whose datums match the table schema (length, value
ranges and — at non-null positions — column types; any subset of columns may
be null), if `ContiguousRowWriter::write_row` (identity writer mapping)
succeeds then reading the produced buffer back with
`ContiguousRowReader::try_new` yields, at every column index, a datum view
equal to the original datum, with `DatumView.null` at exactly the original
null positions. -/
theorem contiguous_row_roundtrip (schema : Schema) (row : List Datum)
    (buf : List Nat) (i : Nat)
    (hm : row.length = schema.num_columns)
    (hwf : ∀ j, j < row.length → (row.getD j Datum.null).wf = true)
    (hms : ∀ j, j < row.length → (row.getD j Datum.null).is_null = false →
      (row.getD j Datum.null).kind = (schema.column j).data_type)
    (hn32 : schema.num_columns < 2 ^ 32)
    (hok : write_row schema (for_same_schema schema.num_columns) row
      = .ok buf)
    (hi : i < schema.num_columns) :
    readViewAt buf schema i = some (row.getD i Datum.null).as_view := by
  rw [write_row_dispatch schema row hm] at hok
  by_cases hnz : numNulls row > 0
  · rw [if_pos hnz] at hok
    have hck := write_row_with_nulls_ok_checks schema row hm buf hok
    have heq := write_row_with_nulls_eq schema row hm hck
    rw [heq] at hok
    injection hok with hok
    rw [← hok]
    exact readViewAt_with_nulls schema row hm hwf hms hn32
      (by have := numNulls_pos_len row hnz; omega) hck i (by omega)
  · rw [if_neg hnz] at hok
    have hck := write_row_without_nulls_ok_checks schema row hm buf hok
    have hnonull := numNulls_eq_zero row (by omega)
    have hfl : fixedLen row = schema.string_buffer_offset := by
      have hpre := nullBytes_fixedLen_agree row schema hm hms row.length
        le_rfl
      rw [nullBytesPrefix_zero row schema row.length
          (fun j hj => hnonull j hj),
        List.take_length, hm, sboPrefix_full] at hpre
      omega
    have heq := write_row_without_nulls_eq schema row hm hfl hck
    rw [heq] at hok
    injection hok with hok
    rw [← hok]
    exact readViewAt_no_nulls schema row hm hwf hnonull hms hck i (by omega)

/-- Witness for C3 at a concrete input: a two-column row (a `uint8` and a
null string column) writes to a 7-byte buffer and reads back both the value
and the null. -/
theorem contiguous_row_roundtrip_witness :
    write_row
        { columns := [{ data_type := .uint8 }, { data_type := .string }] }
        (for_same_schema 2) [Datum.uint8 7, Datum.null]
      = .ok [2, 0, 0, 0, 253, 9, 7]
    ∧ readViewAt [2, 0, 0, 0, 253, 9, 7]
        { columns := [{ data_type := .uint8 }, { data_type := .string }] } 0
      = some (DatumView.uint8 7)
    ∧ readViewAt [2, 0, 0, 0, 253, 9, 7]
        { columns := [{ data_type := .uint8 }, { data_type := .string }] } 1
      = some DatumView.null := by
  refine ⟨rfl, ?_, ?_⟩
  · exact contiguous_row_roundtrip
      { columns := [{ data_type := .uint8 }, { data_type := .string }] }
      [Datum.uint8 7, Datum.null] [2, 0, 0, 0, 253, 9, 7] 0 rfl
      (by
        intro j hj
        simp only [List.length_cons, List.length_nil] at hj
        interval_cases j <;> decide)
      (by
        intro j hj
        simp only [List.length_cons, List.length_nil] at hj
        interval_cases j <;> decide)
      (by decide)
      rfl
      (by decide)
  · exact contiguous_row_roundtrip
      { columns := [{ data_type := .uint8 }, { data_type := .string }] }
      [Datum.uint8 7, Datum.null] [2, 0, 0, 0, 253, 9, 7] 1 rfl
      (by
        intro j hj
        simp only [List.length_cons, List.length_nil] at hj
        interval_cases j <;> decide)
      (by
        intro j hj
        simp only [List.length_cons, List.length_nil] at hj
        interval_cases j <;> decide)
      (by decide)
      rfl
      (by decide)

/-! ### Row/string length limits (C8) -/

lemma numNulls_replicate_not_null (d : Datum) (hd : d.is_null = false) :
    ∀ k, numNulls (List.replicate k d) = 0 := by
  intro k
  induction k with
  | zero => rfl
  | succ k ih =>
    rw [List.replicate_succ, numNulls, hd, ih]
    simp

lemma fixedLen_replicate (d : Datum) :
    ∀ k, fixedLen (List.replicate k d)
      = k * (if d.is_null then 0 else byte_size_of_datum d.kind) := by
  intro k
  induction k with
  | zero => simp [fixedLen]
  | succ k ih =>
    rw [List.replicate_succ, fixedLen, ih, Nat.succ_mul]
    ring

lemma varLen_replicate (d : Datum) :
    ∀ k, varLen (List.replicate k d)
      = k * (if d.is_fixed_sized then 0 else d.size + 4) := by
  intro k
  induction k with
  | zero => simp [varLen]
  | succ k ih =>
    rw [List.replicate_succ, varLen, ih, Nat.succ_mul]
    ring

lemma checksOk_replicate_string (v : List Nat)
    (hv : v.length ≤ MAX_STRING_LEN) :
    ∀ k s0, s0 + k * (4 + v.length) ≤ MAX_ROW_LEN + (4 + v.length) →
      checksOk (List.replicate k (Datum.string v)) s0 = true := by
  intro k
  induction k with
  | zero => intro s0 _; rfl
  | succ k ih =>
    intro s0 hbnd
    rw [Nat.succ_mul] at hbnd
    have hstep : (varEnc (Datum.string v)).length = 4 + v.length := by
      rw [varEnc_length]
      simp [Datum.is_fixed_sized, Datum.size, Nat.add_comm]
    rw [List.replicate_succ, checksOk_cons]
    constructor
    · refine Or.inr ⟨?_, by simpa [Datum.size] using hv⟩
      have hgen : ∀ p, s0 + (p + (4 + v.length))
          ≤ MAX_ROW_LEN + (4 + v.length) → s0 ≤ MAX_ROW_LEN := by
        intro p h
        omega
      exact hgen _ hbnd
    · rw [hstep]
      apply ih
      have hgen : ∀ p, s0 + (p + (4 + v.length))
            ≤ MAX_ROW_LEN + (4 + v.length) →
          s0 + (4 + v.length) + p ≤ MAX_ROW_LEN + (4 + v.length) := by
        intro p h
        omega
      exact hgen _ hbnd

/-- C8 (amended): `write_row` errors on every row containing a var-len datum
longer than 16 MiB; and it succeeds whenever every var-len datum is within
16 MiB and the whole encoding — header, null bit set, fixed slots and
var-len payloads — fits in 1 GiB.  The 1 GiB `ensure` protects each var-len
datum's starting offset before it is written, not the final encoded length:
see `write_row_over_1gib_still_ok`. -/
theorem write_row_length_limits (schema : Schema) (row : List Datum)
    (hm : row.length = schema.num_columns)
    (hms : ∀ j, j < row.length → (row.getD j Datum.null).is_null = false →
      (row.getD j Datum.null).kind = (schema.column j).data_type) :
    ((∃ d ∈ row, d.is_fixed_sized = false ∧ MAX_STRING_LEN < d.size) →
      ∃ e, write_row schema (for_same_schema schema.num_columns) row
        = .error e)
    ∧ ((∀ d ∈ row, d.is_fixed_sized = false → d.size ≤ MAX_STRING_LEN) →
      4 + BitSet.num_bytes schema.num_columns + schema.string_buffer_offset
          + varLen row ≤ MAX_ROW_LEN →
      ∃ b, write_row schema (for_same_schema schema.num_columns) row
        = .ok b) := by
  constructor
  · intro hbad
    obtain ⟨d, hdmem, hdfix, hdsz⟩ := hbad
    cases hres : write_row schema (for_same_schema schema.num_columns) row with
    | error e => exact ⟨e, rfl⟩
    | ok b =>
      exfalso
      obtain ⟨xs, ys, hsplit⟩ := List.append_of_mem hdmem
      rw [write_row_dispatch schema row hm] at hres
      by_cases hnz : numNulls row > 0
      · rw [if_pos hnz] at hres
        have hck := write_row_with_nulls_ok_checks schema row hm b hres
        rw [hsplit] at hck
        rcases checksOk_extract xs d ys _ hck with hf | hf
        · rw [hdfix] at hf
          exact Bool.noConfusion hf
        · omega
      · rw [if_neg hnz] at hres
        have hck := write_row_without_nulls_ok_checks schema row hm b hres
        rw [hsplit] at hck
        rcases checksOk_extract xs d ys _ hck with hf | hf
        · rw [hdfix] at hf
          exact Bool.noConfusion hf
        · omega
  · intro hstr hlen
    have hfllesbo : fixedLen row ≤ schema.string_buffer_offset := by
      have hpre := nullBytes_fixedLen_agree row schema hm hms row.length
        le_rfl
      rw [List.take_length, hm, sboPrefix_full] at hpre
      omega
    rw [write_row_dispatch schema row hm]
    by_cases hnz : numNulls row > 0
    · rw [if_pos hnz]
      exact ⟨_, write_row_with_nulls_eq schema row hm
        (checksOk_of_bounds row _ (by omega) hstr)⟩
    · rw [if_neg hnz]
      have hnonull := numNulls_eq_zero row (by omega)
      have hfl : fixedLen row = schema.string_buffer_offset := by
        have hpre := nullBytes_fixedLen_agree row schema hm hms row.length
          le_rfl
        rw [nullBytesPrefix_zero row schema row.length
            (fun j hj => hnonull j hj),
          List.take_length, hm, sboPrefix_full] at hpre
        omega
      exact ⟨_, write_row_without_nulls_eq schema row hm hfl
        (checksOk_of_bounds row _ (by omega) hstr)⟩

/-- Witness for C8 at a concrete input: a one-column schema and a one-byte
string row. -/
theorem write_row_length_limits_witness :
    ((∃ d ∈ [Datum.string [97]],
        d.is_fixed_sized = false ∧ MAX_STRING_LEN < d.size) →
      ∃ e, write_row { columns := [{ data_type := .string }] }
        (for_same_schema
          (Schema.num_columns { columns := [{ data_type := .string }] }))
        [Datum.string [97]] = .error e)
    ∧ ((∀ d ∈ [Datum.string [97]],
          d.is_fixed_sized = false → d.size ≤ MAX_STRING_LEN) →
      4 + BitSet.num_bytes
            (Schema.num_columns { columns := [{ data_type := .string }] })
          + Schema.string_buffer_offset
              { columns := [{ data_type := .string }] }
          + varLen [Datum.string [97]] ≤ MAX_ROW_LEN →
      ∃ b, write_row { columns := [{ data_type := .string }] }
        (for_same_schema
          (Schema.num_columns { columns := [{ data_type := .string }] }))
        [Datum.string [97]] = .ok b) :=
  write_row_length_limits { columns := [{ data_type := .string }] }
    [Datum.string [97]] rfl
    (by
      intro j hj
      simp only [List.length_cons, List.length_nil] at hj
      interval_cases j
      decide)

/-- The row-length half of the original C8 sentence is wrong: a row whose
encoding is longer than 1 GiB that `write_row` still accepts — 64 columns,
each a 16 MiB string, encode to 1073742404 bytes, above
`MAX_ROW_LEN = 2^30`. -/
theorem write_row_over_1gib_still_ok :
    (write_row { columns := List.replicate 64 { data_type := .string } }
        (for_same_schema
          (Schema.num_columns
            { columns := List.replicate 64 { data_type := .string } }))
        (List.replicate 64
          (Datum.string (List.replicate 16777216 97)))).map
      List.length = .ok 1073742404
    ∧ MAX_ROW_LEN < 1073742404 := by
  constructor
  · set v := List.replicate 16777216 (97 : Nat) with hv
    set row := List.replicate 64 (Datum.string v) with hrow
    set schema : Schema :=
      { columns := List.replicate 64 { data_type := DatumKind.string } }
      with hschema
    have hvlen : v.length = 16777216 := by
      rw [hv, List.length_replicate]
    have hm : row.length = schema.num_columns := by
      rw [hrow, List.length_replicate, hschema, Schema.num_columns,
        List.length_replicate]
    have hnn : numNulls row = 0 := by
      rw [hrow]
      exact numNulls_replicate_not_null (Datum.string v) rfl 64
    have hsbo : schema.string_buffer_offset = 320 := by
      rw [hschema, Schema.string_buffer_offset, List.map_replicate,
        List.sum_replicate]
      norm_num [byte_size_of_datum]
    have hfl : fixedLen row = schema.string_buffer_offset := by
      rw [hrow, fixedLen_replicate, hsbo]
      norm_num [Datum.is_null, Datum.kind, byte_size_of_datum]
    have hvarlen : varLen row = 1073742080 := by
      rw [hrow, varLen_replicate]
      norm_num [Datum.is_fixed_sized, Datum.size, hvlen]
    have hck : checksOk row (schema.string_buffer_offset + 4) = true := by
      rw [hrow]
      apply checksOk_replicate_string v
        (by rw [hvlen]; norm_num [MAX_STRING_LEN]) 64
      rw [hvlen, hsbo]
      norm_num [MAX_ROW_LEN]
    have heq := write_row_without_nulls_eq schema row hm hfl hck
    rw [write_row_dispatch schema row hm, hnn]
    rw [if_neg (by omega)]
    rw [heq]
    simp only [Except.map]
    refine congrArg Except.ok ?_
    rw [List.length_append, List.length_append, toLeBytes_length,
      fixedCat_length, varCat_length, hfl, hsbo, hvarlen]
  · norm_num [MAX_ROW_LEN]

end HoraeDB
